import Mathlib

/-! # Red-black tree (`src/rbtree.c`): shallow embedding and verification

The C program keeps its nodes on the heap and links them by pointers (left, right, parent),
with one sentinel node per tree standing for every missing link.  The embedding keeps that
shape: a pointer is an address (`Nat`, `0` is `NULL`), the heap is a map from addresses to
node records, every C function is a Lean function on the tree record that carries the heap, and
every `while` loop or recursion over the heap takes an explicit fuel argument and returns `none`
when the fuel runs out.
-/

namespace Rbtree

/-! ## Data model -/

/-- Modelled from the spec: the colour tag `color_t` declared in `rbtree.h` (not under `src/`);
a node is RED or BLACK. -/
inductive color_t where
  | RBTREE_RED
  | RBTREE_BLACK
deriving DecidableEq

open color_t

/-- Modelled from the spec: the node record `node_t` declared in `rbtree.h` (not under `src/`):
a colour, a scalar key and the three links parent, left, right (addresses). -/
structure node_t where
  color : color_t
  key : Int
  parent : Nat
  left : Nat
  right : Nat
deriving DecidableEq

/-- Modelled from the spec: the tree record `rbtree` declared in `rbtree.h` (not under `src/`):
the root link and the sentinel link.  The record also carries the C heap the links point into:
`mem` maps an address to the node stored there and `brk` is the next address `calloc` hands out
(addresses are never reused, `free` leaves the heap as it is). -/
structure rbtree where
  root : Nat
  nil : Nat
  mem : Nat → node_t
  brk : Nat

/-- The field `a->color`. -/
def rbtree.color (t : rbtree) (a : Nat) : color_t := (t.mem a).color
/-- The field `a->key`. -/
def rbtree.key (t : rbtree) (a : Nat) : Int := (t.mem a).key
/-- The field `a->parent`. -/
def rbtree.parent (t : rbtree) (a : Nat) : Nat := (t.mem a).parent
/-- The field `a->left`. -/
def rbtree.left (t : rbtree) (a : Nat) : Nat := (t.mem a).left
/-- The field `a->right`. -/
def rbtree.right (t : rbtree) (a : Nat) : Nat := (t.mem a).right

/-- Store the record `n` at address `a`. -/
def rbtree.set (t : rbtree) (a : Nat) (n : node_t) : rbtree :=
  { t with mem := fun b => if b = a then n else t.mem b }

/-- The assignment `a->color = c`. -/
def rbtree.setColor (t : rbtree) (a : Nat) (c : color_t) : rbtree :=
  t.set a { t.mem a with color := c }
/-- The assignment `a->key = k`. -/
def rbtree.setKey (t : rbtree) (a : Nat) (k : Int) : rbtree :=
  t.set a { t.mem a with key := k }
/-- The assignment `a->parent = p`. -/
def rbtree.setParent (t : rbtree) (a : Nat) (p : Nat) : rbtree :=
  t.set a { t.mem a with parent := p }
/-- The assignment `a->left = p`. -/
def rbtree.setLeft (t : rbtree) (a : Nat) (p : Nat) : rbtree :=
  t.set a { t.mem a with left := p }
/-- The assignment `a->right = p`. -/
def rbtree.setRight (t : rbtree) (a : Nat) (p : Nat) : rbtree :=
  t.set a { t.mem a with right := p }
/-- The assignment `t->root = p`. -/
def rbtree.setRoot (t : rbtree) (p : Nat) : rbtree :=
  { t with root := p }

/-- The call `calloc(1, sizeof(node_t))`: a fresh address holding a zeroed record. -/
def calloc_node (t : rbtree) : rbtree × Nat :=
  ({ t with mem := fun b => if b = t.brk then ⟨RBTREE_RED, 0, 0, 0, 0⟩ else t.mem b,
            brk := t.brk + 1 }, t.brk)

/-! ## The operations of `rbtree.c` -/

/-- The function `new_rbtree`: the sentinel is allocated at address 1, BLACK, key 0, linked to
itself; the root is the sentinel. -/
def new_rbtree : rbtree :=
  let p : rbtree := { root := 0, nil := 0, mem := fun _ => ⟨RBTREE_RED, 0, 0, 0, 0⟩, brk := 1 }
  let (p, nil) := calloc_node p
  let p := p.setColor nil RBTREE_BLACK
  let p := p.setKey nil 0
  let p := p.setLeft nil nil
  let p := p.setRight nil nil
  let p := p.setParent nil nil
  let p := { p with nil := nil }
  { p with root := p.nil }

/-- The function `left_rotate(t, x)`. -/
def left_rotate (t : rbtree) (x : Nat) : rbtree :=
  let y := t.right x
  let t := t.setRight x (t.left y)
  let t := if t.left y ≠ t.nil then t.setParent (t.left y) x else t
  let t := t.setParent y (t.parent x)
  let t :=
    if t.parent x = t.nil then t.setRoot y
    else if x = t.left (t.parent x) then t.setLeft (t.parent x) y
    else t.setRight (t.parent x) y
  let t := t.setLeft y x
  t.setParent x y

/-- The function `right_rotate(t, x)`. -/
def right_rotate (t : rbtree) (x : Nat) : rbtree :=
  let y := t.left x
  let t := t.setLeft x (t.right y)
  let t := if t.right y ≠ t.nil then t.setParent (t.right y) x else t
  let t := t.setParent y (t.parent x)
  let t :=
    if t.parent x = t.nil then t.setRoot y
    else if x = t.right (t.parent x) then t.setRight (t.parent x) y
    else t.setLeft (t.parent x) y
  let t := t.setRight y x
  t.setParent x y

/-- One pass through the body of the `while` loop of `rbtree_insert_fixup`: the new heap and the
new cursor `z`. -/
def rbtree_insert_fixup_body (t : rbtree) (z : Nat) : rbtree × Nat :=
  if t.parent z = t.left (t.parent (t.parent z)) then
    let y := t.right (t.parent (t.parent z))
    if t.color y = RBTREE_RED then
      let t := t.setColor (t.parent z) RBTREE_BLACK
      let t := t.setColor y RBTREE_BLACK
      let t := t.setColor (t.parent (t.parent z)) RBTREE_RED
      (t, t.parent (t.parent z))
    else
      let (t, z) :=
        if z = t.right (t.parent z) then (left_rotate t (t.parent z), t.parent z) else (t, z)
      let t := t.setColor (t.parent z) RBTREE_BLACK
      let t := t.setColor (t.parent (t.parent z)) RBTREE_RED
      (right_rotate t (t.parent (t.parent z)), z)
  else
    let y := t.left (t.parent (t.parent z))
    if t.color y = RBTREE_RED then
      let t := t.setColor (t.parent z) RBTREE_BLACK
      let t := t.setColor y RBTREE_BLACK
      let t := t.setColor (t.parent (t.parent z)) RBTREE_RED
      (t, t.parent (t.parent z))
    else
      let (t, z) :=
        if z = t.left (t.parent z) then (right_rotate t (t.parent z), t.parent z) else (t, z)
      let t := t.setColor (t.parent z) RBTREE_BLACK
      let t := t.setColor (t.parent (t.parent z)) RBTREE_RED
      (left_rotate t (t.parent (t.parent z)), z)

/-- The function `rbtree_insert_fixup(t, z)`; the first argument is the fuel of its loop. -/
def rbtree_insert_fixup : Nat → rbtree → Nat → Option rbtree
  | 0, _, _ => none
  | fuel + 1, t, z =>
    if t.color (t.parent z) = RBTREE_RED then
      rbtree_insert_fixup fuel (rbtree_insert_fixup_body t z).1 (rbtree_insert_fixup_body t z).2
    else
      some (t.setColor t.root RBTREE_BLACK)

/-- The search loop of `rbtree_insert`: from the cursor `x` and its trailing parent `y` down to
the sentinel; the result is the final `y`. -/
def insert_descend (t : rbtree) (z : Nat) : Nat → Nat → Nat → Option Nat
  | 0, _, _ => none
  | fuel + 1, x, y =>
    if x ≠ t.nil then
      insert_descend t z fuel (if t.key z < t.key x then t.left x else t.right x) x
    else
      some y

/-- The function `rbtree_insert(t, key)`: the new heap and the returned node. -/
def rbtree_insert (fuel : Nat) (t : rbtree) (key : Int) : Option (rbtree × Nat) :=
  let (t, z) := calloc_node t
  let t := t.setKey z key
  let t := t.setColor z RBTREE_RED
  let t := t.setRight z t.nil
  let t := t.setLeft z t.nil
  match insert_descend t z fuel t.root t.nil with
  | none => none
  | some y =>
    let t := t.setParent z y
    let t :=
      if y = t.nil then t.setRoot z
      else if t.key z < t.key y then t.setLeft y z
      else t.setRight y z
    match rbtree_insert_fixup fuel t z with
    | none => none
    | some t => some (t, z)

/-- The `while` loop of `rbtree_find` from the cursor `x`: `some none` is the `NULL` result,
`none` is fuel exhaustion. -/
def rbtree_find_loop (t : rbtree) (key : Int) : Nat → Nat → Option (Option Nat)
  | 0, _ => none
  | fuel + 1, x =>
    if x ≠ t.nil then
      if key = t.key x then some (some x)
      else rbtree_find_loop t key fuel (if key < t.key x then t.left x else t.right x)
    else
      some none

/-- The function `rbtree_find(t, key)`. -/
def rbtree_find (fuel : Nat) (t : rbtree) (key : Int) : Option (Option Nat) :=
  rbtree_find_loop t key fuel t.root

/-- The function `min_node(t, x)`. -/
def min_node (t : rbtree) : Nat → Nat → Option Nat
  | 0, _ => none
  | fuel + 1, x => if t.left x ≠ t.nil then min_node t fuel (t.left x) else some x

/-- The function `rbtree_min(t)`: `some none` is the `NULL` result. -/
def rbtree_min (fuel : Nat) (t : rbtree) : Option (Option Nat) :=
  if t.root = t.nil then some none
  else (min_node t fuel t.root).map some

/-- The function `max_node(t, x)`. -/
def max_node (t : rbtree) : Nat → Nat → Option Nat
  | 0, _ => none
  | fuel + 1, x => if t.right x ≠ t.nil then max_node t fuel (t.right x) else some x

/-- The function `rbtree_max(t)`: `some none` is the `NULL` result. -/
def rbtree_max (fuel : Nat) (t : rbtree) : Option (Option Nat) :=
  if t.root = t.nil then some none
  else (max_node t fuel t.root).map some

/-- The function `rbtree_transplant(t, u, v)`. -/
def rbtree_transplant (t : rbtree) (u v : Nat) : rbtree :=
  let t :=
    if t.parent u = t.nil then t.setRoot v
    else if u = t.left (t.parent u) then t.setLeft (t.parent u) v
    else t.setRight (t.parent u) v
  t.setParent v (t.parent u)

/-- One pass through the body of the `while` loop of `rbtree_erase_fixup`: the new heap and the
new cursor `x`. -/
def rbtree_erase_fixup_body (t : rbtree) (x : Nat) : rbtree × Nat :=
  if x = t.left (t.parent x) then
    let w := t.right (t.parent x)
    let (t, w) :=
      if t.color w = RBTREE_RED then
        let t := t.setColor w RBTREE_BLACK
        let t := t.setColor (t.parent x) RBTREE_RED
        let t := left_rotate t (t.parent x)
        (t, t.right (t.parent x))
      else (t, w)
    if t.color (t.left w) = RBTREE_BLACK ∧ t.color (t.right w) = RBTREE_BLACK then
      let t := t.setColor w RBTREE_RED
      (t, t.parent x)
    else
      let (t, w) :=
        if t.color (t.right w) = RBTREE_BLACK then
          let t := t.setColor (t.left w) RBTREE_BLACK
          let t := t.setColor w RBTREE_RED
          let t := right_rotate t w
          (t, t.right (t.parent x))
        else (t, w)
      let t := t.setColor w (t.color (t.parent x))
      let t := t.setColor (t.parent x) RBTREE_BLACK
      let t := t.setColor (t.right w) RBTREE_BLACK
      let t := left_rotate t (t.parent x)
      (t, t.root)
  else
    let w := t.left (t.parent x)
    let (t, w) :=
      if t.color w = RBTREE_RED then
        let t := t.setColor w RBTREE_BLACK
        let t := t.setColor (t.parent x) RBTREE_RED
        let t := right_rotate t (t.parent x)
        (t, t.left (t.parent x))
      else (t, w)
    if t.color (t.right w) = RBTREE_BLACK ∧ t.color (t.left w) = RBTREE_BLACK then
      let t := t.setColor w RBTREE_RED
      (t, t.parent x)
    else
      let (t, w) :=
        if t.color (t.left w) = RBTREE_BLACK then
          let t := t.setColor (t.right w) RBTREE_BLACK
          let t := t.setColor w RBTREE_RED
          let t := left_rotate t w
          (t, t.left (t.parent x))
        else (t, w)
      let t := t.setColor w (t.color (t.parent x))
      let t := t.setColor (t.parent x) RBTREE_BLACK
      let t := t.setColor (t.left w) RBTREE_BLACK
      let t := right_rotate t (t.parent x)
      (t, t.root)

/-- The function `rbtree_erase_fixup(t, x)`; the first argument is the fuel of its loop. -/
def rbtree_erase_fixup : Nat → rbtree → Nat → Option rbtree
  | 0, _, _ => none
  | fuel + 1, t, x =>
    if x ≠ t.root ∧ t.color x = RBTREE_BLACK then
      rbtree_erase_fixup fuel (rbtree_erase_fixup_body t x).1 (rbtree_erase_fixup_body t x).2
    else
      some (t.setColor x RBTREE_BLACK)

/-- The function `rbtree_erase(t, z)`: the new heap and the returned status (always 0).  The
call `free(z)` leaves the heap map as it is: the record of `z` stays behind, unlinked. -/
def rbtree_erase (fuel : Nat) (t : rbtree) (z : Nat) : Option (rbtree × Int) :=
  let y := z
  let y_original_color := t.color y
  let r : Option (rbtree × Nat × color_t) :=
    if t.left z = t.nil then
      let x := t.right z
      some (rbtree_transplant t z (t.right z), x, y_original_color)
    else if t.right z = t.nil then
      let x := t.left z
      some (rbtree_transplant t z (t.left z), x, y_original_color)
    else
      match min_node t fuel (t.right z) with
      | none => none
      | some y =>
        let y_original_color := t.color y
        let x := t.right y
        let t :=
          if t.parent y = z then t.setParent x y
          else
            let t := rbtree_transplant t y (t.right y)
            let t := t.setRight y (t.right z)
            t.setParent (t.right y) y
        let t := rbtree_transplant t z y
        let t := t.setLeft y (t.left z)
        let t := t.setParent (t.left y) y
        let t := t.setColor y (t.color z)
        some (t, x, y_original_color)
  match r with
  | none => none
  | some (t, x, y_original_color) =>
    if y_original_color = RBTREE_BLACK then
      match rbtree_erase_fixup fuel t x with
      | none => none
      | some t => some (t, 0)
    else some (t, 0)

/-- The function `inorder_fill(t, x, arr, n, idx)`: the buffer `arr` and the index `*idx` are
threaded through; the first argument is the fuel of the recursion. -/
def inorder_fill (t : rbtree) (n : Nat) :
    Nat → Nat → (Nat → Int) × Nat → Option ((Nat → Int) × Nat)
  | 0, _, _ => none
  | fuel + 1, x, (arr, idx) =>
    if x = t.nil ∨ idx ≥ n then some (arr, idx)
    else
      match inorder_fill t n fuel (t.left x) (arr, idx) with
      | none => none
      | some (arr, idx) =>
        let (arr, idx) :=
          if idx < n then ((fun i => if i = idx then t.key x else arr i), idx + 1)
          else (arr, idx)
        inorder_fill t n fuel (t.right x) (arr, idx)

/-- The function `rbtree_to_array(t, arr, n)`: the buffer after the call and the returned
status. -/
def rbtree_to_array (fuel : Nat) (t : rbtree) (arr : Nat → Int) (n : Nat) :
    Option ((Nat → Int) × Int) :=
  let idx := 0
  match inorder_fill t n fuel t.root (arr, idx) with
  | none => none
  | some (arr, _) => some (arr, 0)


/-! ## The tree a heap lays out -/

/-- A binary tree of coloured, keyed nodes, each tagged with the address of its record; `nil`
stands for a link to the sentinel. -/
inductive Tree where
  | nil
  | node (c : color_t) (l : Tree) (a : Nat) (k : Int) (r : Tree)

namespace Tree

/-- The link that points to this tree: the address of its root record, the sentinel `nl` for the
empty tree. -/
def ptr (nl : Nat) : Tree → Nat
  | nil => nl
  | node _ _ a _ _ => a

/-- The addresses of the nodes, in in-order. -/
def addrs : Tree → List Nat
  | nil => []
  | node _ l a _ r => l.addrs ++ a :: r.addrs

/-- The nodes in in-order, each as the pair of its address and its key. -/
def elems : Tree → List (Nat × Int)
  | nil => []
  | node _ l a k r => l.elems ++ (a, k) :: r.elems

/-- The keys in in-order. -/
def keys : Tree → List Int
  | nil => []
  | node _ l _ k r => l.keys ++ k :: r.keys

/-- The number of nodes. -/
def size : Tree → Nat
  | nil => 0
  | node _ l _ _ r => l.size + 1 + r.size

/-- The number of real nodes on the longest path from the root to the sentinel. -/
def height : Tree → Nat
  | nil => 0
  | node _ l _ _ r => max l.height r.height + 1

/-- The colour of the root; the sentinel is BLACK. -/
def rootColor : Tree → color_t
  | nil => RBTREE_BLACK
  | node c _ _ _ _ => c

/-- One for BLACK, zero for RED. -/
def blk (c : color_t) : Nat := if c = RBTREE_BLACK then 1 else 0

/-- The number of BLACK nodes on the leftmost path. -/
def bh : Tree → Nat
  | nil => 0
  | node c l _ _ _ => l.bh + blk c

/-- For every path from the root down to the sentinel, its number of BLACK real nodes. -/
def blackCounts : Tree → List Nat
  | nil => [0]
  | node c l _ _ r => (l.blackCounts ++ r.blackCounts).map (· + blk c)

/-- Every path from the root down to the sentinel holds the same number of BLACK nodes. -/
def EqualBlack (T : Tree) : Prop :=
  ∀ x ∈ T.blackCounts, ∀ y ∈ T.blackCounts, x = y

/-- At every node, the left and right subtrees have the same black height. -/
def Bal : Tree → Prop
  | nil => True
  | node _ l _ _ r => l.bh = r.bh ∧ l.Bal ∧ r.Bal

/-- No RED node has a RED child. -/
def NoRR : Tree → Prop
  | nil => True
  | node c l _ _ r =>
    (c = RBTREE_RED → l.rootColor = RBTREE_BLACK ∧ r.rootColor = RBTREE_BLACK) ∧ l.NoRR ∧ r.NoRR

/-- The three red-black properties: BLACK root, no RED node with a RED child, equal number of
BLACK nodes on every path from the root to the sentinel. -/
def IsRB (T : Tree) : Prop :=
  T.rootColor = RBTREE_BLACK ∧ T.NoRR ∧ T.EqualBlack

/-- The search-tree ordering with ties allowed on both sides: every key of the left subtree is
at most the key of the node, every key of the right subtree at least. -/
def Ordered : Tree → Prop
  | nil => True
  | node _ l _ k r => (∀ x ∈ l.keys, x ≤ k) ∧ (∀ x ∈ r.keys, k ≤ x) ∧ l.Ordered ∧ r.Ordered

/-- The search-tree ordering as the specification words it: every key of the left subtree is
strictly less than the key of the node, every key of the right subtree at least. -/
def StrictLeftOrdered : Tree → Prop
  | nil => True
  | node _ l _ k r =>
    (∀ x ∈ l.keys, x < k) ∧ (∀ x ∈ r.keys, k ≤ x) ∧ l.StrictLeftOrdered ∧ r.StrictLeftOrdered

/-- The tree with its root painted BLACK. -/
def blacken : Tree → Tree
  | nil => nil
  | node _ l a k r => node RBTREE_BLACK l a k r

end Tree

open Tree

/-- The heap `m` lays out the tree `T` below a node (or tree root) whose address is `par`: every
node of `T` is a record distinct from the sentinel `nl` whose colour and key are the node's and
whose links go to the parent and the roots of the two subtrees. -/
def Rep (m : Nat → node_t) (nl : Nat) : Tree → Nat → Prop
  | .nil, _ => True
  | .node c l a k r, par =>
    a ≠ nl ∧ m a = ⟨c, k, par, l.ptr nl, r.ptr nl⟩ ∧ Rep m nl l a ∧ Rep m nl r a

/-- The tree record `t` represents the tree `T`: the root link points to `T`, the heap lays `T`
out with the sentinel as the parent of the root, no record is used twice, the sentinel is BLACK
with its left and right links on itself, and every address in use was handed out by `calloc`. -/
structure Represents (t : rbtree) (T : Tree) : Prop where
  root : t.root = T.ptr t.nil
  rep : Rep t.mem t.nil T t.nil
  nodup : T.addrs.Nodup
  nil_color : (t.mem t.nil).color = RBTREE_BLACK
  nil_left : (t.mem t.nil).left = t.nil
  nil_right : (t.mem t.nil).right = t.nil
  nil_lt : t.nil < t.brk
  addrs_lt : ∀ a ∈ T.addrs, a < t.brk

/-- One step of a path from a node down into one of its subtrees: `L` when the path goes on into
the left subtree (the frame keeps the right one), `R` when it goes on into the right subtree. -/
inductive Frame where
  | L (c : color_t) (a : Nat) (k : Int) (r : Tree)
  | R (c : color_t) (l : Tree) (a : Nat) (k : Int)

/-- A tree with a hole: the frames from the parent of the hole up to the root. -/
abbrev Ctx := List Frame

/-- Fill the hole of a context. -/
def plug : Ctx → Tree → Tree
  | [], s => s
  | Frame.L c a k r :: up, s => plug up (Tree.node c s a k r)
  | Frame.R c l a k :: up, s => plug up (Tree.node c l a k s)

/-- The colour of the node of a frame. -/
def Frame.color : Frame → color_t
  | Frame.L c _ _ _ => c
  | Frame.R c _ _ _ => c

/-- The address of the node of a frame. -/
def Frame.addr : Frame → Nat
  | Frame.L _ a _ _ => a
  | Frame.R _ _ a _ => a

/-- The addresses of a frame: its node and the subtree it keeps. -/
def Frame.addrs : Frame → List Nat
  | Frame.L _ a _ r => a :: r.addrs
  | Frame.R _ l a _ => a :: l.addrs

/-- The addresses of all nodes of a context. -/
def caddrs : Ctx → List Nat
  | [] => []
  | f :: up => f.addrs ++ caddrs up

/-- The address of the parent of the hole; `o` when the hole is at the top. -/
def cpar (o : Nat) : Ctx → Nat
  | [] => o
  | f :: _ => f.addr

/-- The link to the root of the filled context when `h` is the link to the filling. -/
def croot : Ctx → Nat → Nat
  | [], h => h
  | f :: up, _ => croot up f.addr

/-- The heap lays out the context whose hole is filled by the link `h`, below the address `o`. -/
def RepCtx (m : Nat → node_t) (nl : Nat) (o : Nat) : Ctx → Nat → Prop
  | [], _ => True
  | Frame.L c a k r :: up, h =>
    a ≠ nl ∧ m a = ⟨c, k, cpar o up, h, r.ptr nl⟩ ∧ Rep m nl r a ∧ RepCtx m nl o up a
  | Frame.R c l a k :: up, h =>
    a ≠ nl ∧ m a = ⟨c, k, cpar o up, l.ptr nl, h⟩ ∧ Rep m nl l a ∧ RepCtx m nl o up a

/-- The pairs of address and key that come before the hole in in-order. -/
def cpre : Ctx → List (Nat × Int)
  | [] => []
  | Frame.L _ _ _ _ :: up => cpre up
  | Frame.R _ l a k :: up => cpre up ++ (l.elems ++ [(a, k)])

/-- The pairs of address and key that come after the hole in in-order. -/
def cpost : Ctx → List (Nat × Int)
  | [] => []
  | Frame.L _ a k r :: up => ((a, k) :: r.elems) ++ cpost up
  | Frame.R _ _ _ _ :: up => cpost up

/-- Balance of a context whose hole is to be filled by a tree of black height `n`. -/
def CtxBal : Ctx → Nat → Prop
  | [], _ => True
  | Frame.L c _ _ r :: up, n => r.bh = n ∧ r.Bal ∧ CtxBal up (n + blk c)
  | Frame.R c l _ _ :: up, n => l.bh = n ∧ l.Bal ∧ CtxBal up (n + blk c)

/-- Absence of RED-RED edges in a context whose hole is to be filled by a tree with root colour
`hc`. -/
def CtxNoRR : Ctx → color_t → Prop
  | [], _ => True
  | Frame.L c _ _ r :: up, hc =>
    (c = RBTREE_RED → hc = RBTREE_BLACK ∧ r.rootColor = RBTREE_BLACK) ∧ r.NoRR ∧ CtxNoRR up c
  | Frame.R c l _ _ :: up, hc =>
    (c = RBTREE_RED → l.rootColor = RBTREE_BLACK ∧ hc = RBTREE_BLACK) ∧ l.NoRR ∧ CtxNoRR up c

/-- The colour of the root of a filled context whose filling has root colour `hc`. -/
def ctxRootColor : Ctx → color_t → color_t
  | [], hc => hc
  | f :: up, _ => ctxRootColor up f.color

/-- The tree record `t` represents the context `C` filled with the tree `s`: the same facts as
`Represents t (plug C s)`, split into the layout of the context and the layout of the filling. -/
structure Focus (t : rbtree) (C : Ctx) (s : Tree) : Prop where
  root : t.root = croot C (s.ptr t.nil)
  ctx : RepCtx t.mem t.nil t.nil C (s.ptr t.nil)
  sub : Rep t.mem t.nil s (cpar t.nil C)
  nodup : (s.addrs ++ caddrs C).Nodup
  nil_color : (t.mem t.nil).color = RBTREE_BLACK
  nil_left : (t.mem t.nil).left = t.nil
  nil_right : (t.mem t.nil).right = t.nil
  nil_lt : t.nil < t.brk
  addrs_lt : ∀ a ∈ s.addrs ++ caddrs C, a < t.brk

/-- Loop invariant of `rbtree_insert_fixup`: the heap lays out the context `C` filled with a RED
node at the cursor `z`; the subtrees of `z` are red-black trees with BLACK roots; the context
is free of RED-RED edges as soon as its hole is BLACK, it is balanced for the black height `n`
of `z`, and its root, when the cursor is not the root, is BLACK. -/
structure InsInv (t : rbtree) (z : Nat) (C : Ctx) (l : Tree) (k : Int) (r : Tree) (n : Nat) :
    Prop where
  rep : Represents t (plug C (Tree.node RBTREE_RED l z k r))
  norr_l : l.NoRR
  norr_r : r.NoRR
  black_l : l.rootColor = RBTREE_BLACK
  black_r : r.rootColor = RBTREE_BLACK
  bal_l : l.Bal
  bal_r : r.Bal
  bh_l : l.bh = n
  bh_r : r.bh = n
  cnorr : CtxNoRR C RBTREE_BLACK
  cbal : CtxBal C n
  croot : ctxRootColor C RBTREE_BLACK = RBTREE_BLACK

/-- The number of loop iterations `rbtree_insert_fixup` may still need, as a bound: the depth of
the cursor while its parent is RED. -/
def insMeasure : Ctx → Nat
  | [] => 0
  | f :: up => if f.color = RBTREE_RED then up.length + 1 else 0

/-- The path the search loop of `rbtree_insert` takes for `key` through the tree `s` below the
context `C`: the context of the sentinel position where the new node is attached. -/
def insCtx (key : Int) : Tree → Ctx → Ctx
  | Tree.nil, C => C
  | Tree.node c l a k r, C =>
    if key < k then insCtx key l (Frame.L c a k r :: C) else insCtx key r (Frame.R c l a k :: C)

/-- The heap right after `rbtree_insert` has allocated and initialised the new node `z`. -/
def insert_init (t : rbtree) (key : Int) : rbtree :=
  ((((calloc_node t).1.setKey t.brk key).setColor t.brk RBTREE_RED).setRight t.brk t.nil).setLeft
    t.brk t.nil

/-- The heap after `rbtree_insert` has linked the new node `z` below `y`. -/
def insert_link (t : rbtree) (z y : Nat) : rbtree :=
  let t := t.setParent z y
  if y = t.nil then t.setRoot z
  else if t.key z < t.key y then t.setLeft y z
  else t.setRight y z

/-- The frame a key is attached under agrees with the comparison `rbtree_insert` makes. -/
def goodFrame (key : Int) : Frame → Prop
  | Frame.L _ _ k _ => key < k
  | Frame.R _ _ _ k => ¬ key < k

/-- The state the public operations keep: the tree record represents a tree that satisfies the
red-black properties (BLACK root, no RED node with a RED child, equal black height on both sides
of every node) and whose keys are in ascending order in in-order. -/
structure RBInv (t : rbtree) (T : Tree) : Prop where
  rep : Represents t T
  root_black : T.rootColor = RBTREE_BLACK
  norr : T.NoRR
  bal : T.Bal
  sorted : T.keys.Sorted (· ≤ ·)

/-- Loop invariant of `rbtree_erase_fixup`: the heap lays out the context `C` filled with the
tree `s` at the cursor (the sentinel when `s` is empty, and then the parent link of the sentinel
is the parent of the hole, unless the hole is the root); `s` is balanced with black height `n` and free of RED-RED edges
below its root, while the context expects black height `n + 1` in its hole and is free of
RED-RED edges as soon as the hole is BLACK. -/
structure DelInv (t : rbtree) (C : Ctx) (s : Tree) (n : Nat) : Prop where
  rep : Represents t (plug C s)
  par : C ≠ [] → t.parent (s.ptr t.nil) = cpar t.nil C
  norr : s.blacken.NoRR
  bal : s.Bal
  bh : s.bh = n
  cnorr : CtxNoRR C RBTREE_BLACK
  cbal : CtxBal C (n + 1)
  croot : ctxRootColor C RBTREE_BLACK = RBTREE_BLACK

/-- The number of loop iterations `rbtree_erase_fixup` may still need, as a bound: the depth of
the cursor while it is BLACK. -/
def delMeasure (C : Ctx) (s : Tree) : Nat :=
  if s.rootColor = RBTREE_BLACK then C.length else 0

/-- The part of the loop body of `rbtree_erase_fixup` after its case 1, when the cursor `x` is a
left child and `w` is its sibling (cases 2, 3 and 4). -/
def erase_fixup_rest_left (t : rbtree) (x w : Nat) : rbtree × Nat :=
  if t.color (t.left w) = RBTREE_BLACK ∧ t.color (t.right w) = RBTREE_BLACK then
    let t := t.setColor w RBTREE_RED
    (t, t.parent x)
  else
    let (t, w) :=
      if t.color (t.right w) = RBTREE_BLACK then
        let t := t.setColor (t.left w) RBTREE_BLACK
        let t := t.setColor w RBTREE_RED
        let t := right_rotate t w
        (t, t.right (t.parent x))
      else (t, w)
    let t := t.setColor w (t.color (t.parent x))
    let t := t.setColor (t.parent x) RBTREE_BLACK
    let t := t.setColor (t.right w) RBTREE_BLACK
    let t := left_rotate t (t.parent x)
    (t, t.root)

/-- The part of the loop body of `rbtree_erase_fixup` after its case 1, when the cursor `x` is a
right child and `w` is its sibling (cases 2, 3 and 4). -/
def erase_fixup_rest_right (t : rbtree) (x w : Nat) : rbtree × Nat :=
  if t.color (t.right w) = RBTREE_BLACK ∧ t.color (t.left w) = RBTREE_BLACK then
    let t := t.setColor w RBTREE_RED
    (t, t.parent x)
  else
    let (t, w) :=
      if t.color (t.left w) = RBTREE_BLACK then
        let t := t.setColor (t.right w) RBTREE_BLACK
        let t := t.setColor w RBTREE_RED
        let t := left_rotate t w
        (t, t.left (t.parent x))
      else (t, w)
    let t := t.setColor w (t.color (t.parent x))
    let t := t.setColor (t.parent x) RBTREE_BLACK
    let t := t.setColor (t.left w) RBTREE_BLACK
    let t := right_rotate t (t.parent x)
    (t, t.root)

/-- The heap after case 1 of the loop body of `rbtree_erase_fixup`, cursor a left child. -/
def erase_fixup_case1_left (t : rbtree) (x : Nat) : rbtree :=
  let w := t.right (t.parent x)
  let t := t.setColor w RBTREE_BLACK
  let t := t.setColor (t.parent x) RBTREE_RED
  left_rotate t (t.parent x)

/-- The heap after case 1 of the loop body of `rbtree_erase_fixup`, cursor a right child. -/
def erase_fixup_case1_right (t : rbtree) (x : Nat) : rbtree :=
  let w := t.left (t.parent x)
  let t := t.setColor w RBTREE_BLACK
  let t := t.setColor (t.parent x) RBTREE_RED
  right_rotate t (t.parent x)

/-- Every frame of the context goes on into a left subtree: the context is a left spine. -/
def AllL (C : Ctx) : Prop := ∀ f ∈ C, ∃ c a k r, f = Frame.L c a k r

/-- The relinking `rbtree_erase` does when `z` has two children and `y` is the minimum of its
right subtree: `y` is unlinked from its place and put into the place of `z`. -/
def erase_two_children (t : rbtree) (z y : Nat) : rbtree :=
  let x := t.right y
  let t :=
    if t.parent y = z then t.setParent x y
    else
      let t := rbtree_transplant t y (t.right y)
      let t := t.setRight y (t.right z)
      t.setParent (t.right y) y
  let t := rbtree_transplant t z y
  let t := t.setLeft y (t.left z)
  let t := t.setParent (t.left y) y
  t.setColor y (t.color z)

/-- The end of `rbtree_erase` after the node is unlinked: the fixup runs from `x` when the colour
of the removed position was BLACK. -/
def erase_finish (fuel : Nat) (t : rbtree) (x : Nat) (y_original_color : color_t) :
    Option (rbtree × Int) :=
  if y_original_color = RBTREE_BLACK then
    match rbtree_erase_fixup fuel t x with
    | none => none
    | some t => some (t, 0)
  else some (t, 0)

/-- The number of BLACK frames of a context. -/
def cblk : Ctx → Nat
  | [] => 0
  | f :: up => blk f.color + cblk up

/-- The binary-search descent of `rbtree_find` on the tree: the address of the first node with
the key met on the way down, if any. -/
def Tree.find (key : Int) : Tree → Option Nat
  | Tree.nil => none
  | Tree.node _ l a k r =>
    if key = k then some a else if key < k then l.find key else r.find key

/-- Every frame of the context goes on into a right subtree: the context is a right spine. -/
def AllR (C : Ctx) : Prop := ∀ f ∈ C, ∃ c l a k, f = Frame.R c l a k

/-- One store of `inorder_fill`: the key goes to slot `idx` when `idx < n`. -/
def fillStep (n : Nat) (k : Int) (st : (Nat → Int) × Nat) : (Nat → Int) × Nat :=
  if st.2 < n then ((fun i => if i = st.2 then k else st.1 i), st.2 + 1) else st

/-- The stores `inorder_fill` makes for a list of keys, in order. -/
def fill (n : Nat) : List Int → (Nat → Int) × Nat → (Nat → Int) × Nat
  | [], st => st
  | k :: ks, st => fill n ks (fillStep n k st)

/-- Calling `rbtree_insert` on each key of a list in turn, every call with the same fuel; the
returned node references are dropped. -/
def insert_all (fuel : Nat) : List Int → rbtree → Option rbtree
  | [], t => some t
  | k :: ks, t =>
    match rbtree_insert fuel t k with
    | none => none
    | some (t2, _) => insert_all fuel ks t2

/-- The states reached from `new_rbtree` by any interleaving of `rbtree_insert` calls and
`rbtree_erase` calls, each erase on a node currently in the tree, together with the reference
list of the nodes currently present (address and key): an insert that returns node `z` for key
`k` adds `(z, k)`, an erase of a present node `z` removes its pair. -/
inductive Reach : rbtree → List (Nat × Int) → Prop
  | new : Reach new_rbtree []
  | insert {t : rbtree} {ref : List (Nat × Int)} {fuel : Nat} {k : Int} {r : rbtree × Nat} :
      Reach t ref → rbtree_insert fuel t k = some r → Reach r.1 ((r.2, k) :: ref)
  | erase {t : rbtree} {ref : List (Nat × Int)} {fuel : Nat} {z : Nat} {k : Int}
      {r : rbtree × Int} :
      Reach t ref → (z, k) ∈ ref → rbtree_erase fuel t z = some r →
      Reach r.1 (ref.filter (fun p => p.1 ≠ z))

/-- Example state: the tree record after inserting the keys 1, 2, 3 into a new tree. -/
def example123 : rbtree := (insert_all 4 [1, 2, 3] new_rbtree).getD new_rbtree

/-- The tree `example123` represents: root 2 (BLACK) with the RED children 1 and 3. -/
def tree123 : Tree :=
  Tree.node RBTREE_BLACK (Tree.node RBTREE_RED Tree.nil 2 1 Tree.nil) 3 2
    (Tree.node RBTREE_RED Tree.nil 4 3 Tree.nil)

/-- Example state: the tree record after inserting the key 5 three times into a new tree. -/
def example555 : rbtree := (insert_all 4 [5, 5, 5] new_rbtree).getD new_rbtree

/-- The tree `example555` represents: three nodes with key 5, one of them the left child of
the root. -/
def tree555 : Tree :=
  Tree.node RBTREE_BLACK (Tree.node RBTREE_RED Tree.nil 2 5 Tree.nil) 3 5
    (Tree.node RBTREE_RED Tree.nil 4 5 Tree.nil)

/-- Example state: the tree record after inserting the keys 1, 2 into a new tree and then
erasing the node at address 3, which holds the key 2. -/
def exampleErased : rbtree :=
  (((insert_all 3 [1, 2] new_rbtree).bind (fun t => rbtree_erase 3 t 3)).map Prod.fst).getD
    new_rbtree

/-- Example state: the tree record after inserting the keys 10, 20 into a new tree. -/
def example1020 : rbtree := (insert_all 4 [10, 20] new_rbtree).getD new_rbtree

/-- Example state: `example1020` at the moment `rbtree_insert(t, 30)` calls the fixup: the new
node (address 4) is initialised and linked below the node found by the search loop (address 3,
key 20). -/
def example1020linked : rbtree := insert_link (insert_init example1020 30) 4 3

/-- Example state: the tree record after inserting the keys 10, 20, 30 into a new tree. -/
def example102030 : rbtree := (insert_all 4 [10, 20, 30] new_rbtree).getD new_rbtree

/-- The tree `example102030` represents: root 20 (BLACK) with the RED children 10 and 30. -/
def tree102030 : Tree :=
  Tree.node RBTREE_BLACK (Tree.node RBTREE_RED Tree.nil 2 10 Tree.nil) 3 20
    (Tree.node RBTREE_RED Tree.nil 4 30 Tree.nil)

/-- Example state: the tree record after inserting the keys 30, 20 into a new tree. -/
def example3020 : rbtree := (insert_all 4 [30, 20] new_rbtree).getD new_rbtree

/-- Example state: `example3020` at the moment `rbtree_insert(t, 10)` calls the fixup: the new
node (address 4) is initialised and linked below the node found by the search loop (address 3,
key 20). -/
def example3020linked : rbtree := insert_link (insert_init example3020 10) 4 3

/-- Example state: the tree record after inserting the keys 30, 20, 10 into a new tree. -/
def example302010 : rbtree := (insert_all 4 [30, 20, 10] new_rbtree).getD new_rbtree

/-- The tree `example302010` represents: root 20 (BLACK) with the RED children 10 and 30. -/
def tree302010 : Tree :=
  Tree.node RBTREE_BLACK (Tree.node RBTREE_RED Tree.nil 4 10 Tree.nil) 3 20
    (Tree.node RBTREE_RED Tree.nil 2 30 Tree.nil)

/-- Example state: the tree record after inserting the keys 1, 2, ..., 7 in ascending order into
a new tree.  The key `i` is held by the node at address `i + 1`. -/
def example1to7 : rbtree := (insert_all 8 [1, 2, 3, 4, 5, 6, 7] new_rbtree).getD new_rbtree

/-- The tree `example1to7` represents. -/
def tree1to7 : Tree :=
  Tree.node RBTREE_BLACK (Tree.node RBTREE_BLACK Tree.nil 2 1 Tree.nil) 3 2
    (Tree.node RBTREE_RED (Tree.node RBTREE_BLACK Tree.nil 4 3 Tree.nil) 5 4
      (Tree.node RBTREE_BLACK (Tree.node RBTREE_RED Tree.nil 6 5 Tree.nil) 7 6
        (Tree.node RBTREE_RED Tree.nil 8 7 Tree.nil)))

/-- Example state: `example1to7` after `rbtree_erase` on the node at address 5, which holds the
key 4. -/
def example1to7erased : rbtree :=
  ((rbtree_erase 8 example1to7 5).map Prod.fst).getD new_rbtree

/-- The tree `example1to7erased` represents: the node of key 5 (address 6) stands where the node
of key 4 stood. -/
def tree1to7erased : Tree :=
  Tree.node RBTREE_BLACK (Tree.node RBTREE_BLACK Tree.nil 2 1 Tree.nil) 3 2
    (Tree.node RBTREE_RED (Tree.node RBTREE_BLACK Tree.nil 4 3 Tree.nil) 6 5
      (Tree.node RBTREE_BLACK Tree.nil 7 6 (Tree.node RBTREE_RED Tree.nil 8 7 Tree.nil)))

/-- Executable form of `Rep`: the records of the heap are compared field by field. -/
def checkRep (m : Nat → node_t) (nl : Nat) : Tree → Nat → Bool
  | .nil, _ => true
  | .node c l a k r, par =>
    decide (a ≠ nl) && decide ((m a).color = c) && decide ((m a).key = k) &&
      decide ((m a).parent = par) && decide ((m a).left = l.ptr nl) &&
      decide ((m a).right = r.ptr nl) && checkRep m nl l a && checkRep m nl r a

/-- The context is the path the search loop of `rbtree_find` takes for `key` from the root to the
hole: at every node on it the key differs from `key`, and the path goes on to the left where
`key` is less than the key of the node and to the right where it is not. -/
def findPath (key : Int) : Ctx → Prop
  | [] => True
  | Frame.L _ _ k _ :: up => key ≠ k ∧ key < k ∧ findPath key up
  | Frame.R _ _ _ k :: up => key ≠ k ∧ ¬ key < k ∧ findPath key up

/-- The parent links of the heap agree with its child links on the nodes listed in `nodes`: the
parent link of the root is the sentinel; each child of a listed node that is a real node has
that node as its parent; and a listed node whose parent is a real node is the left or the right
child of that parent. -/
def ParentLinksAgree (t : rbtree) (nodes : List Nat) : Prop :=
  t.parent t.root = t.nil ∧
  ∀ n ∈ nodes,
    (t.left n ≠ t.nil → t.parent (t.left n) = n) ∧
    (t.right n ≠ t.nil → t.parent (t.right n) = n) ∧
    (t.parent n ≠ t.nil → t.left (t.parent n) = n ∨ t.right (t.parent n) = n)

/-! ## Theorems -/

/-! ### Heap updates -/

theorem set_mem (t : rbtree) (a : Nat) (n : node_t) (b : Nat) :
    (t.set a n).mem b = if b = a then n else t.mem b := rfl
@[simp] theorem set_mem_self (t : rbtree) (a : Nat) (n : node_t) : (t.set a n).mem a = n := by
  simp [set_mem]
theorem set_mem_ne {t : rbtree} {a b : Nat} (n : node_t) (h : b ≠ a) :
    (t.set a n).mem b = t.mem b := by simp [set_mem, h]
theorem set_mem_ne2 {t : rbtree} {a b : Nat} (n : node_t) (h : a ≠ b) :
    (t.set a n).mem b = t.mem b := by simp [set_mem, Ne.symm h]
@[simp] theorem ptr_nil (nl : Nat) : Tree.nil.ptr nl = nl := rfl
@[simp] theorem ptr_node (nl : Nat) (c : color_t) (l : Tree) (a : Nat) (k : Int) (r : Tree) :
    (Tree.node c l a k r).ptr nl = a := rfl
theorem ptr_ne {nl a : Nat} {T : Tree} (h1 : a ≠ nl) (h2 : a ∉ T.addrs) : T.ptr nl ≠ a := by
  cases T with
  | nil => exact fun e => h1 e.symm
  | node c l b k r =>
    simp only [Tree.addrs, List.mem_append, List.mem_cons, not_or] at h2
    exact fun e => h2.2.1 e.symm
theorem ptr_ne2 {nl a : Nat} {T : Tree} (h1 : a ≠ nl) (h2 : a ∉ T.addrs) : a ≠ T.ptr nl :=
  fun e => ptr_ne h1 h2 e.symm
@[simp] theorem set_root (t : rbtree) (a : Nat) (n : node_t) : (t.set a n).root = t.root := rfl
@[simp] theorem set_nil (t : rbtree) (a : Nat) (n : node_t) : (t.set a n).nil = t.nil := rfl
@[simp] theorem set_brk (t : rbtree) (a : Nat) (n : node_t) : (t.set a n).brk = t.brk := rfl
@[simp] theorem setRoot_mem (t : rbtree) (p : Nat) : (t.setRoot p).mem = t.mem := rfl
@[simp] theorem setRoot_root (t : rbtree) (p : Nat) : (t.setRoot p).root = p := rfl
@[simp] theorem setRoot_nil (t : rbtree) (p : Nat) : (t.setRoot p).nil = t.nil := rfl
@[simp] theorem setRoot_brk (t : rbtree) (p : Nat) : (t.setRoot p).brk = t.brk := rfl

/-! ### Trees and contexts -/

@[simp] theorem plug_nil (s : Tree) : plug [] s = s := rfl
@[simp] theorem plug_L (c : color_t) (a : Nat) (k : Int) (r : Tree) (up : Ctx) (s : Tree) :
    plug (Frame.L c a k r :: up) s = plug up (node c s a k r) := rfl
@[simp] theorem plug_R (c : color_t) (l : Tree) (a : Nat) (k : Int) (up : Ctx) (s : Tree) :
    plug (Frame.R c l a k :: up) s = plug up (node c l a k s) := rfl

theorem plug_append (C D : Ctx) (s : Tree) : plug (C ++ D) s = plug D (plug C s) := by
  induction C generalizing s with
  | nil => rfl
  | cons f C ih => cases f <;> simp [ih]

theorem addrs_eq_map_elems (T : Tree) : T.addrs = T.elems.map Prod.fst := by
  induction T with
  | nil => rfl
  | node c l a k r ihl ihr => simp [addrs, elems, ihl, ihr]

theorem keys_eq_map_elems (T : Tree) : T.keys = T.elems.map Prod.snd := by
  induction T with
  | nil => rfl
  | node c l a k r ihl ihr => simp [keys, elems, ihl, ihr]

theorem size_eq_length_elems (T : Tree) : T.size = T.elems.length := by
  induction T with
  | nil => rfl
  | node c l a k r ihl ihr => simp [size, elems, ihl, ihr]; omega

theorem elems_plug (C : Ctx) (s : Tree) : (plug C s).elems = cpre C ++ s.elems ++ cpost C := by
  induction C generalizing s with
  | nil => simp [cpre, cpost]
  | cons f C ih => cases f <;> simp [ih, cpre, cpost, elems]

theorem addrs_plug_perm (C : Ctx) (s : Tree) : ((plug C s).addrs).Perm (s.addrs ++ caddrs C) := by
  induction C generalizing s with
  | nil => simp [caddrs]
  | cons f C ih =>
    cases f with
    | L c a k r =>
      refine (ih _).trans ?_
      simp only [addrs, caddrs, Frame.addrs, List.append_assoc, List.cons_append]
      exact List.Perm.refl _
    | R c l a k =>
      refine (ih _).trans ?_
      simp only [addrs, caddrs, Frame.addrs, List.append_assoc, List.cons_append]
      rw [List.perm_iff_count]
      intro x
      simp only [List.count_append, List.count_cons]
      omega

theorem ptr_plug (nl : Nat) (C : Ctx) (s : Tree) : (plug C s).ptr nl = croot C (s.ptr nl) := by
  induction C generalizing s with
  | nil => rfl
  | cons f C ih => cases f <;> simp only [plug_L, plug_R, ih, croot, Frame.addr] <;> rfl

/-! ### Layout of trees and contexts in the heap -/

theorem Rep_congr {m m2 : Nat → node_t} {nl : Nat} {T : Tree} {par : Nat}
    (h : ∀ a ∈ T.addrs, m2 a = m a) (hr : Rep m nl T par) : Rep m2 nl T par := by
  induction T generalizing par with
  | nil => trivial
  | node c l a k r ihl ihr =>
    simp only [Rep] at hr ⊢
    simp only [addrs, List.mem_append, List.mem_cons] at h
    refine ⟨hr.1, ?_, ihl (fun b hb => h b (Or.inl hb)) hr.2.2.1,
      ihr (fun b hb => h b (Or.inr (Or.inr hb))) hr.2.2.2⟩
    rw [h a (Or.inr (Or.inl rfl))]; exact hr.2.1

theorem RepCtx_congr {m m2 : Nat → node_t} {nl o : Nat} {C : Ctx} {h : Nat}
    (hm : ∀ a ∈ caddrs C, m2 a = m a) (hr : RepCtx m nl o C h) : RepCtx m2 nl o C h := by
  induction C generalizing h with
  | nil => trivial
  | cons f C ih =>
    cases f with
    | L c a k r =>
      simp only [RepCtx] at hr ⊢
      simp only [caddrs, Frame.addrs, List.mem_append, List.mem_cons, List.cons_append] at hm
      refine ⟨hr.1, ?_, Rep_congr (fun b hb => hm b (Or.inr (Or.inl hb))) hr.2.2.1,
        ih (fun b hb => hm b (Or.inr (Or.inr hb))) hr.2.2.2⟩
      rw [hm a (Or.inl rfl)]; exact hr.2.1
    | R c l a k =>
      simp only [RepCtx] at hr ⊢
      simp only [caddrs, Frame.addrs, List.mem_append, List.mem_cons, List.cons_append] at hm
      refine ⟨hr.1, ?_, Rep_congr (fun b hb => hm b (Or.inr (Or.inl hb))) hr.2.2.1,
        ih (fun b hb => hm b (Or.inr (Or.inr hb))) hr.2.2.2⟩
      rw [hm a (Or.inl rfl)]; exact hr.2.1

theorem Rep_plug (m : Nat → node_t) (nl o : Nat) (C : Ctx) (s : Tree) :
    Rep m nl (plug C s) o ↔ RepCtx m nl o C (s.ptr nl) ∧ Rep m nl s (cpar o C) := by
  induction C generalizing s with
  | nil => simp [RepCtx, cpar]
  | cons f C ih =>
    cases f with
    | L c a k r => simp only [plug_L, ih, Rep, RepCtx, ptr, cpar, Frame.addr]; tauto
    | R c l a k => simp only [plug_R, ih, Rep, RepCtx, ptr, cpar, Frame.addr]; tauto

theorem represents_plug {t : rbtree} {C : Ctx} {s : Tree} :
    Represents t (plug C s) ↔ Focus t C s := by
  constructor
  · intro h
    have hr := (Rep_plug _ _ _ _ _).1 h.rep
    exact ⟨by rw [h.root, ptr_plug], hr.1, hr.2, (addrs_plug_perm C s).nodup_iff.1 h.nodup,
      h.nil_color, h.nil_left, h.nil_right, h.nil_lt,
      fun a ha => h.addrs_lt a ((addrs_plug_perm C s).mem_iff.2 ha)⟩
  · intro h
    exact ⟨by rw [h.root, ptr_plug], (Rep_plug _ _ _ _ _).2 ⟨h.ctx, h.sub⟩,
      (addrs_plug_perm C s).nodup_iff.2 h.nodup,
      h.nil_color, h.nil_left, h.nil_right, h.nil_lt,
      fun a ha => h.addrs_lt a ((addrs_plug_perm C s).mem_iff.1 ha)⟩

theorem mem_at {t : rbtree} {C : Ctx} {c : color_t} {l : Tree} {a : Nat} {k : Int} {r : Tree}
    (h : Represents t (plug C (node c l a k r))) :
    t.mem a = ⟨c, k, cpar t.nil C, l.ptr t.nil, r.ptr t.nil⟩ ∧ a ≠ t.nil := by
  have hf := represents_plug.1 h
  have := hf.sub
  simp only [Rep] at this
  exact ⟨this.2.1, this.1⟩

theorem Rep_set {t : rbtree} {a : Nat} {n : node_t} {nl : Nat} {T : Tree} {par : Nat}
    (h : a ∉ T.addrs) : Rep (t.set a n).mem nl T par = Rep t.mem nl T par := by
  apply propext
  constructor
  · refine Rep_congr (fun b hb => ?_)
    have : b ≠ a := by rintro rfl; exact h hb
    simp [set_mem, this]
  · refine Rep_congr (fun b hb => ?_)
    have : b ≠ a := by rintro rfl; exact h hb
    simp [set_mem, this]

theorem RepCtx_set {t : rbtree} {a : Nat} {n : node_t} {nl o : Nat} {C : Ctx} {x : Nat}
    (h : a ∉ caddrs C) : RepCtx (t.set a n).mem nl o C x = RepCtx t.mem nl o C x := by
  apply propext
  constructor
  · refine RepCtx_congr (fun b hb => ?_)
    have : b ≠ a := by rintro rfl; exact h hb
    simp [set_mem, this]
  · refine RepCtx_congr (fun b hb => ?_)
    have : b ≠ a := by rintro rfl; exact h hb
    simp [set_mem, this]

theorem setColor_at {t : rbtree} {C : Ctx} {c : color_t} {l : Tree} {a : Nat} {k : Int}
    {r : Tree} (c2 : color_t) (h : Represents t (plug C (node c l a k r))) :
    Represents (t.setColor a c2) (plug C (node c2 l a k r)) := by
  have hf := represents_plug.1 h
  rw [represents_plug]
  obtain ⟨hroot, hctx, hsub, hnd0, hnc, hnl, hnr, hlt, halt⟩ := hf
  simp only [Rep] at hsub
  obtain ⟨hane, hma, hl, hr⟩ := hsub
  have hnd := hnd0
  simp only [addrs, List.append_assoc, List.cons_append, List.nodup_append, List.nodup_cons,
    List.mem_append, List.mem_cons, not_or, List.disjoint_cons_left, List.disjoint_cons_right,
    List.disjoint_append_left, List.disjoint_append_right] at hnd
  refine ⟨hroot, ?_, ?_, hnd0, ?_, ?_, ?_, hlt, halt⟩
  · simp only [rbtree.setColor, set_nil]
    rw [RepCtx_set (by simp [hnd])]
    exact hctx
  · simp only [rbtree.setColor, set_nil, Rep, set_mem_self, hma]
    rw [Rep_set (by simp [hnd]), Rep_set (by simp [hnd])]
    simp [*]
  · simp only [rbtree.setColor, set_nil]; rw [set_mem_ne2 _ hane]; exact hnc
  · simp only [rbtree.setColor, set_nil]; rw [set_mem_ne2 _ hane]; exact hnl
  · simp only [rbtree.setColor, set_nil]; rw [set_mem_ne2 _ hane]; exact hnr

theorem focus_iff {t : rbtree} {C : Ctx} {s : Tree} : Focus t C s ↔
    (t.root = croot C (s.ptr t.nil) ∧ RepCtx t.mem t.nil t.nil C (s.ptr t.nil) ∧
    Rep t.mem t.nil s (cpar t.nil C) ∧ (s.addrs ++ caddrs C).Nodup ∧
    (t.mem t.nil).color = RBTREE_BLACK ∧ (t.mem t.nil).left = t.nil ∧
    (t.mem t.nil).right = t.nil ∧ t.nil < t.brk ∧ ∀ a ∈ s.addrs ++ caddrs C, a < t.brk) :=
  ⟨fun ⟨a, b, c, d, e, f, g, h, i⟩ => ⟨a, b, c, d, e, f, g, h, i⟩,
   fun ⟨a, b, c, d, e, f, g, h, i⟩ => ⟨a, b, c, d, e, f, g, h, i⟩⟩

theorem left_rotate_nil (t : rbtree) (x : Nat) : (left_rotate t x).nil = t.nil := by
  unfold left_rotate
  simp only [rbtree.setParent, rbtree.setLeft, rbtree.setRight, set_nil]
  split_ifs <;> simp [rbtree.setRoot]

theorem left_rotate_brk (t : rbtree) (x : Nat) : (left_rotate t x).brk = t.brk := by
  unfold left_rotate
  simp only [rbtree.setParent, rbtree.setLeft, rbtree.setRight, set_brk]
  split_ifs <;> simp [rbtree.setRoot]

theorem left_rotate_at {t : rbtree} {C : Ctx} {cx cy : color_t} {A B D : Tree} {x y : Nat}
    {kx ky : Int} (h : Represents t (plug C (node cx A x kx (node cy B y ky D)))) :
    Represents (left_rotate t x) (plug C (node cy (node cx A x kx B) y ky D)) ∧
      (left_rotate t x).mem t.nil = t.mem t.nil := by
  have hf := represents_plug.1 h
  rw [represents_plug, focus_iff, left_rotate_nil, left_rotate_brk]
  obtain ⟨hroot, hctx, hsub, hnd0, hnc, hnl, hnr, hlt, halt⟩ := hf
  have haddr : (node cy (node cx A x kx B) y ky D).addrs =
      (node cx A x kx (node cy B y ky D)).addrs := by
    simp [addrs]
  have hnil : (left_rotate t x).mem t.nil = t.mem t.nil ∧
      (left_rotate t x).root = croot C (ptr t.nil (node cy (node cx A x kx B) y ky D)) ∧
      RepCtx (left_rotate t x).mem t.nil t.nil C (ptr t.nil (node cy (node cx A x kx B) y ky D)) ∧
      Rep (left_rotate t x).mem t.nil (node cy (node cx A x kx B) y ky D) (cpar t.nil C) := by
    simp only [Rep] at hsub
    obtain ⟨hxne, hmx, hA, hyne, hmy, hB, hD⟩ := hsub
    rcases B with _ | ⟨cb, Bl, b, kb, Br⟩ <;>
      rcases C with _ | ⟨⟨cp, p, kp, r⟩ | ⟨cp, l, p, kp⟩, up⟩
    all_goals
      simp only [Rep, RepCtx] at hB hctx
      simp only [addrs, caddrs, Frame.addrs, List.append_assoc, List.cons_append,
        List.nodup_append, List.nodup_cons,
        List.mem_append, List.mem_cons, not_or, List.disjoint_cons_left, List.disjoint_cons_right,
        List.disjoint_append_left, List.disjoint_append_right] at hnd0
    all_goals
      simp [left_rotate, rbtree.left, rbtree.right, rbtree.parent, rbtree.setRight,
        rbtree.setLeft, rbtree.setParent, hmx, hmy, cpar, set_mem_ne, set_mem_ne2,
        Rep, RepCtx, Rep_set, RepCtx_set, hnd0, croot, hxne, hyne, Ne.symm hxne, Ne.symm hyne,
        ptr_ne, ptr_ne2, Frame.addr, caddrs, Frame.addrs, *]
  refine ⟨⟨hnil.2.1, hnil.2.2.1, hnil.2.2.2, by rw [haddr]; exact hnd0, ?_, ?_, ?_, hlt,
    by rw [haddr]; exact halt⟩, hnil.1⟩
  · rw [hnil.1]; exact hnc
  · rw [hnil.1]; exact hnl
  · rw [hnil.1]; exact hnr

theorem right_rotate_nil (t : rbtree) (x : Nat) : (right_rotate t x).nil = t.nil := by
  unfold right_rotate
  simp only [rbtree.setParent, rbtree.setLeft, rbtree.setRight, set_nil]
  split_ifs <;> simp [rbtree.setRoot]

theorem right_rotate_brk (t : rbtree) (x : Nat) : (right_rotate t x).brk = t.brk := by
  unfold right_rotate
  simp only [rbtree.setParent, rbtree.setLeft, rbtree.setRight, set_brk]
  split_ifs <;> simp [rbtree.setRoot]

theorem right_rotate_at {t : rbtree} {C : Ctx} {cx cy : color_t} {A B D : Tree} {x y : Nat}
    {kx ky : Int} (h : Represents t (plug C (node cx (node cy A y ky B) x kx D))) :
    Represents (right_rotate t x) (plug C (node cy A y ky (node cx B x kx D))) ∧
      (right_rotate t x).mem t.nil = t.mem t.nil := by
  have hf := represents_plug.1 h
  rw [represents_plug, focus_iff, right_rotate_nil, right_rotate_brk]
  obtain ⟨hroot, hctx, hsub, hnd0, hnc, hnl, hnr, hlt, halt⟩ := hf
  have haddr : (node cy A y ky (node cx B x kx D)).addrs =
      (node cx (node cy A y ky B) x kx D).addrs := by
    simp [addrs]
  have hnil : (right_rotate t x).mem t.nil = t.mem t.nil ∧
      (right_rotate t x).root = croot C (ptr t.nil (node cy A y ky (node cx B x kx D))) ∧
      RepCtx (right_rotate t x).mem t.nil t.nil C (ptr t.nil (node cy A y ky (node cx B x kx D))) ∧
      Rep (right_rotate t x).mem t.nil (node cy A y ky (node cx B x kx D)) (cpar t.nil C) := by
    simp only [Rep] at hsub
    obtain ⟨hxne, hmx, ⟨hyne, hmy, hA, hB⟩, hD⟩ := hsub
    rcases B with _ | ⟨cb, Bl, b, kb, Br⟩ <;>
      rcases C with _ | ⟨⟨cp, p, kp, r⟩ | ⟨cp, l, p, kp⟩, up⟩
    all_goals
      simp only [Rep, RepCtx] at hB hctx
      simp only [addrs, caddrs, Frame.addrs, List.append_assoc, List.cons_append,
        List.nodup_append, List.nodup_cons,
        List.mem_append, List.mem_cons, not_or, List.disjoint_cons_left, List.disjoint_cons_right,
        List.disjoint_append_left, List.disjoint_append_right] at hnd0
    all_goals
      simp [right_rotate, rbtree.left, rbtree.right, rbtree.parent, rbtree.setRight,
        rbtree.setLeft, rbtree.setParent, hmx, hmy, cpar, set_mem_ne, set_mem_ne2,
        Rep, RepCtx, Rep_set, RepCtx_set, hnd0, croot, hxne, hyne, Ne.symm hxne, Ne.symm hyne,
        ptr_ne, ptr_ne2, Frame.addr, caddrs, Frame.addrs, *]
  refine ⟨⟨hnil.2.1, hnil.2.2.1, hnil.2.2.2, by rw [haddr]; exact hnd0, ?_, ?_, ?_, hlt,
    by rw [haddr]; exact halt⟩, hnil.1⟩
  · rw [hnil.1]; exact hnc
  · rw [hnil.1]; exact hnl
  · rw [hnil.1]; exact hnr

/-! ### Colour invariants of trees and contexts -/

theorem color_cases (c : color_t) : c = RBTREE_RED ∨ c = RBTREE_BLACK := by
  cases c <;> simp

theorem ne_red_iff (c : color_t) : c ≠ RBTREE_RED ↔ c = RBTREE_BLACK := by
  cases c <;> simp

theorem ne_black_iff (c : color_t) : c ≠ RBTREE_BLACK ↔ c = RBTREE_RED := by
  cases c <;> simp

@[simp] theorem rootColor_nil : Tree.nil.rootColor = RBTREE_BLACK := rfl
@[simp] theorem rootColor_node (c : color_t) (l : Tree) (a : Nat) (k : Int) (r : Tree) :
    (node c l a k r).rootColor = c := rfl
@[simp] theorem blacken_nil : Tree.nil.blacken = Tree.nil := rfl
@[simp] theorem blacken_node (c : color_t) (l : Tree) (a : Nat) (k : Int) (r : Tree) :
    (node c l a k r).blacken = node RBTREE_BLACK l a k r := rfl
@[simp] theorem cpar_nil (o : Nat) : cpar o [] = o := rfl
@[simp] theorem cpar_cons (o : Nat) (f : Frame) (up : Ctx) : cpar o (f :: up) = f.addr := rfl
@[simp] theorem Frame.addr_L (c : color_t) (a : Nat) (k : Int) (r : Tree) :
    (Frame.L c a k r).addr = a := rfl
@[simp] theorem Frame.addr_R (c : color_t) (l : Tree) (a : Nat) (k : Int) :
    (Frame.R c l a k).addr = a := rfl
@[simp] theorem Frame.color_L (c : color_t) (a : Nat) (k : Int) (r : Tree) :
    (Frame.L c a k r).color = c := rfl
@[simp] theorem Frame.color_R (c : color_t) (l : Tree) (a : Nat) (k : Int) :
    (Frame.R c l a k).color = c := rfl
@[simp] theorem blk_black : blk RBTREE_BLACK = 1 := rfl
@[simp] theorem blk_red : blk RBTREE_RED = 0 := rfl

theorem NoRR_plug (C : Ctx) (s : Tree) :
    (plug C s).NoRR ↔ s.NoRR ∧ CtxNoRR C s.rootColor := by
  induction C generalizing s with
  | nil => simp [CtxNoRR]
  | cons f C ih =>
    cases f with
    | L c a k r => simp only [plug_L, ih, NoRR, CtxNoRR, rootColor_node]; tauto
    | R c l a k => simp only [plug_R, ih, NoRR, CtxNoRR, rootColor_node]; tauto

theorem Bal_plug (C : Ctx) (s : Tree) :
    (plug C s).Bal ↔ s.Bal ∧ CtxBal C s.bh := by
  induction C generalizing s with
  | nil => simp [CtxBal]
  | cons f C ih =>
    cases f with
    | L c a k r =>
      simp only [plug_L, ih, Bal, CtxBal, bh]
      constructor
      · rintro ⟨⟨h1, h2, h3⟩, h4⟩; exact ⟨h2, h1.symm, h3, h4⟩
      · rintro ⟨h2, h1, h3, h4⟩; exact ⟨⟨h1.symm, h2, h3⟩, h4⟩
    | R c l a k =>
      simp only [plug_R, ih, Bal, CtxBal, bh]
      constructor
      · rintro ⟨⟨h1, h2, h3⟩, h4⟩; exact ⟨h3, h1, h2, h1 ▸ h4⟩
      · rintro ⟨h3, h1, h2, h4⟩; exact ⟨⟨h1, h2, h3⟩, h1 ▸ h4⟩

theorem rootColor_plug (C : Ctx) (s : Tree) :
    (plug C s).rootColor = ctxRootColor C s.rootColor := by
  induction C generalizing s with
  | nil => rfl
  | cons f C ih => cases f <;> simp [ih, ctxRootColor]

theorem CtxNoRR_black {C : Ctx} {hc : color_t} (h : CtxNoRR C hc) : CtxNoRR C RBTREE_BLACK := by
  cases C with
  | nil => trivial
  | cons f C =>
    cases f with
    | L c a k r => simp only [CtxNoRR] at h ⊢; exact ⟨fun e => ⟨trivial, (h.1 e).2⟩, h.2⟩
    | R c l a k => simp only [CtxNoRR] at h ⊢; exact ⟨fun e => ⟨(h.1 e).1, trivial⟩, h.2⟩

theorem CtxNoRR_of_black_parent {C : Ctx} (hc : color_t) (h : CtxNoRR C RBTREE_BLACK)
    (hp : ∀ f ∈ C.head?, f.color = RBTREE_BLACK) : CtxNoRR C hc := by
  cases C with
  | nil => trivial
  | cons f C =>
    have := hp f (by simp)
    cases f with
    | L c a k r =>
      simp only [Frame.color] at this
      simp only [CtxNoRR] at h ⊢
      subst this
      exact ⟨by simp, h.2⟩
    | R c l a k =>
      simp only [Frame.color] at this
      simp only [CtxNoRR] at h ⊢
      subst this
      exact ⟨by simp, h.2⟩

theorem NoRR_blacken {T : Tree} (h : T.NoRR) : T.blacken.NoRR := by
  cases T with
  | nil => trivial
  | node c l a k r => simp only [blacken, NoRR] at h ⊢; exact ⟨by simp, h.2⟩

theorem Bal_blacken {T : Tree} : T.blacken.Bal ↔ T.Bal := by
  cases T with
  | nil => rfl
  | node c l a k r => simp [blacken, Bal]

theorem rootColor_blacken (T : Tree) : T.blacken.rootColor = RBTREE_BLACK := by
  cases T <;> rfl

theorem elems_blacken (T : Tree) : T.blacken.elems = T.elems := by
  cases T <;> rfl

theorem blackCounts_of_Bal {T : Tree} (h : T.Bal) : ∀ x ∈ T.blackCounts, x = T.bh := by
  induction T with
  | nil => simp [blackCounts, bh]
  | node c l a k r ihl ihr =>
    simp only [Bal] at h
    intro x hx
    simp only [blackCounts, List.map_append, List.mem_append, List.mem_map] at hx
    rcases hx with ⟨y, hy, rfl⟩ | ⟨y, hy, rfl⟩
    · simp [bh, ihl h.2.1 y hy]
    · simp [bh, ihr h.2.2 y hy, h.1]

theorem bh_mem_blackCounts (T : Tree) : T.bh ∈ T.blackCounts := by
  induction T with
  | nil => simp [blackCounts, bh]
  | node c l a k r ihl ihr =>
    simp only [blackCounts, bh, List.map_append, List.mem_append, List.mem_map]
    exact Or.inl ⟨_, ihl, rfl⟩

theorem EqualBlack_of_Bal {T : Tree} (h : T.Bal) : T.EqualBlack := by
  intro x hx y hy
  rw [blackCounts_of_Bal h x hx, blackCounts_of_Bal h y hy]

theorem Bal_of_EqualBlack {T : Tree} (h : T.EqualBlack) : T.Bal := by
  induction T with
  | nil => trivial
  | node c l a k r ihl ihr =>
    have hl : ∀ x ∈ l.blackCounts, x + blk c ∈ (node c l a k r).blackCounts := by
      intro x hx
      simp only [blackCounts, List.map_append, List.mem_append, List.mem_map]
      exact Or.inl ⟨x, hx, rfl⟩
    have hr : ∀ x ∈ r.blackCounts, x + blk c ∈ (node c l a k r).blackCounts := by
      intro x hx
      simp only [blackCounts, List.map_append, List.mem_append, List.mem_map]
      exact Or.inr ⟨x, hx, rfl⟩
    refine ⟨?_, ihl ?_, ihr ?_⟩
    · have := h _ (hl _ (bh_mem_blackCounts l)) _ (hr _ (bh_mem_blackCounts r))
      omega
    · intro x hx y hy
      have := h _ (hl x hx) _ (hl y hy)
      omega
    · intro x hx y hy
      have := h _ (hr x hx) _ (hr y hy)
      omega

theorem EqualBlack_iff_Bal (T : Tree) : T.EqualBlack ↔ T.Bal :=
  ⟨Bal_of_EqualBlack, EqualBlack_of_Bal⟩

/-! ### Ordering -/

theorem Ordered_iff_sorted (T : Tree) : T.Ordered ↔ T.keys.Sorted (· ≤ ·) := by
  induction T with
  | nil => simp [Ordered, keys]
  | node c l a k r ihl ihr =>
    simp only [Ordered, keys, List.Sorted, List.pairwise_append, List.pairwise_cons,
      List.mem_cons, ihl, ihr]
    constructor
    · rintro ⟨h1, h2, h3, h4⟩
      refine ⟨h3, ⟨h2, h4⟩, ?_⟩
      rintro x hx y (rfl | hy)
      · exact h1 x hx
      · exact le_trans (h1 x hx) (h2 y hy)
    · rintro ⟨h3, ⟨h2, h4⟩, h5⟩
      exact ⟨fun x hx => h5 x hx k (Or.inl rfl), h2, h3, h4⟩

/-! ### Reading and recolouring nodes of a represented tree -/

@[simp] theorem setColor_parent (t : rbtree) (a : Nat) (c : color_t) (b : Nat) :
    (t.setColor a c).parent b = t.parent b := by
  simp only [rbtree.setColor, rbtree.parent, set_mem]; split_ifs with e <;> simp [e]
@[simp] theorem setColor_left (t : rbtree) (a : Nat) (c : color_t) (b : Nat) :
    (t.setColor a c).left b = t.left b := by
  simp only [rbtree.setColor, rbtree.left, set_mem]; split_ifs with e <;> simp [e]
@[simp] theorem setColor_right (t : rbtree) (a : Nat) (c : color_t) (b : Nat) :
    (t.setColor a c).right b = t.right b := by
  simp only [rbtree.setColor, rbtree.right, set_mem]; split_ifs with e <;> simp [e]
@[simp] theorem setColor_key (t : rbtree) (a : Nat) (c : color_t) (b : Nat) :
    (t.setColor a c).key b = t.key b := by
  simp only [rbtree.setColor, rbtree.key, set_mem]; split_ifs with e <;> simp [e]
theorem setColor_color (t : rbtree) (a : Nat) (c : color_t) (b : Nat) :
    (t.setColor a c).color b = if b = a then c else t.color b := by
  simp only [rbtree.setColor, rbtree.color, set_mem]; split_ifs with e <;> simp
@[simp] theorem setColor_nil (t : rbtree) (a : Nat) (c : color_t) :
    (t.setColor a c).nil = t.nil := rfl
@[simp] theorem setColor_root (t : rbtree) (a : Nat) (c : color_t) :
    (t.setColor a c).root = t.root := rfl
@[simp] theorem setColor_brk (t : rbtree) (a : Nat) (c : color_t) :
    (t.setColor a c).brk = t.brk := rfl
theorem setColor_mem_parent (t : rbtree) (a : Nat) (c : color_t) (b : Nat) :
    ((t.setColor a c).mem b).parent = (t.mem b).parent := setColor_parent t a c b

theorem read_at {t : rbtree} {C : Ctx} {c : color_t} {l : Tree} {a : Nat} {k : Int} {r : Tree}
    (h : Represents t (plug C (node c l a k r))) :
    t.color a = c ∧ t.key a = k ∧ t.parent a = cpar t.nil C ∧ t.left a = l.ptr t.nil ∧
      t.right a = r.ptr t.nil ∧ a ≠ t.nil := by
  have := mem_at h
  simp [rbtree.color, rbtree.key, rbtree.parent, rbtree.left, rbtree.right, this.1, this.2]

theorem nodup_at {t : rbtree} {C : Ctx} {s : Tree} (h : Represents t (plug C s)) :
    (s.addrs ++ caddrs C).Nodup := (represents_plug.1 h).nodup

theorem color_ptr {t : rbtree} {C : Ctx} {s : Tree} (h : Represents t (plug C s)) :
    t.color (s.ptr t.nil) = s.rootColor := by
  cases s with
  | nil => exact h.nil_color
  | node c l a k r => exact (read_at h).1

theorem blacken_root {t : rbtree} {T : Tree} (h : Represents t T) :
    Represents (t.setColor t.root RBTREE_BLACK) T.blacken := by
  cases T with
  | nil =>
    have hr : t.root = t.nil := h.root
    constructor
    · exact h.root
    · trivial
    · exact h.nodup
    · simp [rbtree.setColor, hr]
    · simp [rbtree.setColor, hr, h.nil_left]
    · simp [rbtree.setColor, hr, h.nil_right]
    · exact h.nil_lt
    · exact h.addrs_lt
  | node c l a k r =>
    have hr : t.root = a := h.root
    rw [hr]
    exact setColor_at (C := []) RBTREE_BLACK h

theorem insert_fixup_shape {t : rbtree} {z : Nat} {C : Ctx} {l : Tree} {k : Int} {r : Tree}
    {n : Nat} (h : InsInv t z C l k r n) (hred : t.color (t.parent z) = RBTREE_RED) :
    ∃ f g up, C = f :: g :: up ∧ f.color = RBTREE_RED ∧ g.color = RBTREE_BLACK := by
  have hz := read_at h.rep
  rw [hz.2.2.1] at hred
  rcases C with _ | ⟨f, _ | ⟨g, up⟩⟩
  · simp only [cpar_nil] at hred
    have := h.rep.nil_color
    simp only [rbtree.color] at hred
    rw [hred] at this; cases this
  · exfalso
    have hc := h.croot
    simp only [ctxRootColor] at hc
    cases f with
    | L c a kk rr =>
      have hf := read_at (C := []) (a := a) h.rep
      simp only [cpar_cons, Frame.addr_L, Frame.color_L] at hred hc
      rw [hf.1] at hred; rw [hred] at hc; cases hc
    | R c ll a kk =>
      have hf := read_at (C := []) (a := a) h.rep
      simp only [cpar_cons, Frame.addr_R, Frame.color_R] at hred hc
      rw [hf.1] at hred; rw [hred] at hc; cases hc
  · refine ⟨f, g, up, rfl, ?_⟩
    have hn := h.cnorr
    cases f with
    | L c a kk rr =>
      have hf := read_at (C := g :: up) (a := a) h.rep
      simp only [cpar_cons, Frame.addr_L, Frame.color_L] at hred ⊢
      rw [hf.1] at hred; subst hred
      refine ⟨rfl, ?_⟩
      cases g <;> simp [CtxNoRR] at hn ⊢ <;> exact (ne_red_iff _).1 hn.2.2.1
    | R c ll a kk =>
      have hf := read_at (C := g :: up) (a := a) h.rep
      simp only [cpar_cons, Frame.addr_R, Frame.color_R] at hred ⊢
      rw [hf.1] at hred; subst hred
      refine ⟨rfl, ?_⟩
      cases g <;> simp [CtxNoRR] at hn ⊢ <;> exact (ne_red_iff _).1 hn.2.2.1

theorem insert_fixup_case1_LL {t : rbtree} {z p g y : Nat} {up : Ctx}
    {l r sp ul ur : Tree} {k kp kg ku : Int} {n : Nat}
    (h : InsInv t z (Frame.L RBTREE_RED p kp sp :: Frame.L RBTREE_BLACK g kg (node RBTREE_RED ul y ku ur) :: up) l k r n) :
    rbtree_insert_fixup_body t z = ((((t.setColor p RBTREE_BLACK).setColor y RBTREE_BLACK).setColor g RBTREE_RED), g) ∧
    InsInv (((t.setColor p RBTREE_BLACK).setColor y RBTREE_BLACK).setColor g RBTREE_RED) g up
      (node RBTREE_BLACK (node RBTREE_RED l z k r) p kp sp) kg
      (node RBTREE_BLACK ul y ku ur) (n + 1) := by
  have hr := h.rep
  have hz := read_at hr
  have hp := read_at (C := Frame.L RBTREE_BLACK g kg (node RBTREE_RED ul y ku ur) :: up) (a := p) hr
  have hg := read_at (C := up) (a := g) hr
  have hy := read_at (C := Frame.R RBTREE_BLACK (node RBTREE_RED (node RBTREE_RED l z k r) p kp sp) g kg :: up) (a := y) hr
  have hnd := nodup_at hr
  simp only [addrs, caddrs, Frame.addrs, List.append_assoc, List.cons_append,
    List.nodup_append, List.nodup_cons, List.mem_append, List.mem_cons, not_or,
    List.disjoint_cons_left, List.disjoint_cons_right, List.disjoint_append_left,
    List.disjoint_append_right, List.nil_append, List.append_nil] at hnd
  have hpy : p ≠ y := by rintro rfl; simp at hnd
  simp only [cpar_cons, Frame.addr_L, Frame.addr_R, ptr_node] at hz hp hg hy
  constructor
  · simp [rbtree_insert_fixup_body, hz, hp, hg, hy, hpy]
  · have h1 := setColor_at (C := Frame.L RBTREE_BLACK g kg (node RBTREE_RED ul y ku ur) :: up) (a := p) RBTREE_BLACK hr
    have h2 := setColor_at (C := Frame.R RBTREE_BLACK (node RBTREE_BLACK (node RBTREE_RED l z k r) p kp sp) g kg :: up) (a := y) RBTREE_BLACK h1
    have h3 := setColor_at (C := up) (a := g) RBTREE_RED h2
    obtain ⟨-, hnl, hnr, hbl, hbr, hal, har, hhl, hhr, hn, hb, hc⟩ := h
    refine ⟨h3, ?_, ?_, rfl, rfl, ?_, ?_, ?_, ?_, ?_, ?_, ?_⟩
    all_goals clear h1 h2 h3 hy hnd
    all_goals clear hr hz hp hg
    all_goals simp_all [NoRR, Bal, bh, CtxNoRR, CtxBal, ctxRootColor]
    all_goals omega

theorem insert_fixup_case1_LR {t : rbtree} {z p g y : Nat} {up : Ctx}
    {l r sp ul ur : Tree} {k kp kg ku : Int} {n : Nat}
    (h : InsInv t z (Frame.L RBTREE_RED p kp sp :: Frame.R RBTREE_BLACK (node RBTREE_RED ul y ku ur) g kg :: up) l k r n) :
    rbtree_insert_fixup_body t z = ((((t.setColor p RBTREE_BLACK).setColor y RBTREE_BLACK).setColor g RBTREE_RED), g) ∧
    InsInv (((t.setColor p RBTREE_BLACK).setColor y RBTREE_BLACK).setColor g RBTREE_RED) g up
      (node RBTREE_BLACK ul y ku ur) kg
      (node RBTREE_BLACK (node RBTREE_RED l z k r) p kp sp) (n + 1) := by
  have hr := h.rep
  have hz := read_at hr
  have hp := read_at (C := Frame.R RBTREE_BLACK (node RBTREE_RED ul y ku ur) g kg :: up) (a := p) hr
  have hg := read_at (C := up) (a := g) hr
  have hy := read_at (C := Frame.L RBTREE_BLACK g kg (node RBTREE_RED (node RBTREE_RED l z k r) p kp sp) :: up) (a := y) hr
  have hnd := nodup_at hr
  simp only [addrs, caddrs, Frame.addrs, List.append_assoc, List.cons_append,
    List.nodup_append, List.nodup_cons, List.mem_append, List.mem_cons, not_or,
    List.disjoint_cons_left, List.disjoint_cons_right, List.disjoint_append_left,
    List.disjoint_append_right, List.nil_append, List.append_nil] at hnd
  have hpy : p ≠ y := by rintro rfl; simp at hnd
  simp only [cpar_cons, Frame.addr_L, Frame.addr_R, ptr_node] at hz hp hg hy
  constructor
  · simp [rbtree_insert_fixup_body, hz, hp, hg, hy, hpy]
  · have h1 := setColor_at (C := Frame.R RBTREE_BLACK (node RBTREE_RED ul y ku ur) g kg :: up) (a := p) RBTREE_BLACK hr
    have h2 := setColor_at (C := Frame.L RBTREE_BLACK g kg (node RBTREE_BLACK (node RBTREE_RED l z k r) p kp sp) :: up) (a := y) RBTREE_BLACK h1
    have h3 := setColor_at (C := up) (a := g) RBTREE_RED h2
    obtain ⟨-, hnl, hnr, hbl, hbr, hal, har, hhl, hhr, hn, hb, hc⟩ := h
    refine ⟨h3, ?_, ?_, rfl, rfl, ?_, ?_, ?_, ?_, ?_, ?_, ?_⟩
    all_goals clear h1 h2 h3 hy hnd
    all_goals clear hr hz hp hg
    all_goals simp_all [NoRR, Bal, bh, CtxNoRR, CtxBal, ctxRootColor]
    all_goals omega

theorem insert_fixup_case1_RL {t : rbtree} {z p g y : Nat} {up : Ctx}
    {l r sp ul ur : Tree} {k kp kg ku : Int} {n : Nat}
    (h : InsInv t z (Frame.R RBTREE_RED sp p kp :: Frame.L RBTREE_BLACK g kg (node RBTREE_RED ul y ku ur) :: up) l k r n) :
    rbtree_insert_fixup_body t z = ((((t.setColor p RBTREE_BLACK).setColor y RBTREE_BLACK).setColor g RBTREE_RED), g) ∧
    InsInv (((t.setColor p RBTREE_BLACK).setColor y RBTREE_BLACK).setColor g RBTREE_RED) g up
      (node RBTREE_BLACK sp p kp (node RBTREE_RED l z k r)) kg
      (node RBTREE_BLACK ul y ku ur) (n + 1) := by
  have hr := h.rep
  have hz := read_at hr
  have hp := read_at (C := Frame.L RBTREE_BLACK g kg (node RBTREE_RED ul y ku ur) :: up) (a := p) hr
  have hg := read_at (C := up) (a := g) hr
  have hy := read_at (C := Frame.R RBTREE_BLACK (node RBTREE_RED sp p kp (node RBTREE_RED l z k r)) g kg :: up) (a := y) hr
  have hnd := nodup_at hr
  simp only [addrs, caddrs, Frame.addrs, List.append_assoc, List.cons_append,
    List.nodup_append, List.nodup_cons, List.mem_append, List.mem_cons, not_or,
    List.disjoint_cons_left, List.disjoint_cons_right, List.disjoint_append_left,
    List.disjoint_append_right, List.nil_append, List.append_nil] at hnd
  have hpy : p ≠ y := by rintro rfl; simp at hnd
  simp only [cpar_cons, Frame.addr_L, Frame.addr_R, ptr_node] at hz hp hg hy
  constructor
  · simp [rbtree_insert_fixup_body, hz, hp, hg, hy, hpy]
  · have h1 := setColor_at (C := Frame.L RBTREE_BLACK g kg (node RBTREE_RED ul y ku ur) :: up) (a := p) RBTREE_BLACK hr
    have h2 := setColor_at (C := Frame.R RBTREE_BLACK (node RBTREE_BLACK sp p kp (node RBTREE_RED l z k r)) g kg :: up) (a := y) RBTREE_BLACK h1
    have h3 := setColor_at (C := up) (a := g) RBTREE_RED h2
    obtain ⟨-, hnl, hnr, hbl, hbr, hal, har, hhl, hhr, hn, hb, hc⟩ := h
    refine ⟨h3, ?_, ?_, rfl, rfl, ?_, ?_, ?_, ?_, ?_, ?_, ?_⟩
    all_goals clear h1 h2 h3 hy hnd
    all_goals clear hr hz hp hg
    all_goals simp_all [NoRR, Bal, bh, CtxNoRR, CtxBal, ctxRootColor]
    all_goals omega

theorem insert_fixup_case1_RR {t : rbtree} {z p g y : Nat} {up : Ctx}
    {l r sp ul ur : Tree} {k kp kg ku : Int} {n : Nat}
    (h : InsInv t z (Frame.R RBTREE_RED sp p kp :: Frame.R RBTREE_BLACK (node RBTREE_RED ul y ku ur) g kg :: up) l k r n) :
    rbtree_insert_fixup_body t z = ((((t.setColor p RBTREE_BLACK).setColor y RBTREE_BLACK).setColor g RBTREE_RED), g) ∧
    InsInv (((t.setColor p RBTREE_BLACK).setColor y RBTREE_BLACK).setColor g RBTREE_RED) g up
      (node RBTREE_BLACK ul y ku ur) kg
      (node RBTREE_BLACK sp p kp (node RBTREE_RED l z k r)) (n + 1) := by
  have hr := h.rep
  have hz := read_at hr
  have hp := read_at (C := Frame.R RBTREE_BLACK (node RBTREE_RED ul y ku ur) g kg :: up) (a := p) hr
  have hg := read_at (C := up) (a := g) hr
  have hy := read_at (C := Frame.L RBTREE_BLACK g kg (node RBTREE_RED sp p kp (node RBTREE_RED l z k r)) :: up) (a := y) hr
  have hnd := nodup_at hr
  simp only [addrs, caddrs, Frame.addrs, List.append_assoc, List.cons_append,
    List.nodup_append, List.nodup_cons, List.mem_append, List.mem_cons, not_or,
    List.disjoint_cons_left, List.disjoint_cons_right, List.disjoint_append_left,
    List.disjoint_append_right, List.nil_append, List.append_nil] at hnd
  have hpy : p ≠ y := by rintro rfl; simp at hnd
  simp only [cpar_cons, Frame.addr_L, Frame.addr_R, ptr_node] at hz hp hg hy
  constructor
  · simp [rbtree_insert_fixup_body, hz, hp, hg, hy, hpy]
  · have h1 := setColor_at (C := Frame.R RBTREE_BLACK (node RBTREE_RED ul y ku ur) g kg :: up) (a := p) RBTREE_BLACK hr
    have h2 := setColor_at (C := Frame.L RBTREE_BLACK g kg (node RBTREE_BLACK sp p kp (node RBTREE_RED l z k r)) :: up) (a := y) RBTREE_BLACK h1
    have h3 := setColor_at (C := up) (a := g) RBTREE_RED h2
    obtain ⟨-, hnl, hnr, hbl, hbr, hal, har, hhl, hhr, hn, hb, hc⟩ := h
    refine ⟨h3, ?_, ?_, rfl, rfl, ?_, ?_, ?_, ?_, ?_, ?_, ?_⟩
    all_goals clear h1 h2 h3 hy hnd
    all_goals clear hr hz hp hg
    all_goals simp_all [NoRR, Bal, bh, CtxNoRR, CtxBal, ctxRootColor]
    all_goals omega

theorem insert_fixup_case3_LL {t : rbtree} {z p g : Nat} {up : Ctx}
    {l r sp u : Tree} {k kp kg : Int} {n : Nat}
    (h : InsInv t z (Frame.L RBTREE_RED p kp sp :: Frame.L RBTREE_BLACK g kg u :: up) l k r n)
    (hu : u.rootColor = RBTREE_BLACK) :
    rbtree_insert_fixup_body t z = ((right_rotate ((t.setColor p RBTREE_BLACK).setColor g RBTREE_RED) g), z) ∧
    InsInv (right_rotate ((t.setColor p RBTREE_BLACK).setColor g RBTREE_RED) g) z (Frame.L RBTREE_BLACK p kp (node RBTREE_RED sp g kg u) :: up) l k r n := by
  have hr := h.rep
  have hz := read_at hr
  have hp := read_at (C := Frame.L RBTREE_BLACK g kg u :: up) (a := p) hr
  have hg := read_at (C := up) (a := g) hr
  have hy := color_ptr (C := Frame.R RBTREE_BLACK (node RBTREE_RED (node RBTREE_RED l z k r) p kp sp) g kg :: up) (s := u) hr
  have hnd := nodup_at hr
  simp only [addrs, caddrs, Frame.addrs, List.append_assoc, List.cons_append,
    List.nodup_append, List.nodup_cons, List.mem_append, List.mem_cons, not_or,
    List.disjoint_cons_left, List.disjoint_cons_right, List.disjoint_append_left,
    List.disjoint_append_right, List.nil_append, List.append_nil] at hnd
  simp only [cpar_cons, Frame.addr_L, Frame.addr_R, ptr_node] at hz hp hg
  have hup : ptr t.nil u ≠ p := ptr_ne hp.2.2.2.2.2 (by simp [hnd])
  have hsz : ptr t.nil sp ≠ z := ptr_ne hz.2.2.2.2.2 (by simp [hnd])
  constructor
  · simp [rbtree_insert_fixup_body, hz, hp, hg, hy, hu, hup, Ne.symm hup, hsz, Ne.symm hsz]
  · have h1 := setColor_at (C := Frame.L RBTREE_BLACK g kg u :: up) (a := p) RBTREE_BLACK hr
    have h2 := setColor_at (C := up) (a := g) RBTREE_RED h1
    have h3 := (right_rotate_at (C := up) h2).1
    obtain ⟨-, hnl, hnr, hbl, hbr, hal, har, hhl, hhr, hn, hb, hc⟩ := h
    refine ⟨h3, ?_, ?_, ?_, ?_, ?_, ?_, ?_, ?_, ?_, ?_, ?_⟩
    all_goals clear h1 h2 h3 hy hnd hup hsz
    all_goals clear hr hz hp hg
    all_goals simp_all [NoRR, Bal, bh, CtxNoRR, CtxBal, ctxRootColor]

theorem insert_fixup_case2_RL {t : rbtree} {z p g : Nat} {up : Ctx}
    {l r sp u : Tree} {k kp kg : Int} {n : Nat}
    (h : InsInv t z (Frame.R RBTREE_RED sp p kp :: Frame.L RBTREE_BLACK g kg u :: up) l k r n)
    (hu : u.rootColor = RBTREE_BLACK) :
    rbtree_insert_fixup_body t z = ((right_rotate (((left_rotate t p).setColor z RBTREE_BLACK).setColor g RBTREE_RED) g), p) ∧
    InsInv (right_rotate (((left_rotate t p).setColor z RBTREE_BLACK).setColor g RBTREE_RED) g) p (Frame.L RBTREE_BLACK z k (node RBTREE_RED r g kg u) :: up) sp kp l n := by
  have hr := h.rep
  have hz := read_at hr
  have hp := read_at (C := Frame.L RBTREE_BLACK g kg u :: up) (a := p) hr
  have hg := read_at (C := up) (a := g) hr
  have hy := color_ptr (C := Frame.R RBTREE_BLACK (node RBTREE_RED sp p kp (node RBTREE_RED l z k r)) g kg :: up) (s := u) hr
  have hnd := nodup_at hr
  simp only [addrs, caddrs, Frame.addrs, List.append_assoc, List.cons_append,
    List.nodup_append, List.nodup_cons, List.mem_append, List.mem_cons, not_or,
    List.disjoint_cons_left, List.disjoint_cons_right, List.disjoint_append_left,
    List.disjoint_append_right, List.nil_append, List.append_nil] at hnd
  simp only [cpar_cons, Frame.addr_L, Frame.addr_R, ptr_node] at hz hp hg
  have hup : ptr t.nil u ≠ p := ptr_ne hp.2.2.2.2.2 (by simp [hnd])
  have h1 := (left_rotate_at (C := Frame.L RBTREE_BLACK g kg u :: up) hr).1
  have hz1 := read_at (C := Frame.L RBTREE_BLACK g kg u :: up) (a := z) h1
  have hp1 := read_at (C := Frame.L RBTREE_RED z k r :: Frame.L RBTREE_BLACK g kg u :: up) (a := p) h1
  simp only [cpar_cons, Frame.addr_L, Frame.addr_R, ptr_node] at hz1 hp1
  constructor
  · simp [rbtree_insert_fixup_body, hz, hp, hg, hy, hu, hup, Ne.symm hup, hz1, hp1]
  · have h2 := setColor_at (C := Frame.L RBTREE_BLACK g kg u :: up) (a := z) RBTREE_BLACK h1
    have h3 := setColor_at (C := up) (a := g) RBTREE_RED h2
    have h4 := (right_rotate_at (C := up) h3).1
    obtain ⟨-, hnl, hnr, hbl, hbr, hal, har, hhl, hhr, hn, hb, hc⟩ := h
    refine ⟨h4, ?_, ?_, ?_, ?_, ?_, ?_, ?_, ?_, ?_, ?_, ?_⟩
    all_goals clear h1 h2 h3 h4 hy hnd hup hz1 hp1
    all_goals clear hr hz hp hg
    all_goals simp_all [NoRR, Bal, bh, CtxNoRR, CtxBal, ctxRootColor]

theorem insert_fixup_case3_RR {t : rbtree} {z p g : Nat} {up : Ctx}
    {l r sp u : Tree} {k kp kg : Int} {n : Nat}
    (h : InsInv t z (Frame.R RBTREE_RED sp p kp :: Frame.R RBTREE_BLACK u g kg :: up) l k r n)
    (hu : u.rootColor = RBTREE_BLACK) :
    rbtree_insert_fixup_body t z = ((left_rotate ((t.setColor p RBTREE_BLACK).setColor g RBTREE_RED) g), z) ∧
    InsInv (left_rotate ((t.setColor p RBTREE_BLACK).setColor g RBTREE_RED) g) z (Frame.R RBTREE_BLACK (node RBTREE_RED u g kg sp) p kp :: up) l k r n := by
  have hr := h.rep
  have hz := read_at hr
  have hp := read_at (C := Frame.R RBTREE_BLACK u g kg :: up) (a := p) hr
  have hg := read_at (C := up) (a := g) hr
  have hy := color_ptr (C := Frame.L RBTREE_BLACK g kg (node RBTREE_RED sp p kp (node RBTREE_RED l z k r)) :: up) (s := u) hr
  have hnd := nodup_at hr
  simp only [addrs, caddrs, Frame.addrs, List.append_assoc, List.cons_append,
    List.nodup_append, List.nodup_cons, List.mem_append, List.mem_cons, not_or,
    List.disjoint_cons_left, List.disjoint_cons_right, List.disjoint_append_left,
    List.disjoint_append_right, List.nil_append, List.append_nil] at hnd
  simp only [cpar_cons, Frame.addr_L, Frame.addr_R, ptr_node] at hz hp hg
  have hup : ptr t.nil u ≠ p := ptr_ne hp.2.2.2.2.2 (by simp [hnd])
  have hsz : ptr t.nil sp ≠ z := ptr_ne hz.2.2.2.2.2 (by simp [hnd])
  constructor
  · simp [rbtree_insert_fixup_body, hz, hp, hg, hy, hu, hup, Ne.symm hup, hsz, Ne.symm hsz]
  · have h1 := setColor_at (C := Frame.R RBTREE_BLACK u g kg :: up) (a := p) RBTREE_BLACK hr
    have h2 := setColor_at (C := up) (a := g) RBTREE_RED h1
    have h3 := (left_rotate_at (C := up) h2).1
    obtain ⟨-, hnl, hnr, hbl, hbr, hal, har, hhl, hhr, hn, hb, hc⟩ := h
    refine ⟨h3, ?_, ?_, ?_, ?_, ?_, ?_, ?_, ?_, ?_, ?_, ?_⟩
    all_goals clear h1 h2 h3 hy hnd hup hsz
    all_goals clear hr hz hp hg
    all_goals simp_all [NoRR, Bal, bh, CtxNoRR, CtxBal, ctxRootColor]

theorem insert_fixup_case2_LR {t : rbtree} {z p g : Nat} {up : Ctx}
    {l r sp u : Tree} {k kp kg : Int} {n : Nat}
    (h : InsInv t z (Frame.L RBTREE_RED p kp sp :: Frame.R RBTREE_BLACK u g kg :: up) l k r n)
    (hu : u.rootColor = RBTREE_BLACK) :
    rbtree_insert_fixup_body t z = ((left_rotate (((right_rotate t p).setColor z RBTREE_BLACK).setColor g RBTREE_RED) g), p) ∧
    InsInv (left_rotate (((right_rotate t p).setColor z RBTREE_BLACK).setColor g RBTREE_RED) g) p (Frame.R RBTREE_BLACK (node RBTREE_RED u g kg l) z k :: up) r kp sp n := by
  have hr := h.rep
  have hz := read_at hr
  have hp := read_at (C := Frame.R RBTREE_BLACK u g kg :: up) (a := p) hr
  have hg := read_at (C := up) (a := g) hr
  have hy := color_ptr (C := Frame.L RBTREE_BLACK g kg (node RBTREE_RED (node RBTREE_RED l z k r) p kp sp) :: up) (s := u) hr
  have hnd := nodup_at hr
  simp only [addrs, caddrs, Frame.addrs, List.append_assoc, List.cons_append,
    List.nodup_append, List.nodup_cons, List.mem_append, List.mem_cons, not_or,
    List.disjoint_cons_left, List.disjoint_cons_right, List.disjoint_append_left,
    List.disjoint_append_right, List.nil_append, List.append_nil] at hnd
  simp only [cpar_cons, Frame.addr_L, Frame.addr_R, ptr_node] at hz hp hg
  have hup : ptr t.nil u ≠ p := ptr_ne hp.2.2.2.2.2 (by simp [hnd])
  have h1 := (right_rotate_at (C := Frame.R RBTREE_BLACK u g kg :: up) hr).1
  have hz1 := read_at (C := Frame.R RBTREE_BLACK u g kg :: up) (a := z) h1
  have hp1 := read_at (C := Frame.R RBTREE_RED l z k :: Frame.R RBTREE_BLACK u g kg :: up) (a := p) h1
  simp only [cpar_cons, Frame.addr_L, Frame.addr_R, ptr_node] at hz1 hp1
  constructor
  · simp [rbtree_insert_fixup_body, hz, hp, hg, hy, hu, hup, Ne.symm hup, hz1, hp1]
  · have h2 := setColor_at (C := Frame.R RBTREE_BLACK u g kg :: up) (a := z) RBTREE_BLACK h1
    have h3 := setColor_at (C := up) (a := g) RBTREE_RED h2
    have h4 := (left_rotate_at (C := up) h3).1
    obtain ⟨-, hnl, hnr, hbl, hbr, hal, har, hhl, hhr, hn, hb, hc⟩ := h
    refine ⟨h4, ?_, ?_, ?_, ?_, ?_, ?_, ?_, ?_, ?_, ?_, ?_⟩
    all_goals clear h1 h2 h3 h4 hy hnd hup hz1 hp1
    all_goals clear hr hz hp hg
    all_goals simp_all [NoRR, Bal, bh, CtxNoRR, CtxBal, ctxRootColor]

theorem insMeasure_le (C : Ctx) : insMeasure C ≤ C.length := by
  cases C with
  | nil => simp [insMeasure]
  | cons f up => simp only [insMeasure, List.length_cons]; split_ifs <;> omega

theorem rotate_frame_nil_brk (t : rbtree) (x : Nat) :
    (left_rotate t x).nil = t.nil ∧ (left_rotate t x).brk = t.brk ∧
    (right_rotate t x).nil = t.nil ∧ (right_rotate t x).brk = t.brk :=
  ⟨left_rotate_nil t x, left_rotate_brk t x, right_rotate_nil t x, right_rotate_brk t x⟩

theorem parent_color_at {t : rbtree} {f : Frame} {up : Ctx} {s : Tree}
    (h : Represents t (plug (f :: up) s)) : t.color f.addr = f.color := by
  cases f with
  | L c a k r => exact (read_at (C := up) (a := a) h).1
  | R c l a k => exact (read_at (C := up) (a := a) h).1

/-- The loop of `rbtree_insert_fixup` terminates within its measure, and what it returns is a
red-black tree over the same nodes in the same in-order. -/
theorem insert_fixup_loop (fuel : Nat) : ∀ (t : rbtree) (z : Nat) (C : Ctx) (l : Tree) (k : Int)
    (r : Tree) (n : Nat), InsInv t z C l k r n → insMeasure C < fuel →
    ∃ t2 T2, rbtree_insert_fixup fuel t z = some t2 ∧ Represents t2 T2 ∧
      T2.rootColor = RBTREE_BLACK ∧ T2.NoRR ∧ T2.Bal ∧
      T2.elems = (plug C (node RBTREE_RED l z k r)).elems ∧
      t2.nil = t.nil ∧ t2.brk = t.brk := by
  induction fuel with
  | zero => intro t z C l k r n _ hm; omega
  | succ fuel ih =>
    intro t z C l k r n h hm
    rw [rbtree_insert_fixup]
    by_cases hred : t.color (t.parent z) = RBTREE_RED
    · rw [if_pos hred]
      obtain ⟨f, g, up, rfl, hf, hg⟩ := insert_fixup_shape h hred
      have hm2 : up.length + 2 < fuel + 1 := by
        simp only [insMeasure, hf, if_true, List.length_cons] at hm; omega
      have hup : insMeasure up < fuel := by
        have := insMeasure_le up; omega
      rcases f with ⟨cf, p, kp, sp⟩ | ⟨cf, sp, p, kp⟩ <;>
        rcases g with ⟨cg, g, kg, u⟩ | ⟨cg, u, g, kg⟩ <;>
        simp only [Frame.color_L, Frame.color_R] at hf hg <;> subst hf <;> subst hg <;>
        rcases hu : u.rootColor with _ | _
      all_goals first
        | (rcases u with _ | ⟨cu, ul, y, ku, ur⟩
           · simp at hu
           · simp only [rootColor_node] at hu; subst hu
             first
               | obtain ⟨hb, hi⟩ := insert_fixup_case1_LL h
               | obtain ⟨hb, hi⟩ := insert_fixup_case1_LR h
               | obtain ⟨hb, hi⟩ := insert_fixup_case1_RL h
               | obtain ⟨hb, hi⟩ := insert_fixup_case1_RR h
             rw [hb]
             obtain ⟨t2, T2, h1, h2, h3, h4, h5, h6, h7, h8⟩ := ih _ _ _ _ _ _ _ hi hup
             refine ⟨t2, T2, h1, h2, h3, h4, h5, ?_, ?_, ?_⟩
             · rw [h6]; simp [elems_plug, elems, cpre, cpost]
             · rw [h7]; simp
             · rw [h8]; simp)
        | (first
             | obtain ⟨hb, hi⟩ := insert_fixup_case3_LL h hu
             | obtain ⟨hb, hi⟩ := insert_fixup_case2_RL h hu
             | obtain ⟨hb, hi⟩ := insert_fixup_case2_LR h hu
             | obtain ⟨hb, hi⟩ := insert_fixup_case3_RR h hu
           rw [hb]
           obtain ⟨t2, T2, h1, h2, h3, h4, h5, h6, h7, h8⟩ :=
             ih _ _ _ _ _ _ _ hi (by simp [insMeasure]; omega)
           refine ⟨t2, T2, h1, h2, h3, h4, h5, ?_, ?_, ?_⟩
           · rw [h6]; simp [elems_plug, elems, cpre, cpost]
           · rw [h7]; simp [left_rotate_nil, right_rotate_nil]
           · rw [h8]; simp [left_rotate_brk, right_rotate_brk])
    · rw [if_neg hred]
      refine ⟨_, _, rfl, blacken_root h.rep, rootColor_blacken _, NoRR_blacken ?_,
        Bal_blacken.2 ?_, elems_blacken _, rfl, rfl⟩
      · rw [NoRR_plug]
        refine ⟨by simp [NoRR, h.norr_l, h.norr_r, h.black_l, h.black_r], ?_⟩
        refine CtxNoRR_of_black_parent _ h.cnorr ?_
        intro f hf
        rcases C with _ | ⟨f2, up⟩
        · simp at hf
        · simp only [List.head?_cons, Option.mem_def, Option.some.injEq] at hf
          subst hf
          have hz := read_at h.rep
          rw [hz.2.2.1, cpar_cons, parent_color_at h.rep] at hred
          exact (ne_red_iff _).1 hred
      · rw [Bal_plug]
        refine ⟨by simp [Bal, h.bal_l, h.bal_r, h.bh_l, h.bh_r], ?_⟩
        simpa [bh, h.bh_l] using h.cbal

/-! ### `rbtree_insert`: allocation, descent, attachment -/

theorem rbtree_insert_eq (fuel : Nat) (t : rbtree) (key : Int) :
    rbtree_insert fuel t key =
      match insert_descend (insert_init t key) t.brk fuel t.root t.nil with
      | none => none
      | some y =>
        match rbtree_insert_fixup fuel (insert_link (insert_init t key) t.brk y) t.brk with
        | none => none
        | some t2 => some (t2, t.brk) := rfl

theorem insert_init_mem_ne (t : rbtree) (key : Int) {b : Nat} (h : b ≠ t.brk) :
    (insert_init t key).mem b = t.mem b := by
  simp [insert_init, calloc_node, rbtree.setKey, rbtree.setColor, rbtree.setLeft,
    rbtree.setRight, set_mem, h]

theorem insert_init_mem_self (t : rbtree) (key : Int) :
    (insert_init t key).mem t.brk = ⟨RBTREE_RED, key, 0, t.nil, t.nil⟩ := by
  simp [insert_init, calloc_node, rbtree.setKey, rbtree.setColor, rbtree.setLeft,
    rbtree.setRight, set_mem]

@[simp] theorem insert_init_nil (t : rbtree) (key : Int) : (insert_init t key).nil = t.nil := rfl
@[simp] theorem insert_init_root (t : rbtree) (key : Int) : (insert_init t key).root = t.root :=
  rfl
@[simp] theorem insert_init_brk (t : rbtree) (key : Int) :
    (insert_init t key).brk = t.brk + 1 := rfl

theorem insert_init_represents {t : rbtree} {T : Tree} (key : Int) (h : Represents t T) :
    Represents (insert_init t key) T := by
  have hne : ∀ a ∈ T.addrs, a ≠ t.brk := fun a ha => Nat.ne_of_lt (h.addrs_lt a ha)
  have hnl : t.nil ≠ t.brk := Nat.ne_of_lt h.nil_lt
  constructor
  · exact h.root
  · exact Rep_congr (fun a ha => insert_init_mem_ne t key (hne a ha)) h.rep
  · exact h.nodup
  · rw [insert_init_nil, insert_init_mem_ne t key hnl]; exact h.nil_color
  · rw [insert_init_nil, insert_init_mem_ne t key hnl]; exact h.nil_left
  · rw [insert_init_nil, insert_init_mem_ne t key hnl]; exact h.nil_right
  · exact Nat.lt_succ_of_lt h.nil_lt
  · exact fun a ha => Nat.lt_succ_of_lt (h.addrs_lt a ha)

theorem plug_insCtx (key : Int) (s : Tree) (C : Ctx) : plug (insCtx key s C) nil = plug C s := by
  induction s generalizing C with
  | nil => rfl
  | node c l a k r ihl ihr =>
    simp only [insCtx]
    split_ifs
    · rw [ihl]; rfl
    · rw [ihr]; rfl

theorem insert_descend_spec {t : rbtree} {z : Nat} (s : Tree) : ∀ (C : Ctx) (fuel : Nat),
    Represents t (plug C s) → s.height < fuel →
    insert_descend t z fuel (s.ptr t.nil) (cpar t.nil C) =
      some (cpar t.nil (insCtx (t.key z) s C)) := by
  induction s with
  | nil =>
    intro C fuel _ hf
    obtain ⟨fuel, rfl⟩ : ∃ m, fuel = m + 1 := ⟨fuel - 1, by omega⟩
    simp [insert_descend, insCtx]
  | node c l a k r ihl ihr =>
    intro C fuel h hf
    obtain ⟨fuel, rfl⟩ : ∃ m, fuel = m + 1 := ⟨fuel - 1, by omega⟩
    have ha := read_at h
    simp only [height] at hf
    simp only [insert_descend, ptr_node, ne_eq, ha.2.2.2.2.2, not_false_eq_true, if_true,
      ha.2.1, ha.2.2.2.1, ha.2.2.2.2.1, insCtx]
    split_ifs with hk
    · have := ihl (Frame.L c a k r :: C) fuel h (by omega)
      simpa using this
    · have := ihr (Frame.R c l a k :: C) fuel h (by omega)
      simpa using this

theorem insCtx_head (key : Int) (s : Tree) : ∀ (C : Ctx),
    (∀ f ∈ C.head?, goodFrame key f) → ∀ f ∈ (insCtx key s C).head?, goodFrame key f := by
  induction s with
  | nil => intro C h; exact h
  | node c l a k r ihl ihr =>
    intro C _
    simp only [insCtx]
    split_ifs with hk
    · exact ihl _ (by simpa [goodFrame] using hk)
    · exact ihr _ (by simpa [goodFrame] using hk)

theorem insert_link_represents {t : rbtree} {C : Ctx} {z : Nat} {key : Int} {p : Nat}
    (h : Represents t (plug C nil)) (hz : t.mem z = ⟨RBTREE_RED, key, p, t.nil, t.nil⟩)
    (hzn : z ≠ t.nil) (hza : z ∉ caddrs C) (hzb : z < t.brk)
    (hg : ∀ f ∈ C.head?, goodFrame key f) :
    Represents (insert_link t z (cpar t.nil C)) (plug C (node RBTREE_RED nil z key nil)) := by
  have hf := represents_plug.1 h
  rw [represents_plug, focus_iff]
  obtain ⟨hroot, hctx, hsub, hnd0, hnc, hnl, hnr, hlt, halt⟩ := hf
  have hg2 : ∀ f up, C = f :: up → goodFrame key f := fun f up e => hg f (by simp [e])
  have hnd1 : ((node RBTREE_RED nil z key nil).addrs ++ caddrs C).Nodup := by
    simpa [addrs, hza] using hnd0
  have halt1 : ∀ a ∈ (node RBTREE_RED nil z key nil).addrs ++ caddrs C,
      a < (insert_link t z (cpar t.nil C)).brk := by
    have hb : (insert_link t z (cpar t.nil C)).brk = t.brk := by
      simp only [insert_link, rbtree.setParent, rbtree.setLeft, rbtree.setRight, set_nil]
      split_ifs <;> rfl
    rw [hb]
    intro a ha
    simp only [addrs, List.nil_append, List.cons_append, List.mem_cons] at ha
    rcases ha with rfl | ha
    · exact hzb
    · exact halt a (by simpa [addrs] using ha)
  refine ⟨?_, ?_, ?_, hnd1, ?_, ?_, ?_, ?_, halt1⟩
  all_goals
    clear hnd1 halt1
    rcases C with _ | ⟨⟨cp, q, kp, r⟩ | ⟨cp, l, q, kp⟩, up⟩
  all_goals
    simp only [Rep, RepCtx] at hctx
    simp only [addrs, caddrs, Frame.addrs, List.append_assoc, List.cons_append,
      List.nodup_append, List.nodup_cons, List.nil_append,
      List.mem_append, List.mem_cons, not_or, List.disjoint_cons_left, List.disjoint_cons_right,
      List.disjoint_append_left, List.disjoint_append_right] at hnd0 hza halt
    have hg3 := fun f up => hg2 f up
    simp only [goodFrame, List.cons.injEq, and_imp, forall_apply_eq_imp_iff,
      forall_eq_apply_imp_iff, forall_eq', reduceCtorEq, false_implies, implies_true] at hg3
  all_goals
    simp [insert_link, rbtree.key, rbtree.setParent, rbtree.setLeft, rbtree.setRight, hz, hg3,
      set_mem_ne, set_mem_ne2, Rep, RepCtx, Rep_set, RepCtx_set, hnd0, croot, hza, hzn,
      Ne.symm hzn, *]

theorem insCtx_length (key : Int) (s : Tree) : ∀ (C : Ctx),
    (insCtx key s C).length ≤ C.length + s.height := by
  induction s with
  | nil => intro C; simp [insCtx]
  | node c l a k r ihl ihr =>
    intro C
    simp only [insCtx, height]
    split_ifs
    · have := ihl (Frame.L c a k r :: C); simp only [List.length_cons] at this; omega
    · have := ihr (Frame.R c l a k :: C); simp only [List.length_cons] at this; omega

theorem mem_keys_of_mem_elems {T : Tree} {x : Nat × Int} (h : x ∈ T.elems) : x.2 ∈ T.keys := by
  rw [keys_eq_map_elems]; exact List.mem_map_of_mem _ h

theorem insCtx_bounds (key : Int) (s : Tree) : ∀ (C : Ctx), s.Ordered →
    (∀ x ∈ cpre C, x.2 ≤ key) → (∀ x ∈ cpost C, key ≤ x.2) →
    (∀ x ∈ cpre (insCtx key s C), x.2 ≤ key) ∧ (∀ x ∈ cpost (insCtx key s C), key ≤ x.2) := by
  induction s with
  | nil => intro C _ h1 h2; exact ⟨h1, h2⟩
  | node c l a k r ihl ihr =>
    intro C ho h1 h2
    simp only [Ordered] at ho
    simp only [insCtx]
    split_ifs with hk
    · refine ihl _ ho.2.2.1 (by simpa [cpre] using h1) ?_
      intro x hx
      simp only [cpost, List.cons_append, List.mem_cons, List.mem_append] at hx
      rcases hx with rfl | hx | hx
      · exact le_of_lt hk
      · exact le_trans (le_of_lt hk) (ho.2.1 _ (mem_keys_of_mem_elems hx))
      · exact h2 x hx
    · refine ihr _ ho.2.2.2 ?_ (by simpa [cpost] using h2)
      intro x hx
      simp only [cpre, List.mem_append, List.mem_singleton] at hx
      rcases hx with hx | hx | rfl
      · exact h1 x hx
      · exact le_trans (ho.1 _ (mem_keys_of_mem_elems hx)) (not_lt.1 hk)
      · exact not_lt.1 hk

theorem height_le_size (T : Tree) : T.height ≤ T.size := by
  induction T with
  | nil => simp [height, size]
  | node c l a k r ihl ihr => simp only [height, size]; omega

/-- The contract of `rbtree_insert` on a valid tree: with fuel above the height it returns, the
result is a valid tree again, the returned node is the fresh address, and the in-order sequence
of the result is the old one with the new node put in at one place. -/
theorem rbtree_insert_spec {t : rbtree} {T : Tree} (h : RBInv t T) (key : Int) (fuel : Nat)
    (hf : T.height < fuel) :
    ∃ t2 T2 pre post, rbtree_insert fuel t key = some (t2, t.brk) ∧ RBInv t2 T2 ∧
      T.elems = pre ++ post ∧ T2.elems = pre ++ (t.brk, key) :: post ∧
      t2.nil = t.nil ∧ t2.brk = t.brk + 1 ∧ t.brk ∉ T.addrs := by
  have hfresh : t.brk ∉ T.addrs := fun hm => Nat.lt_irrefl _ (h.rep.addrs_lt _ hm)
  have h1 := insert_init_represents key h.rep
  have hz := insert_init_mem_self t key
  have hkz : (insert_init t key).key t.brk = key := by simp [rbtree.key, hz]
  have hd := insert_descend_spec (t := insert_init t key) (z := t.brk) T [] fuel h1 hf
  simp only [cpar_nil, insert_init_nil, hkz] at hd
  have hroot : t.root = T.ptr t.nil := h.rep.root
  rw [← hroot] at hd
  have hp := plug_insCtx key T []
  simp only [plug_nil] at hp
  have h2 : Represents (insert_init t key) (plug (insCtx key T []) nil) := by rw [hp]; exact h1
  have hza : t.brk ∉ caddrs (insCtx key T []) := by
    intro hm
    have : t.brk ∈ (plug (insCtx key T []) nil).addrs :=
      (addrs_plug_perm _ _).mem_iff.2 (List.mem_append_right _ hm)
    rw [hp] at this
    exact hfresh this
  have h3 := insert_link_represents h2 hz
    (Nat.ne_of_gt h.rep.nil_lt) hza (by simp) (insCtx_head key T [] (by simp))
  have hi : InsInv (insert_link (insert_init t key) t.brk (cpar t.nil (insCtx key T []))) t.brk
      (insCtx key T []) nil key nil 0 := by
    have hn := (NoRR_plug (insCtx key T []) nil).1 (by rw [hp]; exact h.norr)
    have hb := (Bal_plug (insCtx key T []) nil).1 (by rw [hp]; exact h.bal)
    have hc := rootColor_plug (insCtx key T []) nil
    rw [hp, h.root_black] at hc
    exact ⟨h3, trivial, trivial, rfl, rfl, trivial, trivial, rfl, rfl, hn.2, hb.2, hc.symm⟩
  have hm : insMeasure (insCtx key T []) < fuel := by
    have a1 := insMeasure_le (insCtx key T [])
    have a2 := insCtx_length key T []
    simp only [List.length_nil] at a2
    omega
  obtain ⟨t2, T2, e1, e2, e3, e4, e5, e6, e7, e8⟩ := insert_fixup_loop fuel _ _ _ _ _ _ _ hi hm
  have hnil : (insert_link (insert_init t key) t.brk (cpar t.nil (insCtx key T []))).nil = t.nil ∧
      (insert_link (insert_init t key) t.brk (cpar t.nil (insCtx key T []))).brk = t.brk + 1 := by
    simp only [insert_link, rbtree.setParent, rbtree.setLeft, rbtree.setRight, set_nil]
    split_ifs <;> exact ⟨rfl, rfl⟩
  have hel : T.elems = cpre (insCtx key T []) ++ cpost (insCtx key T []) := by
    have := elems_plug (insCtx key T []) nil
    rw [hp] at this
    simpa [elems] using this
  have hel2 : T2.elems = cpre (insCtx key T []) ++ (t.brk, key) :: cpost (insCtx key T []) := by
    rw [e6, elems_plug]; simp [elems]
  refine ⟨t2, T2, cpre (insCtx key T []), cpost (insCtx key T []), ?_, ⟨e2, e3, e4, e5, ?_⟩,
    hel, hel2, by rw [e7, hnil.1], by rw [e8, hnil.2], hfresh⟩
  · rw [rbtree_insert_eq, hd]
    simp only [e1]
  · have hb := insCtx_bounds key T [] ((Ordered_iff_sorted T).2 h.sorted) (by simp [cpre])
      (by simp [cpost])
    have hs := h.sorted
    rw [keys_eq_map_elems, hel] at hs
    rw [keys_eq_map_elems, hel2]
    simp only [List.map_append, List.map_cons, List.Sorted, List.pairwise_append,
      List.pairwise_cons, List.mem_map, List.mem_cons, forall_exists_index, and_imp,
      forall_apply_eq_imp_iff₂] at hs ⊢
    refine ⟨hs.1, ⟨fun x hx => hb.2 x hx, hs.2.1⟩, ?_⟩
    intro x hx y hy
    rcases hy with rfl | ⟨w, hw, rfl⟩
    · exact hb.1 x hx
    · exact hs.2.2 x hx w hw

theorem ctxRootColor_black {C : Ctx} {c : color_t} (h : ctxRootColor C c = RBTREE_BLACK) :
    ctxRootColor C RBTREE_BLACK = RBTREE_BLACK := by
  cases C with
  | nil => rfl
  | cons f up => exact h

theorem CtxNoRR_red_black {C : Ctx} (h : CtxNoRR C RBTREE_RED) :
    CtxNoRR C RBTREE_BLACK = True := eq_true (CtxNoRR_black h)

theorem ctxRootColor_red_black {C : Ctx} (h : ctxRootColor C RBTREE_RED = RBTREE_BLACK) :
    (ctxRootColor C RBTREE_BLACK = RBTREE_BLACK) = True := eq_true (ctxRootColor_black h)

theorem NoRR_of_blacken {s : Tree} (hs : s.rootColor = RBTREE_BLACK) (h : s.blacken.NoRR) :
    s.NoRR := by
  rcases s with _ | ⟨cs, sl, sa, sk, sr⟩
  · trivial
  · simp only [rootColor_node] at hs; subst hs; exact h

theorem setColor_mem_nil_parent (t : rbtree) (a : Nat) (c : color_t) (b : Nat) :
    ((t.setColor a c).mem b).parent = (t.mem b).parent := setColor_parent t a c b

/-! ### `rbtree_erase_fixup` -/

theorem erase_fixup_body_left {t : rbtree} {x : Nat} (hx : x = t.left (t.parent x)) :
    rbtree_erase_fixup_body t x =
      if t.color (t.right (t.parent x)) = RBTREE_RED then
        erase_fixup_rest_left (erase_fixup_case1_left t x) x
          ((erase_fixup_case1_left t x).right ((erase_fixup_case1_left t x).parent x))
      else erase_fixup_rest_left t x (t.right (t.parent x)) := by
  unfold rbtree_erase_fixup_body
  rw [if_pos hx]
  by_cases h : t.color (t.right (t.parent x)) = RBTREE_RED
  · simp only [if_pos h]; rfl
  · simp only [if_neg h]; rfl

theorem erase_fixup_body_right {t : rbtree} {x : Nat} (hx : x ≠ t.left (t.parent x)) :
    rbtree_erase_fixup_body t x =
      if t.color (t.left (t.parent x)) = RBTREE_RED then
        erase_fixup_rest_right (erase_fixup_case1_right t x) x
          ((erase_fixup_case1_right t x).left ((erase_fixup_case1_right t x).parent x))
      else erase_fixup_rest_right t x (t.left (t.parent x)) := by
  unfold rbtree_erase_fixup_body
  rw [if_neg hx]
  by_cases h : t.color (t.left (t.parent x)) = RBTREE_RED
  · simp only [if_pos h]; rfl
  · simp only [if_neg h]; rfl

theorem erase_fixup_case1_left_spec {t : rbtree} {p w : Nat} {up : Ctx} {s wn wf : Tree}
    {cp : color_t} {kp kw : Int} {n : Nat}
    (h : DelInv t (Frame.L cp p kp (node RBTREE_RED wn w kw wf) :: up) s n) :
    DelInv (erase_fixup_case1_left t (s.ptr t.nil))
      (Frame.L RBTREE_RED p kp wn :: Frame.L RBTREE_BLACK w kw wf :: up) s n ∧
    (erase_fixup_case1_left t (s.ptr t.nil)).nil = t.nil ∧
    (erase_fixup_case1_left t (s.ptr t.nil)).brk = t.brk := by
  have hr := h.rep
  have hx := h.par (by simp)
  have hp := read_at (C := up) (a := p) hr
  have hw := read_at (C := Frame.R cp s p kp :: up) (a := w) hr
  simp only [cpar_cons, Frame.addr_L, Frame.addr_R, ptr_node] at hx hp hw
  have hcp : cp = RBTREE_BLACK := by
    have := h.cnorr
    simp only [CtxNoRR, rootColor_node] at this
    rcases color_cases cp with e | e
    · have := this.1 e; simp at this
    · exact e
  subst hcp
  have h1 := setColor_at (C := Frame.R RBTREE_BLACK s p kp :: up) (a := w) RBTREE_BLACK hr
  have h2 := setColor_at (C := up) (a := p) RBTREE_RED h1
  have h3 := left_rotate_at (C := up) h2
  have he : erase_fixup_case1_left t (s.ptr t.nil) =
      left_rotate ((t.setColor w RBTREE_BLACK).setColor p RBTREE_RED) p := by
    simp [erase_fixup_case1_left, hx, hp]
  rw [he]
  refine ⟨⟨h3.1, ?_, h.norr, h.bal, h.bh, ?_, ?_, ?_⟩, ?_, ?_⟩
  · intro _
    rcases s with _ | ⟨cs, sl, sa, sk, sr⟩
    · simp only [ptr_nil, cpar_cons, Frame.addr_L, Frame.addr_R, left_rotate_nil, setColor_nil]
      simp only [ptr_nil] at hx
      have := h3.2
      simp only [setColor_nil] at this
      simp only [rbtree.parent] at hx ⊢
      rw [this]
      simp only [setColor_mem_nil_parent]
      exact hx
    · exact (read_at (C := Frame.L RBTREE_RED p kp wn :: Frame.L RBTREE_BLACK w kw wf :: up) h3.1).2.2.1
  all_goals
    obtain ⟨-, -, hno, hba, hbh, hn, hb, hc⟩ := h
    clear h1 h2 h3 he hr hx hp hw
  all_goals simp_all [NoRR, Bal, bh, CtxNoRR, CtxBal, ctxRootColor, left_rotate_nil, left_rotate_brk]
  all_goals omega

theorem erase_fixup_case2_left_spec {t : rbtree} {p w : Nat} {up : Ctx} {s wn wf : Tree}
    {cp : color_t} {kp kw : Int} {n : Nat}
    (h : DelInv t (Frame.L cp p kp (node RBTREE_BLACK wn w kw wf) :: up) s n) (hs : s.rootColor = RBTREE_BLACK)
    (hwn : wn.rootColor = RBTREE_BLACK) (hwf : wf.rootColor = RBTREE_BLACK) :
    erase_fixup_rest_left t (s.ptr t.nil) w = (t.setColor w RBTREE_RED, p) ∧
    DelInv (t.setColor w RBTREE_RED) up (node cp s p kp (node RBTREE_RED wn w kw wf)) (n + blk cp) := by
  have hr := h.rep
  have hx := h.par (by simp)
  have hp := read_at (C := up) (a := p) hr
  have hw := read_at (C := Frame.R cp s p kp :: up) (a := w) hr
  have hcn := color_ptr (C := Frame.L RBTREE_BLACK w kw wf :: Frame.R cp s p kp :: up) (s := wn) hr
  have hcf := color_ptr (C := Frame.R RBTREE_BLACK wn w kw :: Frame.R cp s p kp :: up) (s := wf) hr
  simp only [cpar_cons, Frame.addr_L, Frame.addr_R, ptr_node] at hx hp hw
  constructor
  · simp [erase_fixup_rest_left, hx, hp, hw, hcn, hcf, hwn, hwf]
  · have h1 := setColor_at (C := Frame.R cp s p kp :: up) (a := w) RBTREE_RED hr
    have hsn : s.NoRR := NoRR_of_blacken hs h.norr
    refine ⟨h1, ?_, ?_, ?_, ?_, ?_, ?_, ?_⟩
    · intro _; exact (read_at (C := up) (a := p) h1).2.2.1
    all_goals
      obtain ⟨-, -, hno, hba, hbh, hn, hb, hc⟩ := h
      clear h1 hr hx hp hw hcn hcf
      rcases color_cases cp with rfl | rfl
    all_goals simp_all [NoRR, Bal, bh, CtxNoRR, CtxBal, ctxRootColor, CtxNoRR_red_black,
      ctxRootColor_red_black]
    all_goals omega

theorem erase_fixup_case4_left_spec {t : rbtree} {p w y : Nat} {up : Ctx}
    {s wn fn ff : Tree} {cp : color_t} {kp kw kf : Int} {n : Nat}
    (h : DelInv t (Frame.L cp p kp (node RBTREE_BLACK wn w kw (node RBTREE_RED fn y kf ff)) :: up) s n) (hs : s.rootColor = RBTREE_BLACK) :
    erase_fixup_rest_left t (s.ptr t.nil) w = ((left_rotate (((t.setColor w cp).setColor p RBTREE_BLACK).setColor y RBTREE_BLACK) p), (left_rotate (((t.setColor w cp).setColor p RBTREE_BLACK).setColor y RBTREE_BLACK) p).root) ∧
    Represents (left_rotate (((t.setColor w cp).setColor p RBTREE_BLACK).setColor y RBTREE_BLACK) p) (plug up (node cp (node RBTREE_BLACK s p kp wn) w kw (node RBTREE_BLACK fn y kf ff))) ∧
    (node cp (node RBTREE_BLACK s p kp wn) w kw (node RBTREE_BLACK fn y kf ff)).NoRR ∧ (node cp (node RBTREE_BLACK s p kp wn) w kw (node RBTREE_BLACK fn y kf ff)).Bal ∧
    (node cp (node RBTREE_BLACK s p kp wn) w kw (node RBTREE_BLACK fn y kf ff)).bh = n + 1 + blk cp := by
  have hr := h.rep
  have hx := h.par (by simp)
  have hp := read_at (C := up) (a := p) hr
  have hw := read_at (C := Frame.R cp s p kp :: up) (a := w) hr
  have hy := read_at (C := Frame.R RBTREE_BLACK wn w kw :: Frame.R cp s p kp :: up) (a := y) hr
  simp only [cpar_cons, Frame.addr_L, Frame.addr_R, ptr_node] at hx hp hw hy
  have h1 := setColor_at (C := Frame.R cp s p kp :: up) (a := w) cp hr
  have h2 := setColor_at (C := up) (a := p) RBTREE_BLACK h1
  have h3 := setColor_at (C := Frame.R cp wn w kw :: Frame.R RBTREE_BLACK s p kp :: up) (a := y) RBTREE_BLACK h2
  have h4 := (left_rotate_at (C := up) h3).1
  have hsn : s.NoRR := NoRR_of_blacken hs h.norr
  refine ⟨?_, h4, ?_, ?_, ?_⟩
  · simp [erase_fixup_rest_left, hx, hp, hw, hy]
  all_goals
    obtain ⟨-, -, hno, hba, hbh, hn, hb, hc⟩ := h
    clear h1 h2 h3 h4 hr hx hp hw hy
    rcases color_cases cp with rfl | rfl
  all_goals simp_all [NoRR, Bal, bh, CtxNoRR, CtxBal, ctxRootColor]
  all_goals omega

theorem erase_fixup_case3_left_spec {t : rbtree} {p w y : Nat} {up : Ctx}
    {s nn nf wf : Tree} {cp : color_t} {kp kw kn : Int} {n : Nat}
    (h : DelInv t (Frame.L cp p kp (node RBTREE_BLACK (node RBTREE_RED nn y kn nf) w kw wf) :: up) s n) (hs : s.rootColor = RBTREE_BLACK)
    (hwf : wf.rootColor = RBTREE_BLACK) :
    erase_fixup_rest_left t (s.ptr t.nil) w = ((left_rotate ((((right_rotate ((t.setColor y RBTREE_BLACK).setColor w RBTREE_RED) w).setColor y cp).setColor p RBTREE_BLACK).setColor w RBTREE_BLACK) p), (left_rotate ((((right_rotate ((t.setColor y RBTREE_BLACK).setColor w RBTREE_RED) w).setColor y cp).setColor p RBTREE_BLACK).setColor w RBTREE_BLACK) p).root) ∧
    Represents (left_rotate ((((right_rotate ((t.setColor y RBTREE_BLACK).setColor w RBTREE_RED) w).setColor y cp).setColor p RBTREE_BLACK).setColor w RBTREE_BLACK) p) (plug up (node cp (node RBTREE_BLACK s p kp nn) y kn (node RBTREE_BLACK nf w kw wf))) ∧
    (node cp (node RBTREE_BLACK s p kp nn) y kn (node RBTREE_BLACK nf w kw wf)).NoRR ∧ (node cp (node RBTREE_BLACK s p kp nn) y kn (node RBTREE_BLACK nf w kw wf)).Bal ∧
    (node cp (node RBTREE_BLACK s p kp nn) y kn (node RBTREE_BLACK nf w kw wf)).bh = n + 1 + blk cp := by
  have hr := h.rep
  have hx := h.par (by simp)
  have hp := read_at (C := up) (a := p) hr
  have hw := read_at (C := Frame.R cp s p kp :: up) (a := w) hr
  have hy := read_at (C := Frame.L RBTREE_BLACK w kw wf :: Frame.R cp s p kp :: up) (a := y) hr
  have hcf := color_ptr (C := Frame.R RBTREE_BLACK (node RBTREE_RED nn y kn nf) w kw :: Frame.R cp s p kp :: up) (s := wf) hr
  simp only [cpar_cons, Frame.addr_L, Frame.addr_R, ptr_node] at hx hp hw hy
  have h1 := setColor_at (C := Frame.L RBTREE_BLACK w kw wf :: Frame.R cp s p kp :: up) (a := y) RBTREE_BLACK hr
  have h2 := setColor_at (C := Frame.R cp s p kp :: up) (a := w) RBTREE_RED h1
  have h3 := right_rotate_at (C := Frame.R cp s p kp :: up) h2
  have hx3 : (right_rotate ((t.setColor y RBTREE_BLACK).setColor w RBTREE_RED) w).parent (s.ptr t.nil) = p := by
    rcases s with _ | ⟨cs, sl, sa, sk, sr⟩
    · simp only [ptr_nil] at hx ⊢
      have := h3.2
      simp only [setColor_nil] at this
      simp only [rbtree.parent] at hx ⊢
      rw [this]
      simp only [setColor_mem_nil_parent]
      exact hx
    · have := (read_at (C := Frame.L cp p kp (node RBTREE_BLACK nn y kn (node RBTREE_RED nf w kw wf)) :: up) h3.1).2.2.1
      simpa using this
  have hp3 := read_at (C := up) (a := p) h3.1
  have hy3 := read_at (C := Frame.R cp s p kp :: up) (a := y) h3.1
  simp only [cpar_cons, Frame.addr_L, Frame.addr_R, ptr_node, right_rotate_nil, setColor_nil] at hp3 hy3
  have h4 := setColor_at (C := Frame.R cp s p kp :: up) (a := y) cp h3.1
  have h5 := setColor_at (C := up) (a := p) RBTREE_BLACK h4
  have h6 := setColor_at (C := Frame.R cp nn y kn :: Frame.R RBTREE_BLACK s p kp :: up) (a := w) RBTREE_BLACK h5
  have h7 := (left_rotate_at (C := up) h6).1
  have hsn : s.NoRR := NoRR_of_blacken hs h.norr
  refine ⟨?_, h7, ?_, ?_, ?_⟩
  · simp [erase_fixup_rest_left, hx, hp, hw, hy, hcf, hwf, hx3, hp3, hy3]
  all_goals
    obtain ⟨-, -, hno, hba, hbh, hn, hb, hc⟩ := h
    clear h1 h2 h3 h4 h5 h6 h7 hr hx hp hw hy hcf hx3 hp3 hy3
    rcases color_cases cp with rfl | rfl
  all_goals simp_all [NoRR, Bal, bh, CtxNoRR, CtxBal, ctxRootColor]
  all_goals omega

theorem erase_fixup_case1_right_spec {t : rbtree} {p w : Nat} {up : Ctx} {s wn wf : Tree}
    {cp : color_t} {kp kw : Int} {n : Nat}
    (h : DelInv t (Frame.R cp (node RBTREE_RED wf w kw wn) p kp :: up) s n) :
    DelInv (erase_fixup_case1_right t (s.ptr t.nil))
      (Frame.R RBTREE_RED wn p kp :: Frame.R RBTREE_BLACK wf w kw :: up) s n ∧
    (erase_fixup_case1_right t (s.ptr t.nil)).nil = t.nil ∧
    (erase_fixup_case1_right t (s.ptr t.nil)).brk = t.brk := by
  have hr := h.rep
  have hx := h.par (by simp)
  have hp := read_at (C := up) (a := p) hr
  have hw := read_at (C := Frame.L cp p kp s :: up) (a := w) hr
  simp only [cpar_cons, Frame.addr_L, Frame.addr_R, ptr_node] at hx hp hw
  have hcp : cp = RBTREE_BLACK := by
    have := h.cnorr
    simp only [CtxNoRR, rootColor_node] at this
    rcases color_cases cp with e | e
    · have := this.1 e; simp at this
    · exact e
  subst hcp
  have h1 := setColor_at (C := Frame.L RBTREE_BLACK p kp s :: up) (a := w) RBTREE_BLACK hr
  have h2 := setColor_at (C := up) (a := p) RBTREE_RED h1
  have h3 := right_rotate_at (C := up) h2
  have he : erase_fixup_case1_right t (s.ptr t.nil) =
      right_rotate ((t.setColor w RBTREE_BLACK).setColor p RBTREE_RED) p := by
    simp [erase_fixup_case1_right, hx, hp]
  rw [he]
  refine ⟨⟨h3.1, ?_, h.norr, h.bal, h.bh, ?_, ?_, ?_⟩, ?_, ?_⟩
  · intro _
    rcases s with _ | ⟨cs, sl, sa, sk, sr⟩
    · simp only [ptr_nil, cpar_cons, Frame.addr_L, Frame.addr_R, right_rotate_nil, setColor_nil]
      simp only [ptr_nil] at hx
      have := h3.2
      simp only [setColor_nil] at this
      simp only [rbtree.parent] at hx ⊢
      rw [this]
      simp only [setColor_mem_nil_parent]
      exact hx
    · exact (read_at (C := Frame.R RBTREE_RED wn p kp :: Frame.R RBTREE_BLACK wf w kw :: up) h3.1).2.2.1
  all_goals
    obtain ⟨-, -, hno, hba, hbh, hn, hb, hc⟩ := h
    clear h1 h2 h3 he hr hx hp hw
  all_goals simp_all [NoRR, Bal, bh, CtxNoRR, CtxBal, ctxRootColor, right_rotate_nil, right_rotate_brk]
  all_goals omega

theorem erase_fixup_case2_right_spec {t : rbtree} {p w : Nat} {up : Ctx} {s wn wf : Tree}
    {cp : color_t} {kp kw : Int} {n : Nat}
    (h : DelInv t (Frame.R cp (node RBTREE_BLACK wf w kw wn) p kp :: up) s n) (hs : s.rootColor = RBTREE_BLACK)
    (hwn : wn.rootColor = RBTREE_BLACK) (hwf : wf.rootColor = RBTREE_BLACK) :
    erase_fixup_rest_right t (s.ptr t.nil) w = (t.setColor w RBTREE_RED, p) ∧
    DelInv (t.setColor w RBTREE_RED) up (node cp (node RBTREE_RED wf w kw wn) p kp s) (n + blk cp) := by
  have hr := h.rep
  have hx := h.par (by simp)
  have hp := read_at (C := up) (a := p) hr
  have hw := read_at (C := Frame.L cp p kp s :: up) (a := w) hr
  have hcn := color_ptr (C := Frame.R RBTREE_BLACK wf w kw :: Frame.L cp p kp s :: up) (s := wn) hr
  have hcf := color_ptr (C := Frame.L RBTREE_BLACK w kw wn :: Frame.L cp p kp s :: up) (s := wf) hr
  simp only [cpar_cons, Frame.addr_L, Frame.addr_R, ptr_node] at hx hp hw
  constructor
  · simp [erase_fixup_rest_right, hx, hp, hw, hcn, hcf, hwn, hwf]
  · have h1 := setColor_at (C := Frame.L cp p kp s :: up) (a := w) RBTREE_RED hr
    have hsn : s.NoRR := NoRR_of_blacken hs h.norr
    refine ⟨h1, ?_, ?_, ?_, ?_, ?_, ?_, ?_⟩
    · intro _; exact (read_at (C := up) (a := p) h1).2.2.1
    all_goals
      obtain ⟨-, -, hno, hba, hbh, hn, hb, hc⟩ := h
      clear h1 hr hx hp hw hcn hcf
      rcases color_cases cp with rfl | rfl
    all_goals simp_all [NoRR, Bal, bh, CtxNoRR, CtxBal, ctxRootColor, CtxNoRR_red_black,
      ctxRootColor_red_black]
    all_goals omega

theorem erase_fixup_case4_right_spec {t : rbtree} {p w y : Nat} {up : Ctx}
    {s wn fn ff : Tree} {cp : color_t} {kp kw kf : Int} {n : Nat}
    (h : DelInv t (Frame.R cp (node RBTREE_BLACK (node RBTREE_RED ff y kf fn) w kw wn) p kp :: up) s n) (hs : s.rootColor = RBTREE_BLACK) :
    erase_fixup_rest_right t (s.ptr t.nil) w = ((right_rotate (((t.setColor w cp).setColor p RBTREE_BLACK).setColor y RBTREE_BLACK) p), (right_rotate (((t.setColor w cp).setColor p RBTREE_BLACK).setColor y RBTREE_BLACK) p).root) ∧
    Represents (right_rotate (((t.setColor w cp).setColor p RBTREE_BLACK).setColor y RBTREE_BLACK) p) (plug up (node cp (node RBTREE_BLACK ff y kf fn) w kw (node RBTREE_BLACK wn p kp s))) ∧
    (node cp (node RBTREE_BLACK ff y kf fn) w kw (node RBTREE_BLACK wn p kp s)).NoRR ∧ (node cp (node RBTREE_BLACK ff y kf fn) w kw (node RBTREE_BLACK wn p kp s)).Bal ∧
    (node cp (node RBTREE_BLACK ff y kf fn) w kw (node RBTREE_BLACK wn p kp s)).bh = n + 1 + blk cp := by
  have hr := h.rep
  have hx := h.par (by simp)
  have hp := read_at (C := up) (a := p) hr
  have hw := read_at (C := Frame.L cp p kp s :: up) (a := w) hr
  have hy := read_at (C := Frame.L RBTREE_BLACK w kw wn :: Frame.L cp p kp s :: up) (a := y) hr
  simp only [cpar_cons, Frame.addr_L, Frame.addr_R, ptr_node] at hx hp hw hy
  have h1 := setColor_at (C := Frame.L cp p kp s :: up) (a := w) cp hr
  have h2 := setColor_at (C := up) (a := p) RBTREE_BLACK h1
  have h3 := setColor_at (C := Frame.L cp w kw wn :: Frame.L RBTREE_BLACK p kp s :: up) (a := y) RBTREE_BLACK h2
  have h4 := (right_rotate_at (C := up) h3).1
  have hsn : s.NoRR := NoRR_of_blacken hs h.norr
  refine ⟨?_, h4, ?_, ?_, ?_⟩
  · simp [erase_fixup_rest_right, hx, hp, hw, hy]
  all_goals
    obtain ⟨-, -, hno, hba, hbh, hn, hb, hc⟩ := h
    clear h1 h2 h3 h4 hr hx hp hw hy
    rcases color_cases cp with rfl | rfl
  all_goals simp_all [NoRR, Bal, bh, CtxNoRR, CtxBal, ctxRootColor]
  all_goals omega

theorem erase_fixup_case3_right_spec {t : rbtree} {p w y : Nat} {up : Ctx}
    {s nn nf wf : Tree} {cp : color_t} {kp kw kn : Int} {n : Nat}
    (h : DelInv t (Frame.R cp (node RBTREE_BLACK wf w kw (node RBTREE_RED nf y kn nn)) p kp :: up) s n) (hs : s.rootColor = RBTREE_BLACK)
    (hwf : wf.rootColor = RBTREE_BLACK) :
    erase_fixup_rest_right t (s.ptr t.nil) w = ((right_rotate ((((left_rotate ((t.setColor y RBTREE_BLACK).setColor w RBTREE_RED) w).setColor y cp).setColor p RBTREE_BLACK).setColor w RBTREE_BLACK) p), (right_rotate ((((left_rotate ((t.setColor y RBTREE_BLACK).setColor w RBTREE_RED) w).setColor y cp).setColor p RBTREE_BLACK).setColor w RBTREE_BLACK) p).root) ∧
    Represents (right_rotate ((((left_rotate ((t.setColor y RBTREE_BLACK).setColor w RBTREE_RED) w).setColor y cp).setColor p RBTREE_BLACK).setColor w RBTREE_BLACK) p) (plug up (node cp (node RBTREE_BLACK wf w kw nf) y kn (node RBTREE_BLACK nn p kp s))) ∧
    (node cp (node RBTREE_BLACK wf w kw nf) y kn (node RBTREE_BLACK nn p kp s)).NoRR ∧ (node cp (node RBTREE_BLACK wf w kw nf) y kn (node RBTREE_BLACK nn p kp s)).Bal ∧
    (node cp (node RBTREE_BLACK wf w kw nf) y kn (node RBTREE_BLACK nn p kp s)).bh = n + 1 + blk cp := by
  have hr := h.rep
  have hx := h.par (by simp)
  have hp := read_at (C := up) (a := p) hr
  have hw := read_at (C := Frame.L cp p kp s :: up) (a := w) hr
  have hy := read_at (C := Frame.R RBTREE_BLACK wf w kw :: Frame.L cp p kp s :: up) (a := y) hr
  have hcf := color_ptr (C := Frame.L RBTREE_BLACK w kw (node RBTREE_RED nf y kn nn) :: Frame.L cp p kp s :: up) (s := wf) hr
  simp only [cpar_cons, Frame.addr_L, Frame.addr_R, ptr_node] at hx hp hw hy
  have h1 := setColor_at (C := Frame.R RBTREE_BLACK wf w kw :: Frame.L cp p kp s :: up) (a := y) RBTREE_BLACK hr
  have h2 := setColor_at (C := Frame.L cp p kp s :: up) (a := w) RBTREE_RED h1
  have h3 := left_rotate_at (C := Frame.L cp p kp s :: up) h2
  have hx3 : (left_rotate ((t.setColor y RBTREE_BLACK).setColor w RBTREE_RED) w).parent (s.ptr t.nil) = p := by
    rcases s with _ | ⟨cs, sl, sa, sk, sr⟩
    · simp only [ptr_nil] at hx ⊢
      have := h3.2
      simp only [setColor_nil] at this
      simp only [rbtree.parent] at hx ⊢
      rw [this]
      simp only [setColor_mem_nil_parent]
      exact hx
    · have := (read_at (C := Frame.R cp (node RBTREE_BLACK (node RBTREE_RED wf w kw nf) y kn nn) p kp :: up) h3.1).2.2.1
      simpa using this
  have hp3 := read_at (C := up) (a := p) h3.1
  have hy3 := read_at (C := Frame.L cp p kp s :: up) (a := y) h3.1
  simp only [cpar_cons, Frame.addr_L, Frame.addr_R, ptr_node, left_rotate_nil, setColor_nil] at hp3 hy3
  have h4 := setColor_at (C := Frame.L cp p kp s :: up) (a := y) cp h3.1
  have h5 := setColor_at (C := up) (a := p) RBTREE_BLACK h4
  have h6 := setColor_at (C := Frame.L cp y kn nn :: Frame.L RBTREE_BLACK p kp s :: up) (a := w) RBTREE_BLACK h5
  have h7 := (right_rotate_at (C := up) h6).1
  have hsn : s.NoRR := NoRR_of_blacken hs h.norr
  refine ⟨?_, h7, ?_, ?_, ?_⟩
  · simp [erase_fixup_rest_right, hx, hp, hw, hy, hcf, hwf, hx3, hp3, hy3]
  all_goals
    obtain ⟨-, -, hno, hba, hbh, hn, hb, hc⟩ := h
    clear h1 h2 h3 h4 h5 h6 h7 hr hx hp hw hy hcf hx3 hp3 hy3
    rcases color_cases cp with rfl | rfl
  all_goals simp_all [NoRR, Bal, bh, CtxNoRR, CtxBal, ctxRootColor]
  all_goals omega

theorem Rep_addr_ne_nil {m : Nat → node_t} {nl : Nat} {T : Tree} {par : Nat}
    (h : Rep m nl T par) : ∀ a ∈ T.addrs, a ≠ nl := by
  induction T generalizing par with
  | nil => intro a ha; simp [addrs] at ha
  | node c l b k r ihl ihr =>
    intro a ha
    simp only [Rep] at h
    simp only [addrs, List.mem_append, List.mem_cons] at ha
    rcases ha with ha | rfl | ha
    · exact ihl h.2.2.1 a ha
    · exact h.1
    · exact ihr h.2.2.2 a ha

theorem addr_ne_nil {t : rbtree} {T : Tree} (h : Represents t T) : ∀ a ∈ T.addrs, a ≠ t.nil :=
  Rep_addr_ne_nil h.rep

theorem croot_mem (C : Ctx) (a : Nat) : croot C a = a ∨ croot C a ∈ caddrs C := by
  induction C generalizing a with
  | nil => exact Or.inl rfl
  | cons f up ih =>
    simp only [croot, caddrs, List.mem_append]
    rcases ih f.addr with e | e
    · right; left; rw [e]; cases f <;> simp [Frame.addrs]
    · right; right; exact e

theorem ptr_ne_root {t : rbtree} {f : Frame} {up : Ctx} {s : Tree}
    (h : Represents t (plug (f :: up) s)) : s.ptr t.nil ≠ t.root := by
  have hf := represents_plug.1 h
  have hroot : t.root ∈ caddrs (f :: up) := by
    rw [hf.root]
    simp only [croot, caddrs, List.mem_append]
    rcases croot_mem up f.addr with e | e
    · left; rw [e]; cases f <;> simp [Frame.addrs]
    · right; exact e
  have hmem : t.root ∈ (plug (f :: up) s).addrs :=
    (addrs_plug_perm _ _).mem_iff.2 (List.mem_append_right _ hroot)
  rcases s with _ | ⟨c, l, a, k, r⟩
  · intro e
    simp only [ptr_nil] at e
    exact addr_ne_nil h _ hmem e.symm
  · intro e
    simp only [ptr_node] at e
    have hnd := hf.nodup
    rw [List.nodup_append] at hnd
    exact hnd.2.2 (by simp [addrs] : a ∈ (node c l a k r).addrs) (e ▸ hroot)

theorem node_of_bh_pos {T : Tree} {n : Nat} (h : T.bh = n + 1) :
    ∃ c l a k r, T = node c l a k r := by
  cases T with
  | nil => simp [bh] at h
  | node c l a k r => exact ⟨c, l, a, k, r, rfl⟩

theorem setColor_nil_black {t : rbtree} {T : Tree} (h : Represents t T) :
    Represents (t.setColor t.nil RBTREE_BLACK) T := by
  have hn : t.nil ∉ T.addrs := fun hm => addr_ne_nil h _ hm rfl
  constructor
  · exact h.root
  · simp only [rbtree.setColor, set_nil]; rw [Rep_set hn]; exact h.rep
  · exact h.nodup
  · simp [rbtree.setColor]
  · simp [rbtree.setColor, h.nil_left]
  · simp [rbtree.setColor, h.nil_right]
  · exact h.nil_lt
  · exact h.addrs_lt

theorem setColor_ptr_black {t : rbtree} {C : Ctx} {s : Tree} (h : Represents t (plug C s)) :
    Represents (t.setColor (s.ptr t.nil) RBTREE_BLACK) (plug C s.blacken) := by
  cases s with
  | nil => exact setColor_nil_black h
  | node c l a k r => exact setColor_at RBTREE_BLACK h

theorem bh_blacken_of_red {s : Tree} (h : s.rootColor = RBTREE_RED) : s.blacken.bh = s.bh + 1 := by
  cases s with
  | nil => simp at h
  | node c l a k r => simp only [rootColor_node] at h; subst h; simp [bh]

theorem elems_plug_blacken (C : Ctx) (s : Tree) : (plug C s.blacken).elems = (plug C s).elems := by
  rw [elems_plug, elems_plug, elems_blacken]

theorem delinv_final {t : rbtree} {up : Ctx} {X : Tree} {cp : color_t} {m : Nat}
    (hrep : Represents t (plug up X)) (hX : X.NoRR) (hXb : X.Bal) (hXc : X.rootColor = cp)
    (hXh : X.bh = m) (hcn : CtxNoRR up cp) (hcb : CtxBal up m) :
    DelInv t [] (plug up X) (plug up X).bh := by
  refine ⟨hrep, fun hne => absurd rfl hne, NoRR_blacken ?_, ?_, rfl, trivial, trivial, rfl⟩
  · rw [NoRR_plug]; exact ⟨hX, hXc ▸ hcn⟩
  · rw [Bal_plug]; exact ⟨hXb, hXh ▸ hcb⟩

theorem erase_fixup_rest_left_spec {t : rbtree} {p w : Nat} {up : Ctx} {s wn wf : Tree}
    {cp : color_t} {kp kw : Int} {n : Nat}
    (h : DelInv t (Frame.L cp p kp (node RBTREE_BLACK wn w kw wf) :: up) s n) (hs : s.rootColor = RBTREE_BLACK) :
    ∃ C2 s2 n2, DelInv (erase_fixup_rest_left t (s.ptr t.nil) w).1 C2 s2 n2 ∧
      (erase_fixup_rest_left t (s.ptr t.nil) w).2 = s2.ptr t.nil ∧
      (plug C2 s2).elems = (plug (Frame.L cp p kp (node RBTREE_BLACK wn w kw wf) :: up) s).elems ∧
      delMeasure C2 s2 ≤ (if cp = RBTREE_BLACK then up.length else 0) ∧
      (erase_fixup_rest_left t (s.ptr t.nil) w).1.nil = t.nil ∧
      (erase_fixup_rest_left t (s.ptr t.nil) w).1.brk = t.brk := by
  have hcn : CtxNoRR up cp := by
    have := h.cnorr; simp only [CtxNoRR] at this; exact this.2.2
  have hcb : CtxBal up (n + 1 + blk cp) := by
    have := h.cbal; simp only [CtxBal] at this; exact this.2.2
  rcases hf : wf.rootColor with _ | _
  · rcases wf with _ | ⟨cf, fn, y, kf, ff⟩
    · simp at hf
    simp only [rootColor_node] at hf; subst hf
    obtain ⟨he, hr, hX, hXb, hXh⟩ := erase_fixup_case4_left_spec h hs
    rw [he]
    refine ⟨[], _, _, delinv_final hr hX hXb rfl hXh hcn hcb, ?_, ?_, ?_, ?_, ?_⟩
    · have := hr.root; simpa [left_rotate_nil] using this
    · simp [elems_plug, elems, cpre, cpost]
    · simp [delMeasure]
    · simp [left_rotate_nil]
    · simp [left_rotate_brk]
  · rcases hn : wn.rootColor with _ | _
    · rcases wn with _ | ⟨cn, nn, y, kn, nf⟩
      · simp at hn
      simp only [rootColor_node] at hn; subst hn
      obtain ⟨he, hr, hX, hXb, hXh⟩ := erase_fixup_case3_left_spec h hs hf
      rw [he]
      refine ⟨[], _, _, delinv_final hr hX hXb rfl hXh hcn hcb, ?_, ?_, ?_, ?_, ?_⟩
      · have := hr.root; simpa [left_rotate_nil, right_rotate_nil] using this
      · simp [elems_plug, elems, cpre, cpost]
      · simp [delMeasure]
      · simp [left_rotate_nil, right_rotate_nil]
      · simp [left_rotate_brk, right_rotate_brk]
    · obtain ⟨he, hi⟩ := erase_fixup_case2_left_spec h hs hn hf
      rw [he]
      refine ⟨up, _, _, hi, rfl, ?_, ?_, rfl, rfl⟩
      · simp [elems_plug, elems, cpre, cpost]
      · simp only [delMeasure, rootColor_node]; split_ifs <;> omega

theorem erase_fixup_step_left {t : rbtree} {p : Nat} {up : Ctx} {s W : Tree}
    {cp : color_t} {kp : Int} {n : Nat}
    (h : DelInv t (Frame.L cp p kp W :: up) s n) (hs : s.rootColor = RBTREE_BLACK) :
    ∃ C2 s2 n2, DelInv (rbtree_erase_fixup_body t (s.ptr t.nil)).1 C2 s2 n2 ∧
      (rbtree_erase_fixup_body t (s.ptr t.nil)).2 = s2.ptr t.nil ∧
      (plug C2 s2).elems = (plug (Frame.L cp p kp W :: up) s).elems ∧
      delMeasure C2 s2 ≤ up.length ∧
      (rbtree_erase_fixup_body t (s.ptr t.nil)).1.nil = t.nil ∧
      (rbtree_erase_fixup_body t (s.ptr t.nil)).1.brk = t.brk := by
  have hWb : W.bh = n + 1 := by
    have := h.cbal; simp only [CtxBal] at this; exact this.1
  obtain ⟨cw, wn, w, kw, wf, rfl⟩ := node_of_bh_pos hWb
  have hr := h.rep
  have hx := h.par (by simp)
  have hp := read_at (C := up) (a := p) hr
  have hw := read_at (C := Frame.R cp s p kp :: up) (a := w) hr
  simp only [cpar_cons, Frame.addr_L, Frame.addr_R, ptr_node] at hx hp hw
  have hnd := nodup_at hr
  simp only [addrs, caddrs, Frame.addrs, List.append_assoc, List.cons_append,
    List.nodup_append, List.nodup_cons, List.mem_append, List.mem_cons, not_or,
    List.disjoint_cons_left, List.disjoint_cons_right, List.disjoint_append_left,
    List.disjoint_append_right, List.nil_append, List.append_nil] at hnd
  have hsw : s.ptr t.nil ≠ w := ptr_ne hw.2.2.2.2.2 (by simp [hnd])
  have hside : s.ptr t.nil = t.left (t.parent (s.ptr t.nil)) := by
    rw [hx, hp.2.2.2.1]
  rw [erase_fixup_body_left hside]
  simp only [hx, hp, hw]
  rcases color_cases cw with rfl | rfl
  · simp only [if_true]
    obtain ⟨h1, hn1, hb1⟩ := erase_fixup_case1_left_spec h
    have hwnb : wn.bh = n + 1 := by
      have := h1.cbal; simp only [CtxBal] at this; exact this.1
    have hwnc : wn.rootColor = RBTREE_BLACK := by
      have := h1.cnorr; simp only [CtxNoRR] at this; simpa using this.1
    obtain ⟨cn, a1, y, kn, a2, rfl⟩ := node_of_bh_pos hwnb
    simp only [rootColor_node] at hwnc; subst hwnc
    have hx1 := h1.par (by simp)
    have hp1 := read_at (C := Frame.L RBTREE_BLACK w kw wf :: up) (a := p) h1.rep
    simp only [cpar_cons, Frame.addr_L, Frame.addr_R, ptr_node, hn1] at hx1 hp1
    simp only [hx1, hp1]
    obtain ⟨C2, s2, n2, e1, e2, e3, e4, e5, e6⟩ := erase_fixup_rest_left_spec h1 hs
    simp only [hn1] at e1 e2 e5 e6
    refine ⟨C2, s2, n2, e1, e2, ?_, ?_, ?_, ?_⟩
    · rw [e3]; simp [elems_plug, elems, cpre, cpost]
    · simp at e4; omega
    · exact e5
    · rw [e6, hb1]
  · simp only [reduceCtorEq, if_false]
    obtain ⟨C2, s2, n2, e1, e2, e3, e4, e5, e6⟩ := erase_fixup_rest_left_spec h hs
    refine ⟨C2, s2, n2, e1, e2, e3, ?_, e5, e6⟩
    split_ifs at e4 <;> omega

theorem erase_fixup_rest_right_spec {t : rbtree} {p w : Nat} {up : Ctx} {s wn wf : Tree}
    {cp : color_t} {kp kw : Int} {n : Nat}
    (h : DelInv t (Frame.R cp (node RBTREE_BLACK wf w kw wn) p kp :: up) s n) (hs : s.rootColor = RBTREE_BLACK) :
    ∃ C2 s2 n2, DelInv (erase_fixup_rest_right t (s.ptr t.nil) w).1 C2 s2 n2 ∧
      (erase_fixup_rest_right t (s.ptr t.nil) w).2 = s2.ptr t.nil ∧
      (plug C2 s2).elems = (plug (Frame.R cp (node RBTREE_BLACK wf w kw wn) p kp :: up) s).elems ∧
      delMeasure C2 s2 ≤ (if cp = RBTREE_BLACK then up.length else 0) ∧
      (erase_fixup_rest_right t (s.ptr t.nil) w).1.nil = t.nil ∧
      (erase_fixup_rest_right t (s.ptr t.nil) w).1.brk = t.brk := by
  have hcn : CtxNoRR up cp := by
    have := h.cnorr; simp only [CtxNoRR] at this; exact this.2.2
  have hcb : CtxBal up (n + 1 + blk cp) := by
    have := h.cbal; simp only [CtxBal] at this; exact this.2.2
  rcases hf : wf.rootColor with _ | _
  · rcases wf with _ | ⟨cf, ff, y, kf, fn⟩
    · simp at hf
    simp only [rootColor_node] at hf; subst hf
    obtain ⟨he, hr, hX, hXb, hXh⟩ := erase_fixup_case4_right_spec h hs
    rw [he]
    refine ⟨[], _, _, delinv_final hr hX hXb rfl hXh hcn hcb, ?_, ?_, ?_, ?_, ?_⟩
    · have := hr.root; simpa [right_rotate_nil] using this
    · simp [elems_plug, elems, cpre, cpost]
    · simp [delMeasure]
    · simp [right_rotate_nil]
    · simp [right_rotate_brk]
  · rcases hn : wn.rootColor with _ | _
    · rcases wn with _ | ⟨cn, nf, y, kn, nn⟩
      · simp at hn
      simp only [rootColor_node] at hn; subst hn
      obtain ⟨he, hr, hX, hXb, hXh⟩ := erase_fixup_case3_right_spec h hs hf
      rw [he]
      refine ⟨[], _, _, delinv_final hr hX hXb rfl hXh hcn hcb, ?_, ?_, ?_, ?_, ?_⟩
      · have := hr.root; simpa [right_rotate_nil, left_rotate_nil] using this
      · simp [elems_plug, elems, cpre, cpost]
      · simp [delMeasure]
      · simp [right_rotate_nil, left_rotate_nil]
      · simp [right_rotate_brk, left_rotate_brk]
    · obtain ⟨he, hi⟩ := erase_fixup_case2_right_spec h hs hn hf
      rw [he]
      refine ⟨up, _, _, hi, rfl, ?_, ?_, rfl, rfl⟩
      · simp [elems_plug, elems, cpre, cpost]
      · simp only [delMeasure, rootColor_node]; split_ifs <;> omega

theorem erase_fixup_step_right {t : rbtree} {p : Nat} {up : Ctx} {s W : Tree}
    {cp : color_t} {kp : Int} {n : Nat}
    (h : DelInv t (Frame.R cp W p kp :: up) s n) (hs : s.rootColor = RBTREE_BLACK) :
    ∃ C2 s2 n2, DelInv (rbtree_erase_fixup_body t (s.ptr t.nil)).1 C2 s2 n2 ∧
      (rbtree_erase_fixup_body t (s.ptr t.nil)).2 = s2.ptr t.nil ∧
      (plug C2 s2).elems = (plug (Frame.R cp W p kp :: up) s).elems ∧
      delMeasure C2 s2 ≤ up.length ∧
      (rbtree_erase_fixup_body t (s.ptr t.nil)).1.nil = t.nil ∧
      (rbtree_erase_fixup_body t (s.ptr t.nil)).1.brk = t.brk := by
  have hWb : W.bh = n + 1 := by
    have := h.cbal; simp only [CtxBal] at this; exact this.1
  obtain ⟨cw, wf, w, kw, wn, rfl⟩ := node_of_bh_pos hWb
  have hr := h.rep
  have hx := h.par (by simp)
  have hp := read_at (C := up) (a := p) hr
  have hw := read_at (C := Frame.L cp p kp s :: up) (a := w) hr
  simp only [cpar_cons, Frame.addr_L, Frame.addr_R, ptr_node] at hx hp hw
  have hnd := nodup_at hr
  simp only [addrs, caddrs, Frame.addrs, List.append_assoc, List.cons_append,
    List.nodup_append, List.nodup_cons, List.mem_append, List.mem_cons, not_or,
    List.disjoint_cons_left, List.disjoint_cons_right, List.disjoint_append_left,
    List.disjoint_append_right, List.nil_append, List.append_nil] at hnd
  have hsw : s.ptr t.nil ≠ w := ptr_ne hw.2.2.2.2.2 (by simp [hnd])
  have hside : s.ptr t.nil ≠ t.left (t.parent (s.ptr t.nil)) := by
    rw [hx, hp.2.2.2.1]; exact hsw
  rw [erase_fixup_body_right hside]
  simp only [hx, hp, hw]
  rcases color_cases cw with rfl | rfl
  · simp only [if_true]
    obtain ⟨h1, hn1, hb1⟩ := erase_fixup_case1_right_spec h
    have hwnb : wn.bh = n + 1 := by
      have := h1.cbal; simp only [CtxBal] at this; exact this.1
    have hwnc : wn.rootColor = RBTREE_BLACK := by
      have := h1.cnorr; simp only [CtxNoRR] at this; simpa using this.1
    obtain ⟨cn, a2, y, kn, a1, rfl⟩ := node_of_bh_pos hwnb
    simp only [rootColor_node] at hwnc; subst hwnc
    have hx1 := h1.par (by simp)
    have hp1 := read_at (C := Frame.R RBTREE_BLACK wf w kw :: up) (a := p) h1.rep
    simp only [cpar_cons, Frame.addr_L, Frame.addr_R, ptr_node, hn1] at hx1 hp1
    simp only [hx1, hp1]
    obtain ⟨C2, s2, n2, e1, e2, e3, e4, e5, e6⟩ := erase_fixup_rest_right_spec h1 hs
    simp only [hn1] at e1 e2 e5 e6
    refine ⟨C2, s2, n2, e1, e2, ?_, ?_, ?_, ?_⟩
    · rw [e3]; simp [elems_plug, elems, cpre, cpost]
    · simp at e4; omega
    · exact e5
    · rw [e6, hb1]
  · simp only [reduceCtorEq, if_false]
    obtain ⟨C2, s2, n2, e1, e2, e3, e4, e5, e6⟩ := erase_fixup_rest_right_spec h hs
    refine ⟨C2, s2, n2, e1, e2, e3, ?_, e5, e6⟩
    split_ifs at e4 <;> omega

/-- The loop of `rbtree_erase_fixup` terminates within its measure, and what it returns is a
red-black tree over the same nodes in the same in-order. -/
theorem erase_fixup_loop (fuel : Nat) : ∀ (t : rbtree) (C : Ctx) (s : Tree) (n : Nat),
    DelInv t C s n → delMeasure C s < fuel →
    ∃ t2 T2, rbtree_erase_fixup fuel t (s.ptr t.nil) = some t2 ∧ Represents t2 T2 ∧
      T2.rootColor = RBTREE_BLACK ∧ T2.NoRR ∧ T2.Bal ∧
      T2.elems = (plug C s).elems ∧ t2.nil = t.nil ∧ t2.brk = t.brk := by
  induction fuel with
  | zero => intro t C s n _ hm; omega
  | succ fuel ih =>
    intro t C s n h hm
    rw [rbtree_erase_fixup]
    have hcol := color_ptr h.rep
    by_cases hcond : s.ptr t.nil ≠ t.root ∧ t.color (s.ptr t.nil) = RBTREE_BLACK
    · rw [if_pos hcond]
      rw [hcol] at hcond
      rcases C with _ | ⟨f, up⟩
      · exact absurd h.rep.root.symm hcond.1
      have hm2 : up.length < fuel := by
        simp only [delMeasure, hcond.2, if_true, List.length_cons] at hm; omega
      have hstep : ∃ C2 s2 n2, DelInv (rbtree_erase_fixup_body t (s.ptr t.nil)).1 C2 s2 n2 ∧
          (rbtree_erase_fixup_body t (s.ptr t.nil)).2 = s2.ptr t.nil ∧
          (plug C2 s2).elems = (plug (f :: up) s).elems ∧
          delMeasure C2 s2 ≤ up.length ∧
          (rbtree_erase_fixup_body t (s.ptr t.nil)).1.nil = t.nil ∧
          (rbtree_erase_fixup_body t (s.ptr t.nil)).1.brk = t.brk := by
        rcases f with ⟨cp, p, kp, W⟩ | ⟨cp, W, p, kp⟩
        · exact erase_fixup_step_left h hcond.2
        · exact erase_fixup_step_right h hcond.2
      obtain ⟨C2, s2, n2, e1, e2, e3, e4, e5, e6⟩ := hstep
      obtain ⟨t2, T2, r1, r2, r3, r4, r5, r6, r7, r8⟩ := ih _ C2 s2 n2 e1 (by omega)
      rw [e5] at r1 r7
      rw [e2]
      exact ⟨t2, T2, r1, r2, r3, r4, r5, by rw [r6, e3], r7, by rw [r8, e6]⟩
    · rw [if_neg hcond]
      rw [hcol] at hcond
      refine ⟨_, plug C s.blacken, rfl, setColor_ptr_black h.rep, ?_, ?_, ?_,
        elems_plug_blacken C s, rfl, rfl⟩
      · rw [rootColor_plug, rootColor_blacken]; exact h.croot
      · rw [NoRR_plug, rootColor_blacken]; exact ⟨h.norr, h.cnorr⟩
      · rw [Bal_plug]
        refine ⟨Bal_blacken.2 h.bal, ?_⟩
        rcases C with _ | ⟨f, up⟩
        · trivial
        · have hne := ptr_ne_root h.rep
          have hred : s.rootColor = RBTREE_RED := by
            rcases color_cases s.rootColor with e | e
            · exact e
            · exact absurd ⟨hne, e⟩ hcond
          rw [bh_blacken_of_red hred, h.bh]
          exact h.cbal

/-! ### `rbtree_transplant` and the unlinking step of `rbtree_erase` -/

theorem transplant_nil_brk (t : rbtree) (u v : Nat) :
    (rbtree_transplant t u v).nil = t.nil ∧ (rbtree_transplant t u v).brk = t.brk := by
  unfold rbtree_transplant
  simp only [rbtree.setParent, rbtree.setLeft, rbtree.setRight, set_nil, set_brk]
  split_ifs <;> exact ⟨rfl, rfl⟩

/-- Replacing a node by its right subtree: the heap then lays out the tree without the node and
its left subtree, and the parent link of the replacing link (the sentinel included) is the parent
of the replaced node. -/
theorem transplant_right {t : rbtree} {C : Ctx} {c : color_t} {l r : Tree} {z : Nat} {k : Int}
    (h : Represents t (plug C (node c l z k r))) :
    Represents (rbtree_transplant t z (r.ptr t.nil)) (plug C r) ∧
      (rbtree_transplant t z (r.ptr t.nil)).parent (r.ptr t.nil) = cpar t.nil C := by
  have hf := represents_plug.1 h
  rw [represents_plug, focus_iff, (transplant_nil_brk t z _).1, (transplant_nil_brk t z _).2]
  obtain ⟨hroot, hctx, hsub, hnd0, hnc, hnl, hnr, hlt, halt⟩ := hf
  have hnil : t.nil ∉ (node c l z k r).addrs ++ caddrs C := fun hm =>
    addr_ne_nil h _ ((addrs_plug_perm _ _).mem_iff.2 hm) rfl
  have hnd1 : (r.addrs ++ caddrs C).Nodup := by
    have := hnd0
    simp only [addrs, List.append_assoc, List.cons_append, List.nodup_append, List.nodup_cons,
      List.mem_append, List.mem_cons, not_or, List.disjoint_cons_left, List.disjoint_cons_right,
      List.disjoint_append_left, List.disjoint_append_right] at this ⊢
    tauto
  have halt1 : ∀ a ∈ r.addrs ++ caddrs C, a < t.brk := by
    intro a ha
    refine halt a ?_
    simp only [addrs, List.mem_append, List.mem_cons] at ha ⊢
    tauto
  simp only [Rep] at hsub
  obtain ⟨hzne, hmz, hl, hr⟩ := hsub
  refine ⟨⟨?_, ?_, ?_, hnd1, ?_, ?_, ?_, hlt, halt1⟩, ?_⟩
  all_goals
    clear hnd1 halt1
    rcases r with _ | ⟨cr, rl, ra, kr, rr⟩ <;>
      rcases C with _ | ⟨⟨cp, p, kp, sr⟩ | ⟨cp, sl, p, kp⟩, up⟩
  all_goals
    simp only [Rep, RepCtx] at hr hctx
    simp only [addrs, caddrs, Frame.addrs, List.append_assoc, List.cons_append,
      List.nodup_append, List.nodup_cons, List.nil_append,
      List.mem_append, List.mem_cons, not_or, List.disjoint_cons_left, List.disjoint_cons_right,
      List.disjoint_append_left, List.disjoint_append_right] at hnd0 hnil
  all_goals
    simp [rbtree_transplant, rbtree.left, rbtree.right, rbtree.parent, rbtree.setRight,
      rbtree.setLeft, rbtree.setParent, hmz, set_mem_ne, set_mem_ne2,
      Rep, RepCtx, Rep_set, RepCtx_set, hnd0, hnil, croot, hzne, Ne.symm hzne,
      ptr_ne, ptr_ne2, *]

/-- Replacing a node by its left subtree: the heap then lays out the tree without the node and
its right subtree, and the parent link of the replacing link (the sentinel included) is the parent
of the replaced node. -/
theorem transplant_left {t : rbtree} {C : Ctx} {c : color_t} {l r : Tree} {z : Nat} {k : Int}
    (h : Represents t (plug C (node c l z k r))) :
    Represents (rbtree_transplant t z (l.ptr t.nil)) (plug C l) ∧
      (rbtree_transplant t z (l.ptr t.nil)).parent (l.ptr t.nil) = cpar t.nil C := by
  have hf := represents_plug.1 h
  rw [represents_plug, focus_iff, (transplant_nil_brk t z _).1, (transplant_nil_brk t z _).2]
  obtain ⟨hroot, hctx, hsub, hnd0, hnc, hnl, hnr, hlt, halt⟩ := hf
  have hnil : t.nil ∉ (node c l z k r).addrs ++ caddrs C := fun hm =>
    addr_ne_nil h _ ((addrs_plug_perm _ _).mem_iff.2 hm) rfl
  have hnd1 : (l.addrs ++ caddrs C).Nodup := by
    have := hnd0
    simp only [addrs, List.append_assoc, List.cons_append, List.nodup_append, List.nodup_cons,
      List.mem_append, List.mem_cons, not_or, List.disjoint_cons_left, List.disjoint_cons_right,
      List.disjoint_append_left, List.disjoint_append_right] at this ⊢
    tauto
  have halt1 : ∀ a ∈ l.addrs ++ caddrs C, a < t.brk := by
    intro a ha
    refine halt a ?_
    simp only [addrs, List.mem_append, List.mem_cons] at ha ⊢
    tauto
  simp only [Rep] at hsub
  obtain ⟨hzne, hmz, hl, hr⟩ := hsub
  refine ⟨⟨?_, ?_, ?_, hnd1, ?_, ?_, ?_, hlt, halt1⟩, ?_⟩
  all_goals
    clear hnd1 halt1
    rcases l with _ | ⟨cl, ll, la, kl, lr⟩ <;>
      rcases C with _ | ⟨⟨cp, p, kp, sr⟩ | ⟨cp, sl, p, kp⟩, up⟩
  all_goals
    simp only [Rep, RepCtx] at hl hctx
    simp only [addrs, caddrs, Frame.addrs, List.append_assoc, List.cons_append,
      List.nodup_append, List.nodup_cons, List.nil_append,
      List.mem_append, List.mem_cons, not_or, List.disjoint_cons_left, List.disjoint_cons_right,
      List.disjoint_append_left, List.disjoint_append_right] at hnd0 hnil
  all_goals
    simp [rbtree_transplant, rbtree.left, rbtree.right, rbtree.parent, rbtree.setRight,
      rbtree.setLeft, rbtree.setParent, hmz, set_mem_ne, set_mem_ne2,
      Rep, RepCtx, Rep_set, RepCtx_set, hnd0, hnil, croot, hzne, Ne.symm hzne,
      ptr_ne, ptr_ne2, *]

theorem caddrs_append (C D : Ctx) : caddrs (C ++ D) = caddrs C ++ caddrs D := by
  induction C with
  | nil => rfl
  | cons f C ih => simp [caddrs, ih]

theorem cpar_append (o : Nat) (C D : Ctx) : cpar o (C ++ D) = cpar (cpar o D) C := by
  cases C <;> rfl

theorem croot_append (C D : Ctx) (h : Nat) : croot (C ++ D) h = croot D (croot C h) := by
  induction C generalizing h with
  | nil => rfl
  | cons f C ih => simp [croot, ih]

theorem RepCtx_append (m : Nat → node_t) (nl o : Nat) (C D : Ctx) (h : Nat) :
    RepCtx m nl o (C ++ D) h ↔ RepCtx m nl (cpar o D) C h ∧ RepCtx m nl o D (croot C h) := by
  induction C generalizing h with
  | nil => simp [RepCtx, croot]
  | cons f C ih =>
    cases f <;> rw [List.cons_append] <;>
      simp only [RepCtx, ih, cpar_append, croot, Frame.addr_L, Frame.addr_R] <;> tauto

theorem cpre_allL {C : Ctx} (h : AllL C) : cpre C = [] := by
  induction C with
  | nil => rfl
  | cons f C ih =>
    obtain ⟨c, a, k, r, rfl⟩ := h f (by simp)
    simp only [cpre]
    exact ih (fun g hg => h g (by simp [hg]))

theorem min_node_spec {t : rbtree} : ∀ (r : Tree) (C : Ctx) (fuel : Nat),
    Represents t (plug C r) → r ≠ nil → r.height ≤ fuel →
    ∃ Cy cy y ky ry, r = plug Cy (node cy nil y ky ry) ∧ AllL Cy ∧
      min_node t fuel (r.ptr t.nil) = some y := by
  intro r
  induction r with
  | nil => intro C fuel _ hne; exact absurd rfl hne
  | node c l a k r0 ihl _ =>
    intro C fuel h _ hf
    simp only [height] at hf
    obtain ⟨fuel, rfl⟩ : ∃ m, fuel = m + 1 := ⟨fuel - 1, by omega⟩
    have ha := read_at h
    rcases l with _ | ⟨cl, ll, la, kl, lr⟩
    · refine ⟨[], c, a, k, r0, rfl, by intro f hf; simp at hf, ?_⟩
      simp [min_node, ha]
    · have hl := read_at (C := Frame.L c a k r0 :: C) (a := la) h
      obtain ⟨Cy, cy, y, ky, ry, e1, e2, e3⟩ :=
        ihl (Frame.L c a k r0 :: C) fuel h (by simp) (by omega)
      refine ⟨Cy ++ [Frame.L c a k r0], cy, y, ky, ry, ?_, ?_, ?_⟩
      · rw [plug_append, ← e1]; rfl
      · intro f hf
        simp only [List.mem_append, List.mem_singleton] at hf
        rcases hf with hf | rfl
        · exact e2 f hf
        · exact ⟨c, a, k, r0, rfl⟩
      · simp only [ptr_node] at e3 ⊢
        simp [min_node, ha, hl.2.2.2.2.2, e3]

theorem erase_two_children_nil_brk (t : rbtree) (z y : Nat) :
    (erase_two_children t z y).nil = t.nil ∧ (erase_two_children t z y).brk = t.brk := by
  unfold erase_two_children
  simp only [setColor_nil, setColor_brk, rbtree.setParent, rbtree.setLeft, rbtree.setRight,
    set_nil, set_brk, (transplant_nil_brk _ _ _).1, (transplant_nil_brk _ _ _).2]
  split_ifs <;> simp [(transplant_nil_brk _ _ _).1, (transplant_nil_brk _ _ _).2]

/-- The relinking of `rbtree_erase` when the successor `y` is the right child of `z`. -/
theorem erase_two_children_direct {t : rbtree} {C : Ctx} {c cy cl : color_t} {ll lr ry : Tree}
    {z y la : Nat} {k ky kl : Int}
    (h : Represents t (plug C (node c (node cl ll la kl lr) z k (node cy nil y ky ry)))) :
    Represents (erase_two_children t z y)
      (plug C (node c (node cl ll la kl lr) y ky ry)) ∧
      (erase_two_children t z y).parent (ry.ptr t.nil) = y := by
  have hf := represents_plug.1 h
  rw [represents_plug, focus_iff, (erase_two_children_nil_brk t z y).1,
    (erase_two_children_nil_brk t z y).2]
  obtain ⟨hroot, hctx, hsub, hnd0, hnc, hnl, hnr, hlt, halt⟩ := hf
  have hnil : t.nil ∉ (node c (node cl ll la kl lr) z k (node cy nil y ky ry)).addrs ++ caddrs C :=
    fun hm => addr_ne_nil h _ ((addrs_plug_perm _ _).mem_iff.2 hm) rfl
  have hnd1 : ((node c (node cl ll la kl lr) y ky ry).addrs ++ caddrs C).Nodup := by
    have := hnd0
    simp only [addrs, caddrs, Frame.addrs, List.append_assoc,
      List.cons_append, List.nodup_append, List.nodup_cons,
      List.mem_append, List.mem_cons, not_or, List.disjoint_cons_left, List.disjoint_cons_right,
      List.disjoint_append_left, List.disjoint_append_right, List.nil_append] at this ⊢
    tauto
  have halt1 : ∀ a ∈ (node c (node cl ll la kl lr) y ky ry).addrs ++ caddrs C, a < t.brk := by
    intro a ha
    refine halt a ?_
    simp only [addrs, caddrs, Frame.addrs, List.mem_append,
      List.mem_cons, List.nil_append] at ha ⊢
    tauto
  simp only [Rep] at hsub
  obtain ⟨hzne, hmz, ⟨hlane, hmla, hll, hlr⟩, hyne, hmy, -, hry⟩ := hsub
  have hmain : (erase_two_children t z y).root = croot C (ptr t.nil (node c (node cl ll la kl lr) y ky ry)) ∧
      RepCtx (erase_two_children t z y).mem t.nil t.nil C (ptr t.nil (node c (node cl ll la kl lr) y ky ry)) ∧
      Rep (erase_two_children t z y).mem t.nil (node c (node cl ll la kl lr) y ky ry) (cpar t.nil C) ∧
      ((erase_two_children t z y).mem t.nil).color = RBTREE_BLACK ∧
      ((erase_two_children t z y).mem t.nil).left = t.nil ∧
      ((erase_two_children t z y).mem t.nil).right = t.nil ∧
      (erase_two_children t z y).parent (ry.ptr t.nil) = y := by
    rcases ry with _ | ⟨cr, rl, ra, kr, rr⟩ <;>
      rcases C with _ | ⟨⟨cp, p, kp, sr⟩ | ⟨cp, sl, p, kp⟩, up⟩
    all_goals
      simp only [Rep, RepCtx] at hry hctx
      simp only [addrs, caddrs, Frame.addrs, List.append_assoc,
        List.cons_append, List.nodup_append, List.nodup_cons, List.nil_append,
        List.mem_append, List.mem_cons, not_or, List.disjoint_cons_left,
        List.disjoint_cons_right, List.disjoint_append_left, List.disjoint_append_right]
        at hnd0 hnil
      have hqz : y ≠ z := by intro e; simp [e] at hnd0
    all_goals
      simp [erase_two_children, rbtree_transplant, rbtree.left, rbtree.right, rbtree.parent,
        rbtree.color, rbtree.setRight, rbtree.setLeft, rbtree.setParent, rbtree.setColor,
        hmz, hmy, hmla, set_mem_ne, set_mem_ne2, Rep, RepCtx, Rep_set, RepCtx_set, hnd0, hnil,
        croot, hzne, Ne.symm hzne, hyne, Ne.symm hyne, hlane, Ne.symm hlane, hqz, ptr_ne, ptr_ne2,
        *]
  exact ⟨⟨hmain.1, hmain.2.1, hmain.2.2.1, hnd1, hmain.2.2.2.1, hmain.2.2.2.2.1,
    hmain.2.2.2.2.2.1, hlt, halt1⟩, hmain.2.2.2.2.2.2⟩

/-- The relinking of `rbtree_erase` when the successor `y` is the left child of the right child
`q` of `z`. -/
theorem erase_two_children_near {t : rbtree} {C : Ctx} {c cy cl cq : color_t}
    {ll lr ry sq : Tree} {z y la q : Nat} {k ky kl kq : Int}
    (h : Represents t (plug C (node c (node cl ll la kl lr) z k (node cq (node cy nil y ky ry) q kq sq)))) :
    Represents (erase_two_children t z y)
      (plug C (node c (node cl ll la kl lr) y ky (node cq ry q kq sq))) ∧
      (erase_two_children t z y).parent (ry.ptr t.nil) = q := by
  have hf := represents_plug.1 h
  rw [represents_plug, focus_iff, (erase_two_children_nil_brk t z y).1,
    (erase_two_children_nil_brk t z y).2]
  obtain ⟨hroot, hctx, hsub, hnd0, hnc, hnl, hnr, hlt, halt⟩ := hf
  have hnil : t.nil ∉ (node c (node cl ll la kl lr) z k (node cq (node cy nil y ky ry) q kq sq)).addrs ++ caddrs C :=
    fun hm => addr_ne_nil h _ ((addrs_plug_perm _ _).mem_iff.2 hm) rfl
  have hnd1 : ((node c (node cl ll la kl lr) y ky (node cq ry q kq sq)).addrs ++ caddrs C).Nodup := by
    have := hnd0
    simp only [addrs, caddrs, Frame.addrs, List.append_assoc,
      List.cons_append, List.nodup_append, List.nodup_cons,
      List.mem_append, List.mem_cons, not_or, List.disjoint_cons_left, List.disjoint_cons_right,
      List.disjoint_append_left, List.disjoint_append_right, List.nil_append] at this ⊢
    tauto
  have halt1 : ∀ a ∈ (node c (node cl ll la kl lr) y ky (node cq ry q kq sq)).addrs ++ caddrs C, a < t.brk := by
    intro a ha
    refine halt a ?_
    simp only [addrs, caddrs, Frame.addrs, List.mem_append,
      List.mem_cons, List.nil_append] at ha ⊢
    tauto
  simp only [Rep] at hsub
  obtain ⟨hzne, hmz, ⟨hlane, hmla, hll, hlr⟩, hqne, hmq, ⟨hyne, hmy, -, hry⟩, hsq⟩ := hsub
  have hmain : (erase_two_children t z y).root = croot C (ptr t.nil (node c (node cl ll la kl lr) y ky (node cq ry q kq sq))) ∧
      RepCtx (erase_two_children t z y).mem t.nil t.nil C (ptr t.nil (node c (node cl ll la kl lr) y ky (node cq ry q kq sq))) ∧
      Rep (erase_two_children t z y).mem t.nil (node c (node cl ll la kl lr) y ky (node cq ry q kq sq)) (cpar t.nil C) ∧
      ((erase_two_children t z y).mem t.nil).color = RBTREE_BLACK ∧
      ((erase_two_children t z y).mem t.nil).left = t.nil ∧
      ((erase_two_children t z y).mem t.nil).right = t.nil ∧
      (erase_two_children t z y).parent (ry.ptr t.nil) = q := by
    rcases ry with _ | ⟨cr, rl, ra, kr, rr⟩ <;>
      rcases C with _ | ⟨⟨cp, p, kp, sr⟩ | ⟨cp, sl, p, kp⟩, up⟩
    all_goals
      simp only [Rep, RepCtx] at hry hctx
      simp only [addrs, caddrs, Frame.addrs, List.append_assoc,
        List.cons_append, List.nodup_append, List.nodup_cons, List.nil_append,
        List.mem_append, List.mem_cons, not_or, List.disjoint_cons_left,
        List.disjoint_cons_right, List.disjoint_append_left, List.disjoint_append_right]
        at hnd0 hnil
      have hqz : q ≠ z := by intro e; simp [e] at hnd0
    all_goals
      simp [erase_two_children, rbtree_transplant, rbtree.left, rbtree.right, rbtree.parent,
        rbtree.color, rbtree.setRight, rbtree.setLeft, rbtree.setParent, rbtree.setColor,
        hmz, hmy, hmla, set_mem_ne, set_mem_ne2, Rep, RepCtx, Rep_set, RepCtx_set, hnd0, hnil,
        croot, hzne, Ne.symm hzne, hyne, Ne.symm hyne, hlane, Ne.symm hlane, hqz, ptr_ne, ptr_ne2,
        hmq, hqne, Ne.symm hqne, *]
  exact ⟨⟨hmain.1, hmain.2.1, hmain.2.2.1, hnd1, hmain.2.2.2.1, hmain.2.2.2.2.1,
    hmain.2.2.2.2.2.1, hlt, halt1⟩, hmain.2.2.2.2.2.2⟩

/-- The relinking of `rbtree_erase` when the successor `y` lies deeper in the right subtree of
`z`: below the left spine `Cm` under the right child `ra` of `z`, as the left child of `q`. -/
theorem erase_two_children_deep {t : rbtree} {C Cm : Ctx} {c cy cl cq cr : color_t}
    {ll lr ry sq rr : Tree} {z y la q ra : Nat} {k ky kl kq kr : Int}
    (h : Represents t (plug C (node c (node cl ll la kl lr) z k
      (node cr (plug (Frame.L cq q kq sq :: Cm) (node cy nil y ky ry)) ra kr rr)))) :
    Represents (erase_two_children t z y)
      (plug C (node c (node cl ll la kl lr) y ky
        (node cr (plug (Frame.L cq q kq sq :: Cm) ry) ra kr rr))) ∧
      (erase_two_children t z y).parent (ry.ptr t.nil) = q := by
  have e1 : plug C (node c (node cl ll la kl lr) z k
      (node cr (plug (Frame.L cq q kq sq :: Cm) (node cy nil y ky ry)) ra kr rr)) =
      plug (Frame.L cq q kq sq :: (Cm ++ (Frame.L cr ra kr rr ::
        Frame.R c (node cl ll la kl lr) z k :: C))) (node cy nil y ky ry) := by
    simp [plug_append]
  have e2 : plug C (node c (node cl ll la kl lr) y ky
      (node cr (plug (Frame.L cq q kq sq :: Cm) ry) ra kr rr)) =
      plug (Frame.L cq q kq sq :: (Cm ++ (Frame.L cr ra kr rr ::
        Frame.R c (node cl ll la kl lr) y ky :: C))) ry := by
    simp [plug_append]
  rw [e1] at h
  rw [e2]
  have hf := represents_plug.1 h
  rw [represents_plug, focus_iff, (erase_two_children_nil_brk t z y).1,
    (erase_two_children_nil_brk t z y).2]
  obtain ⟨hroot, hctx, hsub, hnd0, hnc, hnl, hnr, hlt, halt⟩ := hf
  have hnil : t.nil ∉ (node cy nil y ky ry).addrs ++ caddrs (Frame.L cq q kq sq :: (Cm ++
      (Frame.L cr ra kr rr :: Frame.R c (node cl ll la kl lr) z k :: C))) :=
    fun hm => addr_ne_nil h _ ((addrs_plug_perm _ _).mem_iff.2 hm) rfl
  have hnd1 : (ry.addrs ++ caddrs (Frame.L cq q kq sq :: (Cm ++
      (Frame.L cr ra kr rr :: Frame.R c (node cl ll la kl lr) y ky :: C)))).Nodup := by
    have := hnd0
    simp only [addrs, caddrs_append, caddrs, Frame.addrs, List.append_assoc,
      List.cons_append, List.nodup_append, List.nodup_cons,
      List.mem_append, List.mem_cons, not_or, List.disjoint_cons_left, List.disjoint_cons_right,
      List.disjoint_append_left, List.disjoint_append_right, List.nil_append] at this ⊢
    tauto
  have halt1 : ∀ a ∈ ry.addrs ++ caddrs (Frame.L cq q kq sq :: (Cm ++
      (Frame.L cr ra kr rr :: Frame.R c (node cl ll la kl lr) y ky :: C))), a < t.brk := by
    intro a ha
    refine halt a ?_
    simp only [addrs, caddrs_append, caddrs, Frame.addrs, List.mem_append,
      List.mem_cons, List.nil_append] at ha ⊢
    tauto
  simp only [Rep, RepCtx, RepCtx_append, cpar_append, croot_append, croot, cpar_cons,
    Frame.addr_L, Frame.addr_R, ptr_node, ptr_nil] at hsub hctx
  obtain ⟨hyne, hmy, -, hry⟩ := hsub
  obtain ⟨hqne, hmq, hsq, hCm, hrane, hmra, hrr, hzne, hmz, ⟨hlane, hmla, hll, hlr⟩, hC⟩ := hctx
  have hmain : (erase_two_children t z y).root = croot (Frame.L cq q kq sq :: (Cm ++
        (Frame.L cr ra kr rr :: Frame.R c (node cl ll la kl lr) y ky :: C))) (ptr t.nil ry) ∧
      RepCtx (erase_two_children t z y).mem t.nil t.nil (Frame.L cq q kq sq :: (Cm ++
        (Frame.L cr ra kr rr :: Frame.R c (node cl ll la kl lr) y ky :: C))) (ptr t.nil ry) ∧
      Rep (erase_two_children t z y).mem t.nil ry (cpar t.nil (Frame.L cq q kq sq :: (Cm ++
        (Frame.L cr ra kr rr :: Frame.R c (node cl ll la kl lr) y ky :: C)))) ∧
      ((erase_two_children t z y).mem t.nil).color = RBTREE_BLACK ∧
      ((erase_two_children t z y).mem t.nil).left = t.nil ∧
      ((erase_two_children t z y).mem t.nil).right = t.nil ∧
      (erase_two_children t z y).parent (ry.ptr t.nil) = q := by
    rcases ry with _ | ⟨cx, rl, xa, kx, rx⟩ <;>
      rcases C with _ | ⟨⟨cp, p, kp, sr⟩ | ⟨cp, sl, p, kp⟩, up⟩
    all_goals
      simp only [Rep, RepCtx] at hry hC
      simp only [addrs, caddrs_append, caddrs, Frame.addrs, List.append_assoc,
        List.cons_append, List.nodup_append, List.nodup_cons, List.nil_append,
        List.mem_append, List.mem_cons, not_or, List.disjoint_cons_left,
        List.disjoint_cons_right, List.disjoint_append_left, List.disjoint_append_right]
        at hnd0 hnil
      have hqz : q ≠ z := by intro e; simp [e] at hnd0
    all_goals
      simp [erase_two_children, rbtree_transplant, rbtree.left, rbtree.right, rbtree.parent,
        rbtree.color, rbtree.setRight, rbtree.setLeft, rbtree.setParent, rbtree.setColor,
        hmz, hmy, hmla, hmq, hmra, set_mem_ne, set_mem_ne2, Rep, RepCtx, RepCtx_append,
        cpar_append, croot_append, Rep_set, RepCtx_set, hnd0, hnil,
        croot, hzne, Ne.symm hzne, hyne, Ne.symm hyne, hlane, Ne.symm hlane, hqz,
        hqne, Ne.symm hqne, hrane, Ne.symm hrane, ptr_ne, ptr_ne2, *]
  exact ⟨⟨hmain.1, hmain.2.1, hmain.2.2.1, hnd1, hmain.2.2.2.1, hmain.2.2.2.2.1,
    hmain.2.2.2.2.2.1, hlt, halt1⟩, hmain.2.2.2.2.2.2⟩

/-! ### `rbtree_erase` -/

theorem rbtree_erase_left_nil {fuel : Nat} {t : rbtree} {z : Nat} (h : t.left z = t.nil) :
    rbtree_erase fuel t z =
      erase_finish fuel (rbtree_transplant t z (t.right z)) (t.right z) (t.color z) := by
  unfold rbtree_erase erase_finish
  simp only [if_pos h]

theorem rbtree_erase_right_nil {fuel : Nat} {t : rbtree} {z : Nat} (h : t.left z ≠ t.nil)
    (h2 : t.right z = t.nil) :
    rbtree_erase fuel t z =
      erase_finish fuel (rbtree_transplant t z (t.left z)) (t.left z) (t.color z) := by
  unfold rbtree_erase erase_finish
  simp only [if_neg h, if_pos h2]

theorem rbtree_erase_two {fuel : Nat} {t : rbtree} {z y : Nat} (h : t.left z ≠ t.nil)
    (h2 : t.right z ≠ t.nil) (hy : min_node t fuel (t.right z) = some y) :
    rbtree_erase fuel t z =
      erase_finish fuel (erase_two_children t z y) (t.right y) (t.color y) := by
  unfold rbtree_erase erase_finish
  simp only [if_neg h, if_neg h2, hy]
  rfl

theorem exists_plug_of_mem {T : Tree} {z : Nat} (h : z ∈ T.addrs) :
    ∃ C c l k r, T = plug C (node c l z k r) := by
  induction T with
  | nil => simp [addrs] at h
  | node c l a k r ihl ihr =>
    simp only [addrs, List.mem_append, List.mem_cons] at h
    rcases h with h | rfl | h
    · obtain ⟨C, c2, l2, k2, r2, e⟩ := ihl h
      exact ⟨C ++ [Frame.L c a k r], c2, l2, k2, r2, by rw [plug_append, ← e]; rfl⟩
    · exact ⟨[], c, l, k, r, rfl⟩
    · obtain ⟨C, c2, l2, k2, r2, e⟩ := ihr h
      exact ⟨C ++ [Frame.R c l a k], c2, l2, k2, r2, by rw [plug_append, ← e]; rfl⟩

theorem height_plug (C : Ctx) (s : Tree) : C.length + s.height ≤ (plug C s).height := by
  induction C generalizing s with
  | nil => simp
  | cons f C ih =>
    cases f with
    | L c a k r =>
      have := ih (node c s a k r)
      simp only [plug_L, List.length_cons, height] at this ⊢
      omega
    | R c l a k =>
      have := ih (node c l a k s)
      simp only [plug_R, List.length_cons, height] at this ⊢
      omega

theorem CtxNoRR_append (C D : Ctx) (hc : color_t) :
    CtxNoRR (C ++ D) hc ↔ CtxNoRR C hc ∧ CtxNoRR D (ctxRootColor C hc) := by
  induction C generalizing hc with
  | nil => simp [CtxNoRR, ctxRootColor]
  | cons f C ih =>
    cases f <;> rw [List.cons_append] <;>
      simp only [CtxNoRR, ih, ctxRootColor, Frame.color_L, Frame.color_R] <;> tauto

theorem ctxRootColor_append (C D : Ctx) (hc : color_t) :
    ctxRootColor (C ++ D) hc = ctxRootColor D (ctxRootColor C hc) := by
  induction C generalizing hc with
  | nil => rfl
  | cons f C ih => rw [List.cons_append]; simp only [ctxRootColor, ih]

theorem CtxBal_append (C D : Ctx) (n : Nat) :
    CtxBal (C ++ D) n ↔ CtxBal C n ∧ CtxBal D (n + cblk C) := by
  induction C generalizing n with
  | nil => simp [CtxBal, cblk]
  | cons f C ih =>
    cases f <;> rw [List.cons_append] <;>
      simp only [CtxBal, ih, cblk, Frame.color_L, Frame.color_R, Nat.add_assoc] <;> tauto

theorem bh_plug_allL {C : Ctx} (h : AllL C) (s : Tree) : (plug C s).bh = s.bh + cblk C := by
  induction C generalizing s with
  | nil => simp [cblk]
  | cons f C ih =>
    obtain ⟨c, a, k, r, rfl⟩ := h f (by simp)
    rw [plug_L, ih (fun g hg => h g (by simp [hg]))]
    simp [bh, cblk, Nat.add_assoc]

theorem allL_shape {Cy : Ctx} (h : AllL Cy) :
    Cy = [] ∨ (∃ cq q kq sq, Cy = [Frame.L cq q kq sq]) ∨
    ∃ cq q kq sq Cm cr ra kr rr, Cy = Frame.L cq q kq sq :: (Cm ++ [Frame.L cr ra kr rr]) := by
  rcases Cy with _ | ⟨f, Cm⟩
  · exact Or.inl rfl
  · right
    obtain ⟨cq, q, kq, sq, rfl⟩ := h f (by simp)
    rcases List.eq_nil_or_concat Cm with rfl | ⟨Cm2, g, rfl⟩
    · exact Or.inl ⟨cq, q, kq, sq, rfl⟩
    · obtain ⟨cr, ra, kr, rr, rfl⟩ := h g (by simp)
      exact Or.inr ⟨cq, q, kq, sq, Cm2, cr, ra, kr, rr, by simp⟩

/-- The relinking of `rbtree_erase` for a node `z` with two children, whatever the depth of its
successor `y`: the heap then lays out the tree with `y` in the place of `z` and the right child
of `y` in the old place of `y`, and the parent link of that child (the sentinel included) is the
parent of that place. -/
theorem erase_two_children_spec {t : rbtree} {C Cy : Ctx} {c cy cl : color_t}
    {ll lr ry : Tree} {z y la : Nat} {k ky kl : Int} (hCy : AllL Cy)
    (h : Represents t (plug C (node c (node cl ll la kl lr) z k
      (plug Cy (node cy nil y ky ry))))) :
    Represents (erase_two_children t z y)
      (plug (Cy ++ Frame.R c (node cl ll la kl lr) y ky :: C) ry) ∧
      (erase_two_children t z y).parent (ry.ptr t.nil) =
        cpar t.nil (Cy ++ Frame.R c (node cl ll la kl lr) y ky :: C) := by
  rcases allL_shape hCy with rfl | ⟨cq, q, kq, sq, rfl⟩ |
    ⟨cq, q, kq, sq, Cm, cr, ra, kr, rr, rfl⟩
  · simpa using erase_two_children_direct h
  · simpa using erase_two_children_near h
  · have h2 : Represents t (plug C (node c (node cl ll la kl lr) z k
        (node cr (plug (Frame.L cq q kq sq :: Cm) (node cy nil y ky ry)) ra kr rr))) := by
      have e : plug (Frame.L cq q kq sq :: (Cm ++ [Frame.L cr ra kr rr])) (node cy nil y ky ry) =
          node cr (plug (Frame.L cq q kq sq :: Cm) (node cy nil y ky ry)) ra kr rr := by
        rw [← List.cons_append, plug_append]; rfl
      rw [e] at h; exact h
    have h3 := erase_two_children_deep h2
    have e2 : plug (Frame.L cq q kq sq :: (Cm ++ [Frame.L cr ra kr rr]) ++
        Frame.R c (node cl ll la kl lr) y ky :: C) ry =
        plug C (node c (node cl ll la kl lr) y ky
          (node cr (plug (Frame.L cq q kq sq :: Cm) ry) ra kr rr)) := by
      rw [plug_append, ← List.cons_append, plug_append]; rfl
    rw [e2]
    exact ⟨h3.1, by simpa using h3.2⟩

theorem erase_finish_spec (fuel : Nat) (col : color_t) {t1 : rbtree} {C1 : Ctx} {s1 : Tree}
    {nl : Nat} (hnil : t1.nil = nl) (hrep : Represents t1 (plug C1 s1))
    (hpar : C1 ≠ [] → t1.parent (s1.ptr nl) = cpar nl C1)
    (hn : s1.NoRR) (hb : s1.Bal) (hcn : CtxNoRR C1 RBTREE_BLACK)
    (hcb : CtxBal C1 (s1.bh + blk col)) (hcr : ctxRootColor C1 RBTREE_BLACK = RBTREE_BLACK)
    (hred : col = RBTREE_RED → s1.rootColor = RBTREE_BLACK) (hfuel : C1.length < fuel) :
    ∃ t2 T2, erase_finish fuel t1 (s1.ptr nl) col = some (t2, 0) ∧ Represents t2 T2 ∧
      T2.rootColor = RBTREE_BLACK ∧ T2.NoRR ∧ T2.Bal ∧ T2.elems = (plug C1 s1).elems ∧
      t2.nil = t1.nil ∧ t2.brk = t1.brk := by
  subst hnil
  rcases color_cases col with rfl | rfl
  · have hs := hred rfl
    refine ⟨t1, plug C1 s1, by simp [erase_finish], hrep, ?_, ?_, ?_, rfl, rfl, rfl⟩
    · rw [rootColor_plug, hs]; exact hcr
    · rw [NoRR_plug, hs]; exact ⟨hn, hcn⟩
    · rw [Bal_plug]; exact ⟨hb, by simpa using hcb⟩
  · have hi : DelInv t1 C1 s1 s1.bh :=
      ⟨hrep, hpar, NoRR_blacken hn, hb, rfl, hcn, by simpa using hcb, hcr⟩
    have hm : delMeasure C1 s1 < fuel := by
      simp only [delMeasure]; split_ifs <;> omega
    obtain ⟨t2, T2, e1, e2, e3, e4, e5, e6, e7, e8⟩ := erase_fixup_loop fuel t1 C1 s1 _ hi hm
    exact ⟨t2, T2, by simp [erase_finish, e1], e2, e3, e4, e5, e6, e7, e8⟩

/-- The contract of `rbtree_erase` on a red-black tree (whatever the order of its keys) and a
node of it: with fuel at least the height it returns status 0, the result is a red-black tree
again, and its in-order sequence is the old one without the erased node. -/
theorem rbtree_erase_core {t : rbtree} {T : Tree} (hrep : Represents t T)
    (hroot : T.rootColor = RBTREE_BLACK) (hnorr : T.NoRR) (hbal : T.Bal)
    {z : Nat} (hz : z ∈ T.addrs) (fuel : Nat) (hf : T.height ≤ fuel) :
    ∃ t2 T2 pre post k, rbtree_erase fuel t z = some (t2, 0) ∧
      (Represents t2 T2 ∧ T2.rootColor = RBTREE_BLACK ∧ T2.NoRR ∧ T2.Bal) ∧
      T.elems = pre ++ (z, k) :: post ∧ T2.elems = pre ++ post ∧
      t2.nil = t.nil ∧ t2.brk = t.brk := by
  obtain ⟨C, c, l, k, r, rfl⟩ := exists_plug_of_mem hz
  have hN := (NoRR_plug _ _).1 hnorr
  have hB := (Bal_plug _ _).1 hbal
  have hR : ctxRootColor C c = RBTREE_BLACK := by
    rw [rootColor_plug] at hroot; exact hroot
  have hH := height_plug C (node c l z k r)
  have hzr := read_at hrep
  simp only [NoRR, rootColor_node] at hN
  simp only [Bal, bh] at hB
  simp only [height] at hH
  have hfin : ∀ (t2 : rbtree) (T2 : Tree) (pre post : List (Nat × Int)) (t1 : rbtree),
      Represents t2 T2 → T2.rootColor = RBTREE_BLACK → T2.NoRR → T2.Bal →
      (plug C (node c l z k r)).elems = pre ++ (z, k) :: post → T2.elems = pre ++ post →
      (t2.nil = t1.nil) → (t2.brk = t1.brk) → t1.nil = t.nil → t1.brk = t.brk →
      (Represents t2 T2 ∧ T2.rootColor = RBTREE_BLACK ∧ T2.NoRR ∧ T2.Bal) ∧
        (plug C (node c l z k r)).elems = pre ++ (z, k) :: post ∧
        T2.elems = pre ++ post ∧ t2.nil = t.nil ∧ t2.brk = t.brk := by
    intro t2 T2 pre post t1 a1 a2 a3 a4 a5 a6 a7 a8 a9 a10
    exact ⟨⟨a1, a2, a3, a4⟩, a5, a6, a7.trans a9, a8.trans a10⟩
  rcases l with _ | ⟨cl, ll, la, kl, lr⟩
  · -- no left child
    have hl : t.left z = t.nil := by simp [hzr]
    obtain ⟨ht, hp⟩ := transplant_right hrep
    have hnb := transplant_nil_brk t z (r.ptr t.nil)
    simp only [bh] at hB
    obtain ⟨t2, T2, e1, e2, e3, e4, e5, e6, e7, e8⟩ :=
      erase_finish_spec fuel c hnb.1 ht
        (fun _ => hp) hN.1.2.2 hB.1.2.2
        (CtxNoRR_black hN.2) (by have := hB.2; rw [← hB.1.1]; simpa using this)
        (ctxRootColor_black hR) (fun e => (hN.1.1 e).2) (by omega)
    refine ⟨t2, T2, cpre C, r.elems ++ cpost C, k, ?_, hfin t2 T2 _ _ _ e2 e3 e4 e5 ?_ ?_ e7 e8
      hnb.1 hnb.2⟩
    · rw [rbtree_erase_left_nil hl, hzr.2.2.2.2.1, hzr.1]; exact e1
    · simp [elems_plug, elems]
    · rw [e6]; simp [elems_plug]
  · by_cases hrn : r = nil
    · -- no right child
      subst hrn
      have hl : t.left z ≠ t.nil := by
        rw [hzr.2.2.2.1]; exact (read_at (C := Frame.L c z k nil :: C) (a := la) hrep).2.2.2.2.2
      have hr2 : t.right z = t.nil := by simp [hzr]
      obtain ⟨ht, hp⟩ := transplant_left hrep
      have hnb := transplant_nil_brk t z ((node cl ll la kl lr).ptr t.nil)
      obtain ⟨t2, T2, e1, e2, e3, e4, e5, e6, e7, e8⟩ :=
        erase_finish_spec fuel c hnb.1 ht
          (fun _ => hp) hN.1.2.1 hB.1.2.1
          (CtxNoRR_black hN.2) hB.2
          (ctxRootColor_black hR) (fun e => (hN.1.1 e).1) (by omega)
      refine ⟨t2, T2, cpre C ++ (node cl ll la kl lr).elems, cpost C, k, ?_,
        hfin t2 T2 _ _ _ e2 e3 e4 e5 ?_ ?_ e7 e8 hnb.1 hnb.2⟩
      · rw [rbtree_erase_right_nil hl hr2, hzr.2.2.2.1, hzr.1]; exact e1
      · simp [elems_plug, elems]
      · rw [e6]; simp [elems_plug]
    · -- two children
      have hl : t.left z ≠ t.nil := by
        rw [hzr.2.2.2.1]; exact (read_at (C := Frame.L c z k r :: C) (a := la) hrep).2.2.2.2.2
      have hr2 : t.right z ≠ t.nil := by
        rw [hzr.2.2.2.2.1]
        rcases r with _ | ⟨cr, rl, ra, kr, rr⟩
        · exact absurd rfl hrn
        · exact (read_at (C := Frame.R c (node cl ll la kl lr) z k :: C) (a := ra) hrep).2.2.2.2.2
      obtain ⟨Cy, cy, y, ky, ry, er, hCy, hmin⟩ :=
        min_node_spec r (Frame.R c (node cl ll la kl lr) z k :: C) fuel hrep hrn (by omega)
      subst er
      have hrep2 : Represents t (plug (Cy ++ Frame.R c (node cl ll la kl lr) z k :: C)
          (node cy nil y ky ry)) := by rw [plug_append]; exact hrep
      have hy := read_at hrep2
      obtain ⟨ht, hp⟩ := erase_two_children_spec hCy hrep
      have hnb := erase_two_children_nil_brk t z y
      have hHy := height_plug Cy (node cy nil y ky ry)
      simp only [height] at hHy
      have hNy := (NoRR_plug Cy (node cy nil y ky ry)).1 hN.1.2.2
      have hBy := (Bal_plug Cy (node cy nil y ky ry)).1 hB.1.2.2
      have hbh := bh_plug_allL hCy (node cy nil y ky ry)
      have hrc := rootColor_plug Cy (node cy nil y ky ry)
      simp only [NoRR, Bal, bh, rootColor_node, rootColor_nil, true_and] at hNy hBy hbh hrc
      obtain ⟨t2, T2, e1, e2, e3, e4, e5, e6, e7, e8⟩ :=
        erase_finish_spec fuel cy hnb.1 ht (fun _ => hp) hNy.1.2 hBy.1.2
          (by
            rw [CtxNoRR_append]
            refine ⟨CtxNoRR_black hNy.2, ?_⟩
            simp only [CtxNoRR]
            refine ⟨fun e => ⟨(hN.1.1 e).1, ?_⟩, hN.1.2.1, hN.2⟩
            have := (hN.1.1 e).2
            rw [hrc] at this
            exact ctxRootColor_black this)
          (by
            rw [CtxBal_append]
            have h0 : ry.bh = 0 := hBy.1.1.symm
            refine ⟨by rw [h0]; exact hBy.2, ?_⟩
            simp only [CtxBal]
            refine ⟨by rw [hB.1.1, hbh, h0], hB.1.2.1, ?_⟩
            have := hB.2
            rw [hB.1.1, hbh] at this
            rw [h0]; exact this)
          (by
            rw [ctxRootColor_append]
            simp only [ctxRootColor, Frame.color_R]
            exact hR)
          (fun e => hNy.1.1 e)
          (by simp only [List.length_append, List.length_cons]; omega)
      refine ⟨t2, T2, cpre C ++ (node cl ll la kl lr).elems,
        (plug Cy (node cy nil y ky ry)).elems ++ cpost C, k, ?_,
        hfin t2 T2 _ _ _ e2 e3 e4 e5 ?_ ?_ e7 e8 hnb.1 hnb.2⟩
      · rw [rbtree_erase_two hl hr2 (by rw [hzr.2.2.2.2.1]; exact hmin), hy.2.2.2.2.1, hy.1]
        exact e1
      · simp [elems_plug, elems]
      · rw [e6, plug_append]
        simp [elems_plug, elems, cpre_allL hCy]

/-- The contract of `rbtree_erase` on a valid tree and a node of it: with fuel at least the
height it returns status 0, the result is a valid tree again, and its in-order sequence is the
old one without the erased node. -/
theorem rbtree_erase_spec {t : rbtree} {T : Tree} (h : RBInv t T) {z : Nat} (hz : z ∈ T.addrs)
    (fuel : Nat) (hf : T.height ≤ fuel) :
    ∃ t2 T2 pre post k, rbtree_erase fuel t z = some (t2, 0) ∧ RBInv t2 T2 ∧
      T.elems = pre ++ (z, k) :: post ∧ T2.elems = pre ++ post ∧
      t2.nil = t.nil ∧ t2.brk = t.brk := by
  obtain ⟨t2, T2, pre, post, k, e1, ⟨a1, a2, a3, a4⟩, e3, e4, e5, e6⟩ :=
    rbtree_erase_core h.rep h.root_black h.norr h.bal hz fuel hf
  refine ⟨t2, T2, pre, post, k, e1, ⟨a1, a2, a3, a4, ?_⟩, e3, e4, e5, e6⟩
  have hs := h.sorted
  rw [keys_eq_map_elems, e3] at hs
  rw [keys_eq_map_elems, e4]
  refine List.Pairwise.sublist ?_ hs
  exact List.Sublist.map _ (List.Sublist.append_left (List.sublist_cons_self _ _) _)

/-! ### Queries and export -/

theorem find_loop_spec {t : rbtree} (key : Int) (s : Tree) : ∀ (C : Ctx) (fuel : Nat),
    Represents t (plug C s) → s.height < fuel →
    rbtree_find_loop t key fuel (s.ptr t.nil) = some (s.find key) := by
  induction s with
  | nil =>
    intro C fuel _ hf
    obtain ⟨fuel, rfl⟩ : ∃ m, fuel = m + 1 := ⟨fuel - 1, by omega⟩
    simp [rbtree_find_loop, Tree.find]
  | node c l a k r ihl ihr =>
    intro C fuel h hf
    obtain ⟨fuel, rfl⟩ : ∃ m, fuel = m + 1 := ⟨fuel - 1, by omega⟩
    have ha := read_at h
    simp only [height] at hf
    simp only [rbtree_find_loop, ptr_node, ne_eq, ha.2.2.2.2.2, not_false_eq_true, if_true,
      ha.2.1, ha.2.2.2.1, ha.2.2.2.2.1, Tree.find]
    by_cases hk : key = k
    · simp [hk]
    · simp only [hk, if_false]
      by_cases hlt : key < k
      · simp only [hlt, if_true]
        exact ihl (Frame.L c a k r :: C) fuel h (by omega)
      · simp only [hlt, if_false]
        exact ihr (Frame.R c l a k :: C) fuel h (by omega)

theorem find_mem {key : Int} {T : Tree} {a : Nat} (h : T.find key = some a) :
    (a, key) ∈ T.elems := by
  induction T with
  | nil => simp [Tree.find] at h
  | node c l b k r ihl ihr =>
    simp only [Tree.find] at h
    simp only [elems, List.mem_append, List.mem_cons]
    split_ifs at h with h1 h2
    · simp only [Option.some.injEq] at h; subst h; subst h1; exact Or.inr (Or.inl rfl)
    · exact Or.inl (ihl h)
    · exact Or.inr (Or.inr (ihr h))

theorem find_isSome_of_mem {key : Int} {T : Tree} (ho : T.Ordered) (h : key ∈ T.keys) :
    ∃ a, T.find key = some a := by
  induction T with
  | nil => simp [keys] at h
  | node c l b k r ihl ihr =>
    simp only [Ordered] at ho
    simp only [keys, List.mem_append, List.mem_cons] at h
    simp only [Tree.find]
    by_cases h1 : key = k
    · exact ⟨b, by simp [h1]⟩
    · simp only [h1, if_false]
      by_cases h2 : key < k
      · simp only [h2, if_true]
        rcases h with h | h | h
        · exact ihl ho.2.2.1 h
        · exact absurd h h1
        · exact absurd (ho.2.1 _ h) (not_le.2 h2)
      · simp only [h2, if_false]
        rcases h with h | h | h
        · exact absurd (lt_of_le_of_ne (ho.1 _ h) h1) h2
        · exact absurd h h1
        · exact ihr ho.2.2.2 h

theorem find_none_of_not_mem {key : Int} {T : Tree} (h : key ∉ T.keys) : T.find key = none := by
  cases hf : T.find key with
  | none => rfl
  | some a => exact absurd (mem_keys_of_mem_elems (find_mem hf)) h

theorem max_node_spec {t : rbtree} : ∀ (r : Tree) (C : Ctx) (fuel : Nat),
    Represents t (plug C r) → r ≠ nil → r.height ≤ fuel →
    ∃ Cy cy ly y ky, r = plug Cy (node cy ly y ky nil) ∧ AllR Cy ∧
      max_node t fuel (r.ptr t.nil) = some y := by
  intro r
  induction r with
  | nil => intro C fuel _ hne; exact absurd rfl hne
  | node c l0 a k r ihl ihr =>
    intro C fuel h _ hf
    simp only [height] at hf
    obtain ⟨fuel, rfl⟩ : ∃ m, fuel = m + 1 := ⟨fuel - 1, by omega⟩
    have ha := read_at h
    rcases r with _ | ⟨cl, ll, la, kl, lr⟩
    · refine ⟨[], c, l0, a, k, rfl, by intro f hf; simp at hf, ?_⟩
      simp [max_node, ha]
    · have hl := read_at (C := Frame.R c l0 a k :: C) (a := la) h
      obtain ⟨Cy, cy, ly, y, ky, e1, e2, e3⟩ :=
        ihr (Frame.R c l0 a k :: C) fuel h (by simp) (by omega)
      refine ⟨Cy ++ [Frame.R c l0 a k], cy, ly, y, ky, ?_, ?_, ?_⟩
      · rw [plug_append, ← e1]; rfl
      · intro f hf
        simp only [List.mem_append, List.mem_singleton] at hf
        rcases hf with hf | rfl
        · exact e2 f hf
        · exact ⟨c, l0, a, k, rfl⟩
      · simp only [ptr_node] at e3 ⊢
        simp [max_node, ha, hl.2.2.2.2.2, e3]

theorem cpost_allR {C : Ctx} (h : AllR C) : cpost C = [] := by
  induction C with
  | nil => rfl
  | cons f C ih =>
    obtain ⟨c, l, a, k, rfl⟩ := h f (by simp)
    simp only [cpost]
    exact ih (fun g hg => h g (by simp [hg]))

theorem fill_append (n : Nat) (xs ys : List Int) (st : (Nat → Int) × Nat) :
    fill n (xs ++ ys) st = fill n ys (fill n xs st) := by
  induction xs generalizing st with
  | nil => rfl
  | cons x xs ih => simp [fill, ih]

theorem fill_full (n : Nat) (xs : List Int) (st : (Nat → Int) × Nat) (h : n ≤ st.2) :
    fill n xs st = st := by
  induction xs generalizing st with
  | nil => rfl
  | cons x xs ih =>
    have : fillStep n x st = st := by simp [fillStep, Nat.not_lt.2 h]
    simp [fill, this, ih st h]

theorem inorder_fill_spec {t : rbtree} (n : Nat) (s : Tree) : ∀ (C : Ctx) (fuel : Nat)
    (st : (Nat → Int) × Nat), Represents t (plug C s) → s.height < fuel →
    inorder_fill t n fuel (s.ptr t.nil) st = some (fill n s.keys st) := by
  induction s with
  | nil =>
    intro C fuel st _ hf
    obtain ⟨fuel, rfl⟩ : ∃ m, fuel = m + 1 := ⟨fuel - 1, by omega⟩
    obtain ⟨arr, idx⟩ := st
    simp [inorder_fill, keys, fill]
  | node c l a k r ihl ihr =>
    intro C fuel st h hf
    obtain ⟨fuel, rfl⟩ : ∃ m, fuel = m + 1 := ⟨fuel - 1, by omega⟩
    obtain ⟨arr, idx⟩ := st
    have ha := read_at h
    simp only [height] at hf
    by_cases hfull : n ≤ idx
    · rw [fill_full n _ _ hfull]
      simp [inorder_fill, hfull]
    · have h1 := ihl (Frame.L c a k r :: C) fuel (arr, idx) h (by omega)
      have h2 := ihr (Frame.R c l a k :: C) fuel (fillStep n k (fill n l.keys (arr, idx))) h
        (by omega)
      simp only [inorder_fill, ptr_node, ha.2.2.2.2.2, false_or, ge_iff_le, hfull, if_false,
        ha.2.2.2.1, h1, ha.2.1, ha.2.2.2.2.1]
      rw [keys, fill_append]
      simp only [fill]
      rw [← h2]
      simp only [fillStep]

theorem fill_spec (n : Nat) (xs : List Int) : ∀ (st : (Nat → Int) × Nat), st.2 ≤ n →
    (fill n xs st).2 = min (st.2 + xs.length) n ∧
    ∀ i, (fill n xs st).1 i =
      if st.2 ≤ i ∧ i < st.2 + xs.length ∧ i < n then xs.getD (i - st.2) 0 else st.1 i := by
  induction xs with
  | nil =>
    intro st h
    simp only [fill, List.length_nil, Nat.add_zero, Nat.min_eq_left h, true_and]
    intro i
    have : ¬ (st.2 ≤ i ∧ i < st.2 ∧ i < n) := by omega
    rw [if_neg this]
  | cons x xs ih =>
    intro st h
    obtain ⟨arr, idx⟩ := st
    simp only at h
    simp only [fill, fillStep, List.length_cons]
    by_cases hlt : idx < n
    · simp only [hlt, if_true]
      obtain ⟨e1, e2⟩ := ih ((fun i => if i = idx then x else arr i), idx + 1) (by simpa using hlt)
      simp only at e1 e2
      refine ⟨by rw [e1]; congr 1; omega, ?_⟩
      intro i
      rw [e2 i]
      by_cases hi : i = idx
      · subst hi
        have h1 : ¬ (i + 1 ≤ i ∧ i < i + 1 + xs.length ∧ i < n) := by omega
        have h2 : i ≤ i ∧ i < i + (xs.length + 1) ∧ i < n := by omega
        rw [if_neg h1, if_pos h2]
        simp
      · by_cases hc : idx + 1 ≤ i ∧ i < idx + 1 + xs.length ∧ i < n
        · have h2 : idx ≤ i ∧ i < idx + (xs.length + 1) ∧ i < n := by omega
          rw [if_pos hc, if_pos h2]
          obtain ⟨j, hj⟩ : ∃ j, i - idx = j + 1 := ⟨i - idx - 1, by omega⟩
          have hj2 : i - (idx + 1) = j := by omega
          rw [hj, hj2]; rfl
        · have h2 : ¬ (idx ≤ i ∧ i < idx + (xs.length + 1) ∧ i < n) := by omega
          rw [if_neg hc, if_neg h2, if_neg hi]
    · have hn : idx = n := by omega
      subst hn
      simp only [lt_irrefl, if_false]
      have := fill_full idx xs (arr, idx) (le_refl _)
      rw [this]
      refine ⟨by simp, ?_⟩
      intro i
      have : ¬ (idx ≤ i ∧ i < idx + (xs.length + 1) ∧ i < idx) := by omega
      rw [if_neg this]

/-! ### More fuel never changes a result -/

theorem insert_descend_mono {t : rbtree} {z : Nat} : ∀ (fuel x y : Nat) {r : Nat},
    insert_descend t z fuel x y = some r → insert_descend t z (fuel + 1) x y = some r := by
  intro fuel
  induction fuel with
  | zero => intro x y r h; simp [insert_descend] at h
  | succ fuel ih =>
    intro x y r h
    rw [insert_descend] at h ⊢
    by_cases hx : x ≠ t.nil
    · rw [if_pos hx] at h ⊢; exact ih _ _ h
    · rw [if_neg hx] at h ⊢; exact h

theorem insert_fixup_mono : ∀ (fuel : Nat) (t : rbtree) (z : Nat) {r : rbtree},
    rbtree_insert_fixup fuel t z = some r → rbtree_insert_fixup (fuel + 1) t z = some r := by
  intro fuel
  induction fuel with
  | zero => intro t z r h; simp [rbtree_insert_fixup] at h
  | succ fuel ih =>
    intro t z r h
    rw [rbtree_insert_fixup] at h ⊢
    by_cases hx : t.color (t.parent z) = RBTREE_RED
    · rw [if_pos hx] at h ⊢; exact ih _ _ h
    · rw [if_neg hx] at h ⊢; exact h

theorem erase_fixup_mono : ∀ (fuel : Nat) (t : rbtree) (x : Nat) {r : rbtree},
    rbtree_erase_fixup fuel t x = some r → rbtree_erase_fixup (fuel + 1) t x = some r := by
  intro fuel
  induction fuel with
  | zero => intro t z r h; simp [rbtree_erase_fixup] at h
  | succ fuel ih =>
    intro t z r h
    rw [rbtree_erase_fixup] at h ⊢
    by_cases hx : z ≠ t.root ∧ t.color z = RBTREE_BLACK
    · rw [if_pos hx] at h ⊢; exact ih _ _ h
    · rw [if_neg hx] at h ⊢; exact h

theorem min_node_mono {t : rbtree} : ∀ (fuel x : Nat) {r : Nat},
    min_node t fuel x = some r → min_node t (fuel + 1) x = some r := by
  intro fuel
  induction fuel with
  | zero => intro x r h; simp [min_node] at h
  | succ fuel ih =>
    intro x r h
    rw [min_node] at h ⊢
    by_cases hx : t.left x ≠ t.nil
    · rw [if_pos hx] at h ⊢; exact ih _ h
    · rw [if_neg hx] at h ⊢; exact h

theorem rbtree_insert_mono_succ {fuel : Nat} {t : rbtree} {key : Int} {r : rbtree × Nat}
    (h : rbtree_insert fuel t key = some r) : rbtree_insert (fuel + 1) t key = some r := by
  rw [rbtree_insert_eq] at h ⊢
  cases hd : insert_descend (insert_init t key) t.brk fuel t.root t.nil with
  | none => rw [hd] at h; simp at h
  | some y =>
    rw [hd] at h
    rw [insert_descend_mono _ _ _ hd]
    simp only at h ⊢
    cases hx : rbtree_insert_fixup fuel (insert_link (insert_init t key) t.brk y) t.brk with
    | none => rw [hx] at h; simp at h
    | some t2 =>
      rw [hx] at h
      rw [insert_fixup_mono _ _ _ hx]
      exact h

theorem rbtree_insert_mono {fuel fuel2 : Nat} {t : rbtree} {key : Int} {r : rbtree × Nat}
    (h : rbtree_insert fuel t key = some r) (hle : fuel ≤ fuel2) :
    rbtree_insert fuel2 t key = some r := by
  induction hle with
  | refl => exact h
  | step _ ih => exact rbtree_insert_mono_succ ih

theorem erase_finish_mono {fuel : Nat} {t : rbtree} {x : Nat} {c : color_t} {r : rbtree × Int}
    (h : erase_finish fuel t x c = some r) : erase_finish (fuel + 1) t x c = some r := by
  unfold erase_finish at h ⊢
  split_ifs at h ⊢ with hc
  · cases hx : rbtree_erase_fixup fuel t x with
    | none => rw [hx] at h; simp at h
    | some t2 => rw [hx] at h; rw [erase_fixup_mono _ _ _ hx]; exact h
  · exact h

theorem rbtree_erase_mono_succ {fuel : Nat} {t : rbtree} {z : Nat} {r : rbtree × Int}
    (h : rbtree_erase fuel t z = some r) : rbtree_erase (fuel + 1) t z = some r := by
  by_cases h1 : t.left z = t.nil
  · rw [rbtree_erase_left_nil h1] at h ⊢; exact erase_finish_mono h
  · by_cases h2 : t.right z = t.nil
    · rw [rbtree_erase_right_nil h1 h2] at h ⊢; exact erase_finish_mono h
    · cases hm : min_node t fuel (t.right z) with
      | none =>
        exfalso
        unfold rbtree_erase at h
        simp [h1, h2, hm] at h
      | some y =>
        rw [rbtree_erase_two h1 h2 hm] at h
        rw [rbtree_erase_two h1 h2 (min_node_mono _ _ hm)]
        exact erase_finish_mono h

theorem rbtree_erase_mono {fuel fuel2 : Nat} {t : rbtree} {z : Nat} {r : rbtree × Int}
    (h : rbtree_erase fuel t z = some r) (hle : fuel ≤ fuel2) :
    rbtree_erase fuel2 t z = some r := by
  induction hle with
  | refl => exact h
  | step _ ih => exact rbtree_erase_mono_succ ih

/-! ### Sequences of operations -/

theorem new_rbtree_inv : RBInv new_rbtree nil := by
  refine ⟨⟨rfl, trivial, List.nodup_nil, rfl, rfl, rfl, by decide, ?_⟩, rfl, trivial, trivial, ?_⟩
  · intro a ha; simp [addrs] at ha
  · simp [keys]

theorem elems_nodup {t : rbtree} {T : Tree} (h : Represents t T) : T.elems.Nodup := by
  have := h.nodup
  rw [addrs_eq_map_elems] at this
  exact List.Nodup.of_map _ this

theorem key_unique {t : rbtree} {T : Tree} (h : Represents t T) {z : Nat} {k1 k2 : Int}
    (h1 : (z, k1) ∈ T.elems) (h2 : (z, k2) ∈ T.elems) : k1 = k2 := by
  have hn := h.nodup
  rw [addrs_eq_map_elems] at hn
  have := List.inj_on_of_nodup_map hn h1 h2 rfl
  exact (Prod.mk.inj this).2

theorem key_of_mem {t : rbtree} {T : Tree} (h : Represents t T) {z : Nat} {k : Int}
    (hm : (z, k) ∈ T.elems) : t.key z = k := by
  have hz : z ∈ T.addrs := by
    rw [addrs_eq_map_elems]; exact List.mem_map_of_mem Prod.fst hm
  obtain ⟨C, c, l, k2, r, rfl⟩ := exists_plug_of_mem hz
  have hr := read_at h
  rw [hr.2.1]
  have : (z, k2) ∈ (plug C (node c l z k2 r)).elems := by
    rw [elems_plug]; simp [elems]
  exact key_unique h this hm

/-- Every state reached by inserts and erases is a valid tree whose nodes are exactly the
nodes of the reference list. -/
theorem reach_inv {t : rbtree} {ref : List (Nat × Int)} (h : Reach t ref) :
    ∃ T, RBInv t T ∧ T.elems.Perm ref := by
  induction h with
  | new => exact ⟨nil, new_rbtree_inv, List.Perm.refl _⟩
  | @insert t ref fuel k r _ hins ih =>
    obtain ⟨T, hT, hp⟩ := ih
    obtain ⟨t2, T2, pre, post, e1, e2, e3, e4, -, -, -⟩ :=
      rbtree_insert_spec hT k (max fuel (T.height + 1)) (by omega)
    have := rbtree_insert_mono hins (le_max_left fuel (T.height + 1))
    rw [e1] at this
    obtain rfl := Option.some.inj this
    refine ⟨T2, e2, ?_⟩
    rw [e4]
    refine List.perm_middle.trans (List.Perm.cons _ ?_)
    rw [← e3]; exact hp
  | @erase t ref fuel z k r _ hmem her ih =>
    obtain ⟨T, hT, hp⟩ := ih
    have hzk : (z, k) ∈ T.elems := hp.mem_iff.2 hmem
    have hz : z ∈ T.addrs := by
      rw [addrs_eq_map_elems]; exact List.mem_map_of_mem Prod.fst hzk
    obtain ⟨t2, T2, pre, post, k2, e1, e2, e3, e4, -, -⟩ :=
      rbtree_erase_spec hT hz (max fuel T.height) (le_max_right _ _)
    have := rbtree_erase_mono her (le_max_left fuel T.height)
    rw [e1] at this
    obtain rfl := Option.some.inj this
    refine ⟨T2, e2, ?_⟩
    have hnd := hT.rep.nodup
    rw [addrs_eq_map_elems, e3] at hnd
    simp only [List.map_append, List.map_cons, List.nodup_append, List.nodup_cons, List.mem_map,
      List.disjoint_cons_right, not_exists, not_and] at hnd
    have hf1 : pre.filter (fun p => p.1 ≠ z) = pre := by
      rw [List.filter_eq_self]
      intro p hp2
      simpa using fun e => hnd.2.2.1 p hp2 e
    have hf2 : post.filter (fun p => p.1 ≠ z) = post := by
      rw [List.filter_eq_self]
      intro p hp2
      simpa using fun e => hnd.2.1.1 p hp2 e
    have he : (pre ++ (z, k2) :: post).filter (fun p => p.1 ≠ z) = pre ++ post := by
      rw [List.filter_append, List.filter_cons, hf1, hf2]; simp
    rw [e4, ← he, ← e3]
    exact hp.filter _

theorem reach_length {ref : List (Nat × Int)} {T : Tree}
    (hp : T.elems.Perm ref) : T.height ≤ ref.length := by
  rw [← hp.length_eq, ← size_eq_length_elems]; exact height_le_size T

theorem insert_all_spec : ∀ (keys : List Int) (t : rbtree) (T : Tree), RBInv t T →
    ∃ t2 T2, (∀ fuel, T.size + keys.length < fuel → insert_all fuel keys t = some t2) ∧
      RBInv t2 T2 ∧ T2.size = T.size + keys.length ∧ T2.keys.Perm (keys ++ T.keys) := by
  intro keys
  induction keys with
  | nil =>
    intro t T h
    exact ⟨t, T, fun _ _ => rfl, h, rfl, List.Perm.refl _⟩
  | cons k ks ih =>
    intro t T h
    obtain ⟨t1, T1, pre, post, e1, e2, e3, e4, -, -, -⟩ :=
      rbtree_insert_spec h k (T.height + 1) (by omega)
    have hs : T1.size = T.size + 1 := by
      rw [size_eq_length_elems, size_eq_length_elems, e3, e4]; simp; omega
    obtain ⟨t2, T2, f1, f2, f3, f4⟩ := ih t1 T1 e2
    refine ⟨t2, T2, ?_, f2, by rw [f3, hs]; simp; omega, ?_⟩
    · intro fuel hfuel
      simp only [List.length_cons] at hfuel
      have hle : T.height + 1 ≤ fuel := by
        have := height_le_size T; omega
      rw [insert_all, rbtree_insert_mono e1 hle]
      exact f1 fuel (by omega)
    · refine f4.trans ?_
      have hk : T1.keys.Perm (k :: T.keys) := by
        rw [keys_eq_map_elems, keys_eq_map_elems, e3, e4]
        simp only [List.map_append, List.map_cons]
        exact List.perm_middle
      exact (List.Perm.append_left ks hk).trans (by simp [List.perm_middle])

/-! ### Height of a red-black tree -/

theorem height_le_bh {T : Tree} (hn : T.NoRR) (hb : T.Bal) :
    T.height ≤ 2 * T.bh + (if T.rootColor = RBTREE_RED then 1 else 0) := by
  induction T with
  | nil => simp [height, bh]
  | node c l a k r ihl ihr =>
    simp only [NoRR] at hn
    simp only [Bal] at hb
    have h1 := ihl hn.2.1 hb.2.1
    have h2 := ihr hn.2.2 hb.2.2
    have hbh := hb.1
    simp only [height, bh, rootColor_node]
    rcases color_cases c with rfl | rfl
    · obtain ⟨e1, e2⟩ := hn.1 rfl
      rw [e1] at h1; rw [e2] at h2
      simp only [reduceCtorEq, if_false, Nat.add_zero] at h1 h2
      simp only [blk_red, Nat.add_zero, if_true]
      omega
    · simp only [blk_black, reduceCtorEq, if_false, Nat.add_zero]
      have a1 : (if l.rootColor = RBTREE_RED then 1 else 0) ≤ 1 := by split_ifs <;> omega
      have a2 : (if r.rootColor = RBTREE_RED then 1 else 0) ≤ 1 := by split_ifs <;> omega
      omega

theorem pow_bh_le_size {T : Tree} (hb : T.Bal) : 2 ^ T.bh ≤ T.size + 1 := by
  induction T with
  | nil => simp [bh, size]
  | node c l a k r ihl ihr =>
    simp only [Bal] at hb
    have h1 := ihl hb.2.1
    have h2 := ihr hb.2.2
    rw [← hb.1] at h2
    simp only [bh, size]
    rcases color_cases c with rfl | rfl
    · simp only [blk_red, Nat.add_zero]; omega
    · simp only [blk_black, pow_succ]; omega

/-- The height of a red-black tree with `n` nodes is at most twice the binary logarithm of
`n + 1`, in integers: two to the height is at most the square of `n + 1`. -/
theorem pow_height_le {T : Tree} (hr : T.rootColor = RBTREE_BLACK) (hn : T.NoRR) (hb : T.Bal) :
    2 ^ T.height ≤ (T.size + 1) ^ 2 := by
  have h1 := height_le_bh hn hb
  rw [hr] at h1
  simp only [reduceCtorEq, if_false, Nat.add_zero] at h1
  have h2 := pow_bh_le_size hb
  calc 2 ^ T.height ≤ 2 ^ (2 * T.bh) := Nat.pow_le_pow_right (by decide) h1
    _ = (2 ^ T.bh) ^ 2 := by rw [Nat.mul_comm, pow_mul]
    _ ≤ (T.size + 1) ^ 2 := Nat.pow_le_pow_left h2 2

/-! ### The tree a heap lays out is unique -/

theorem Rep_unique {m : Nat → node_t} {nl : Nat} : ∀ (T T2 : Tree) (p p2 : Nat),
    Rep m nl T p → Rep m nl T2 p2 → T.ptr nl = T2.ptr nl → T = T2 := by
  intro T
  induction T with
  | nil =>
    intro T2 p p2 _ h2 e
    cases T2 with
    | nil => rfl
    | node c l a k r =>
      simp only [Rep] at h2
      exact absurd e.symm h2.1
  | node c l a k r ihl ihr =>
    intro T2 p p2 h1 h2 e
    cases T2 with
    | nil =>
      simp only [Rep] at h1
      exact absurd e h1.1
    | node c2 l2 a2 k2 r2 =>
      simp only [ptr_node] at e
      subst e
      simp only [Rep] at h1 h2
      have hm := h1.2.1.symm.trans h2.2.1
      simp only [node_t.mk.injEq] at hm
      obtain ⟨e1, e2, -, e4, e5⟩ := hm
      rw [e1, e2, ihl l2 _ _ h1.2.2.1 h2.2.2.1 e4, ihr r2 _ _ h1.2.2.2 h2.2.2.2 e5]

/-- A tree record represents at most one tree. -/
theorem represents_unique {t : rbtree} {T T2 : Tree} (h : Represents t T)
    (h2 : Represents t T2) : T = T2 :=
  Rep_unique T T2 _ _ h.rep h2.rep (h.root.symm.trans h2.root)

theorem some_getD {α : Type} (o : Option α) (d : α) (h : o.isSome = true) :
    o = some (o.getD d) := by
  cases o with
  | none => simp at h
  | some a => rfl

theorem isRB_of_inv {t : rbtree} {T : Tree} (h : RBInv t T) : T.IsRB :=
  ⟨h.root_black, h.norr, EqualBlack_of_Bal h.bal⟩

theorem root_color_of_inv {t : rbtree} {T : Tree} (h : RBInv t T) :
    t.color t.root = RBTREE_BLACK := by
  have := color_ptr (C := []) (s := T) h.rep
  rw [h.rep.root]
  simpa [h.root_black] using this

/-- C1: for every finite sequence of keys, duplicates allowed, calling `rbtree_insert` on each
key in turn from `new_rbtree` returns (for every fuel above the number of keys) a tree record
that represents a tree with the three red-black properties: the root is BLACK, no RED node has a
RED child, and every path from the root down to the sentinel holds the same number of BLACK
nodes. -/
theorem C1_insert_sequence_red_black (keys : List Int) :
    ∃ t T, (∀ fuel, keys.length < fuel → insert_all fuel keys new_rbtree = some t) ∧
      Represents t T ∧ t.color t.root = RBTREE_BLACK ∧
      T.rootColor = RBTREE_BLACK ∧ T.NoRR ∧ T.EqualBlack := by
  obtain ⟨t, T, h1, h2, -, -⟩ := insert_all_spec keys new_rbtree nil new_rbtree_inv
  refine ⟨t, T, fun fuel hf => h1 fuel (by simpa [size] using hf), h2.rep, root_color_of_inv h2,
    h2.root_black, h2.norr, EqualBlack_of_Bal h2.bal⟩

theorem to_array_spec {t : rbtree} {T : Tree} (h : Represents t T) (arr : Nat → Int) (n : Nat)
    (fuel : Nat) (hf : T.height < fuel) :
    inorder_fill t n fuel t.root (arr, 0) = some (fill n T.keys (arr, 0)) ∧
    rbtree_to_array fuel t arr n = some ((fill n T.keys (arr, 0)).1, 0) := by
  have h1 := inorder_fill_spec n T [] fuel (arr, 0) h hf
  rw [← h.root] at h1
  refine ⟨h1, ?_⟩
  unfold rbtree_to_array
  simp only [h1]

theorem fill_range (n : Nat) (xs : List Int) (arr : Nat → Int) (h : xs.length ≤ n) :
    (List.range xs.length).map (fill n xs (arr, 0)).1 = xs := by
  have hs := (fill_spec n xs (arr, 0) (Nat.zero_le _)).2
  apply List.ext_getElem
  · simp
  · intro i h1 h2
    simp only [List.length_map, List.length_range] at h1
    simp only [List.getElem_map, List.getElem_range]
    rw [hs i]
    have : 0 ≤ i ∧ i < 0 + xs.length ∧ i < n := by omega
    rw [if_pos this]
    simp [List.getD_eq_getElem?_getD, List.getElem?_eq_getElem h1]

theorem insert_all_reach {fuel : Nat} : ∀ (keys : List Int) {t t2 : rbtree}
    {ref : List (Nat × Int)}, Reach t ref → insert_all fuel keys t = some t2 →
    ∃ ref2, Reach t2 ref2 ∧ (ref2.map Prod.snd).Perm (keys ++ ref.map Prod.snd) := by
  intro keys
  induction keys with
  | nil =>
    intro t t2 ref h e
    simp only [insert_all, Option.some.injEq] at e
    subst e
    exact ⟨ref, h, List.Perm.refl _⟩
  | cons k ks ih =>
    intro t t2 ref h e
    rw [insert_all] at e
    cases hi : rbtree_insert fuel t k with
    | none => rw [hi] at e; simp at e
    | some r =>
      rw [hi] at e
      obtain ⟨ref2, h2, hp⟩ := ih (Reach.insert h hi) e
      refine ⟨ref2, h2, hp.trans ?_⟩
      simp only [List.map_cons, List.cons_append]
      exact List.perm_middle

/-- C2: in every state reached from `new_rbtree` by an interleaving of `rbtree_insert` calls
and `rbtree_erase` calls on present nodes, `rbtree_to_array` with a capacity `n` at least the
number of present nodes returns (for every fuel above that number) and leaves in the first
slots of the buffer exactly the keys currently present, in ascending order, duplicates
included; and inserting the keys 1, 2, ..., m in that order and exporting with capacity `m`
yields the list 1, 2, ..., m. -/
theorem C2_export_sorted_multiset :
    (∀ (t : rbtree) (ref : List (Nat × Int)) (arr : Nat → Int) (n : Nat),
      Reach t ref → ref.length ≤ n →
      ∃ arr2, (∀ fuel, ref.length < fuel → rbtree_to_array fuel t arr n = some (arr2, 0)) ∧
        (List.range ref.length).map arr2 = (ref.map Prod.snd).insertionSort (· ≤ ·)) ∧
    (∀ (m : Nat) (arr : Nat → Int),
      ∃ t arr2, (∀ fuel, m < fuel →
          insert_all fuel ((List.range' 1 m).map Int.ofNat) new_rbtree = some t ∧
          rbtree_to_array fuel t arr m = some (arr2, 0)) ∧
        (List.range m).map arr2 = (List.range' 1 m).map Int.ofNat) := by
  have part1 : ∀ (t : rbtree) (ref : List (Nat × Int)) (arr : Nat → Int) (n : Nat),
      Reach t ref → ref.length ≤ n →
      ∃ arr2, (∀ fuel, ref.length < fuel → rbtree_to_array fuel t arr n = some (arr2, 0)) ∧
        (List.range ref.length).map arr2 = (ref.map Prod.snd).insertionSort (· ≤ ·) := by
    intro t ref arr n h hn
    obtain ⟨T, hT, hp⟩ := reach_inv h
    have hlen : T.keys.length = ref.length := by
      rw [keys_eq_map_elems, List.length_map, hp.length_eq]
    refine ⟨(fill n T.keys (arr, 0)).1, ?_, ?_⟩
    · intro fuel hf
      exact (to_array_spec hT.rep arr n fuel (by have := reach_length hp; omega)).2
    · rw [← hlen, fill_range n T.keys arr (by omega)]
      refine List.eq_of_perm_of_sorted ?_ hT.sorted (List.sorted_insertionSort _ _)
      rw [keys_eq_map_elems]
      exact (hp.map _).trans (List.perm_insertionSort _ _).symm
  refine ⟨part1, ?_⟩
  intro m arr
  obtain ⟨t, T, h1, h2, h3, h4⟩ :=
    insert_all_spec ((List.range' 1 m).map Int.ofNat) new_rbtree nil new_rbtree_inv
  simp only [size, List.length_map, List.length_range', Nat.zero_add, keys,
    List.append_nil] at h1 h3 h4
  obtain ⟨ref, hr, hp⟩ := insert_all_reach _ Reach.new (h1 (m + 1) (by omega))
  simp only [List.map_nil, List.append_nil] at hp
  have hlen : ref.length = m := by
    have := hp.length_eq
    simpa using this
  obtain ⟨arr2, a1, a2⟩ := part1 t ref arr m hr (by omega)
  refine ⟨t, arr2, fun fuel hf => ⟨h1 fuel hf, a1 fuel (by omega)⟩, ?_⟩
  rw [hlen] at a2
  rw [a2]
  have hsorted : ((List.range' 1 m).map Int.ofNat).Sorted (· ≤ ·) := by
    refine List.Pairwise.map _ ?_ (List.pairwise_lt_range' 1 m |>.imp (fun h => le_of_lt h))
    intro a b hab
    exact Int.ofNat_le.2 hab
  exact List.eq_of_perm_of_sorted ((List.perm_insertionSort _ _).trans hp)
    (List.sorted_insertionSort _ _) hsorted

theorem example123_eq : insert_all 4 [1, 2, 3] new_rbtree = some example123 :=
  some_getD _ _ (by decide)

theorem example123_represents : Represents example123 tree123 := by
  refine ⟨by decide, ?_, by decide, by decide, by decide, by decide, by decide, by decide⟩
  simp only [tree123, Rep, ptr_nil, ptr_node]
  decide

theorem example123_inv : RBInv example123 tree123 := by
  refine ⟨example123_represents, rfl, ?_, ?_, ?_⟩
  · simp [tree123, NoRR]
  · simp [tree123, Bal, bh]
  · simp [tree123, keys]

theorem example123_reach : Reach example123 [(4, 3), (3, 2), (2, 1)] := by
  have h1 : Reach _ _ := @Reach.insert _ _ 4 1 _ Reach.new (some_getD _ (new_rbtree, 0)
    (by decide))
  have h2 : Reach _ _ := @Reach.insert _ _ 4 2 _ h1 (some_getD _ (new_rbtree, 0)
    (by decide))
  have h3 : Reach _ _ := @Reach.insert _ _ 4 3 _ h2 (some_getD _ (new_rbtree, 0)
    (by decide))
  exact h3

/-- Witness for C2: the state reached by inserting 1, 2, 3 exports `[1, 2, 3]` into a buffer
of capacity 3. -/
theorem C2_export_sorted_multiset_witness :
    ∃ arr2, (∀ fuel, 3 < fuel →
        rbtree_to_array fuel example123 (fun _ => 0) 3 = some (arr2, 0)) ∧
      (List.range 3).map arr2 = [1, 2, 3] :=
  C2_export_sorted_multiset.1 example123 [(4, 3), (3, 2), (2, 1)] (fun _ => 0) 3
    example123_reach (by decide)

/-- C3: for every tree that satisfies the red-black properties (root BLACK, no RED node with a
RED parent, equal BLACK count on every path to the sentinel) and every node `z` of it,
`rbtree_erase(t, z)` returns (with a result that no longer depends on the fuel once the fuel is
at least the height), and the tree after it again satisfies all three properties. The node `z`
ranges over all nodes of the tree, so all four cases of the code (no left child, no right child,
successor is the right child, successor deeper in the right subtree) are covered. -/
theorem C3_erase_preserves_red_black {t : rbtree} {T : Tree} (h : Represents t T)
    (hrb : T.IsRB) {z : Nat} (hz : z ∈ T.addrs) :
    ∃ t2 T2, (∀ fuel, T.height ≤ fuel → rbtree_erase fuel t z = some (t2, 0)) ∧
      Represents t2 T2 ∧ t2.color t2.root = RBTREE_BLACK ∧ T2.IsRB ∧
      T2.size + 1 = T.size ∧ z ∉ T2.addrs := by
  obtain ⟨hroot, hnorr, heq⟩ := hrb
  obtain ⟨t2, T2, pre, post, k, he, ⟨hrep2, hroot2, hnorr2, hbal2⟩, hel, hel2, -, -⟩ :=
    rbtree_erase_core h hroot hnorr (Bal_of_EqualBlack heq) hz T.height le_rfl
  refine ⟨t2, T2, fun fuel hf => rbtree_erase_mono he hf, hrep2, ?_,
    ⟨hroot2, hnorr2, EqualBlack_of_Bal hbal2⟩, ?_, ?_⟩
  · rw [rbtree.color, hrep2.root]
    cases T2 with
    | nil => simpa using hrep2.nil_color
    | node c l a k r =>
      have := hrep2.rep
      simp only [Rep] at this
      simp only [rootColor_node] at hroot2
      simp [ptr_node, this.2.1, hroot2]
  · rw [size_eq_length_elems, size_eq_length_elems, hel, hel2]
    simp only [List.length_append, List.length_cons]
    omega
  · have hnd := h.nodup
    rw [addrs_eq_map_elems, hel] at hnd
    rw [addrs_eq_map_elems, hel2]
    simp only [List.map_append, List.map_cons, List.nodup_append, List.nodup_cons,
      List.mem_append, List.disjoint_cons_right] at hnd ⊢
    tauto

/-- Witness for C3: erasing the root (address 3, key 2, two children) of the tree built by
inserting 1, 2, 3. -/
theorem C3_erase_preserves_red_black_witness :
    ∃ t2 T2, (∀ fuel, tree123.height ≤ fuel → rbtree_erase fuel example123 3 = some (t2, 0)) ∧
      Represents t2 T2 ∧ t2.color t2.root = RBTREE_BLACK ∧ T2.IsRB ∧
      T2.size + 1 = tree123.size ∧ 3 ∉ T2.addrs :=
  C3_erase_preserves_red_black example123_represents (isRB_of_inv example123_inv)
    (by simp [tree123, addrs])

/-- C4: for every valid tree and every key `k`, also one already present, `rbtree_insert(t, k)`
returns, and adds exactly one new node: the number of nodes grows by one, the multiset of keys
becomes the old one plus one copy of `k`, and the returned reference `z` is a node that was not
in the tree before, is in the tree now, and has key `k`; the tree is valid again. -/
theorem C4_insert_adds_one_node {t : rbtree} {T : Tree} (h : RBInv t T) (k : Int) :
    ∃ t2 T2 z, (∀ fuel, T.height < fuel → rbtree_insert fuel t k = some (t2, z)) ∧
      RBInv t2 T2 ∧ T2.size = T.size + 1 ∧ T2.keys.Perm (k :: T.keys) ∧
      z ∉ T.addrs ∧ T2.elems.Perm ((z, k) :: T.elems) ∧ z ∈ T2.addrs ∧ t2.key z = k := by
  obtain ⟨t2, T2, pre, post, hi, hinv, hel, hel2, -, -, hfresh⟩ :=
    rbtree_insert_spec h k (T.height + 1) (Nat.lt_succ_self _)
  have hperm : T2.elems.Perm ((t.brk, k) :: T.elems) := by
    rw [hel, hel2]; exact List.perm_middle
  have hmem : (t.brk, k) ∈ T2.elems := by rw [hel2]; simp
  refine ⟨t2, T2, t.brk, fun fuel hf => rbtree_insert_mono hi hf, hinv, ?_, ?_, hfresh, hperm,
    ?_, key_of_mem hinv.rep hmem⟩
  · rw [size_eq_length_elems, size_eq_length_elems, hperm.length_eq]; simp
  · rw [keys_eq_map_elems, keys_eq_map_elems]
    exact hperm.map Prod.snd
  · rw [addrs_eq_map_elems]
    exact List.mem_map_of_mem Prod.fst hmem

/-- Witness for C4: inserting the key 2 a second time into the tree built from 1, 2, 3. -/
theorem C4_insert_adds_one_node_witness :
    ∃ t2 T2 z, (∀ fuel, tree123.height < fuel → rbtree_insert fuel example123 2 = some (t2, z)) ∧
      RBInv t2 T2 ∧ T2.size = tree123.size + 1 ∧ T2.keys.Perm (2 :: tree123.keys) ∧
      z ∉ tree123.addrs ∧ T2.elems.Perm ((z, 2) :: tree123.elems) ∧ z ∈ T2.addrs ∧
      t2.key z = 2 :=
  C4_insert_adds_one_node example123_inv 2

/-- C5: in every state reached from `new_rbtree` by inserts and erases (`ref` lists the nodes
present with their keys), `rbtree_find(t, k)` returns; it returns a node of the tree whose key
is `k` if some node with key `k` is present, and `NULL` if none is. -/
theorem C5_find_present_or_null {t : rbtree} {ref : List (Nat × Int)} (h : Reach t ref)
    (k : Int) :
    ∃ res, (∀ fuel, ref.length < fuel → rbtree_find fuel t k = some res) ∧
      ((∃ z, (z, k) ∈ ref) → ∃ z, res = some z ∧ (z, k) ∈ ref ∧ t.key z = k) ∧
      ((∀ z, (z, k) ∉ ref) → res = none) := by
  obtain ⟨T, hinv, hperm⟩ := reach_inv h
  refine ⟨T.find k, ?_, ?_, ?_⟩
  · intro fuel hf
    have := find_loop_spec (t := t) k T [] fuel hinv.rep
      (lt_of_le_of_lt (reach_length hperm) hf)
    rw [rbtree_find, hinv.rep.root]
    exact this
  · rintro ⟨z, hz⟩
    have hk : k ∈ T.keys := mem_keys_of_mem_elems (hperm.mem_iff.2 hz)
    obtain ⟨a, ha⟩ := find_isSome_of_mem ((Ordered_iff_sorted T).2 hinv.sorted) hk
    have hm := find_mem ha
    exact ⟨a, ha, hperm.mem_iff.1 hm, key_of_mem hinv.rep hm⟩
  · intro hno
    apply find_none_of_not_mem
    rw [keys_eq_map_elems]
    simp only [List.mem_map, not_exists, not_and]
    rintro ⟨z, k2⟩ hm rfl
    exact hno z (hperm.mem_iff.1 hm)

/-- Witness for C5: looking up the key 2 after inserting 1, 2, 3. -/
theorem C5_find_present_or_null_witness :
    ∃ res, (∀ fuel, 3 < fuel → rbtree_find fuel example123 2 = some res) ∧
      ((∃ z, (z, (2 : Int)) ∈ [(4, (3 : Int)), (3, 2), (2, 1)]) →
        ∃ z, res = some z ∧ (z, (2 : Int)) ∈ [(4, (3 : Int)), (3, 2), (2, 1)] ∧
          example123.key z = 2) ∧
      ((∀ z, (z, (2 : Int)) ∉ [(4, (3 : Int)), (3, 2), (2, 1)]) → res = none) :=
  C5_find_present_or_null example123_reach 2

/-- C6: in every state reached from `new_rbtree` by inserts and erases (`ref` lists the nodes
present with their keys), `rbtree_min` and `rbtree_max` return; on a non-empty tree they return
nodes of the tree whose keys are the minimum and the maximum of the keys present, on an empty
tree both return `NULL`. -/
theorem C6_min_max {t : rbtree} {ref : List (Nat × Int)} (h : Reach t ref) :
    ∃ rmin rmax,
      (∀ fuel, ref.length ≤ fuel →
        rbtree_min fuel t = some rmin ∧ rbtree_max fuel t = some rmax) ∧
      (ref = [] → rmin = none ∧ rmax = none) ∧
      (ref ≠ [] → ∃ a b, rmin = some a ∧ rmax = some b ∧
        (a, t.key a) ∈ ref ∧ (b, t.key b) ∈ ref ∧
        ∀ x ∈ ref, t.key a ≤ x.2 ∧ x.2 ≤ t.key b) := by
  obtain ⟨T, hinv, hperm⟩ := reach_inv h
  cases T with
  | nil =>
    have href : ref = [] := by simpa [elems] using hperm
    refine ⟨none, none, ?_, fun _ => ⟨rfl, rfl⟩, fun hne => absurd href hne⟩
    intro fuel _
    have hroot := hinv.rep.root
    simp only [ptr_nil] at hroot
    simp [rbtree_min, rbtree_max, hroot]
  | node c l a k r =>
    have hne : node c l a k r ≠ nil := by simp
    have hrootne : t.root ≠ t.nil := by
      rw [hinv.rep.root, ptr_node]
      exact addr_ne_nil hinv.rep a (by simp [addrs])
    have hh := reach_length hperm
    obtain ⟨Cy, cy, y, ky, ry, hy, hally, -⟩ :=
      min_node_spec (t := t) (node c l a k r) [] _ hinv.rep hne le_rfl
    obtain ⟨Cz, cz, lz, z, kz, hz, hallz, -⟩ :=
      max_node_spec (t := t) (node c l a k r) [] _ hinv.rep hne le_rfl
    have hely : (node c l a k r).elems = (y, ky) :: (ry.elems ++ cpost Cy) := by
      rw [hy, elems_plug, cpre_allL hally]; simp [elems]
    have helz : (node c l a k r).elems = (cpre Cz ++ lz.elems) ++ [(z, kz)] := by
      rw [hz, elems_plug, cpost_allR hallz]; simp [elems]
    have hmy : (y, ky) ∈ (node c l a k r).elems := by rw [hely]; simp
    have hmz : (z, kz) ∈ (node c l a k r).elems := by rw [helz]; simp
    have hky := key_of_mem hinv.rep hmy
    have hkz := key_of_mem hinv.rep hmz
    refine ⟨some y, some z, ?_, ?_, ?_⟩
    · intro fuel hf
      obtain ⟨Cy2, cy2, y2, ky2, ry2, hy2, hally2, hmin⟩ :=
        min_node_spec (t := t) (node c l a k r) [] fuel hinv.rep hne (le_trans hh hf)
      obtain ⟨Cz2, cz2, lz2, z2, kz2, hz2, hallz2, hmax⟩ :=
        max_node_spec (t := t) (node c l a k r) [] fuel hinv.rep hne (le_trans hh hf)
      have e1 : y2 = y := by
        have := hely
        rw [hy2, elems_plug, cpre_allL hally2] at this
        simp [elems] at this
        exact this.1.1
      have e2 : z2 = z := by
        have := helz
        rw [hz2, elems_plug, cpost_allR hallz2] at this
        simp only [elems, List.append_nil] at this
        rw [← List.append_assoc] at this
        have := List.append_inj_right' this rfl
        simp at this
        exact this.1
      rw [← hinv.rep.root] at hmin hmax
      simp [rbtree_min, rbtree_max, hrootne, hmin, hmax, e1, e2]
    · intro href
      rw [href] at hperm
      simp [elems] at hperm
    · intro _
      refine ⟨y, z, rfl, rfl, ?_, ?_, ?_⟩
      · rw [hky]; exact hperm.mem_iff.1 hmy
      · rw [hkz]; exact hperm.mem_iff.1 hmz
      · intro x hx
        have hxm : x ∈ (node c l a k r).elems := hperm.mem_iff.2 hx
        have hs := hinv.sorted
        rw [keys_eq_map_elems] at hs
        rw [hky, hkz]
        constructor
        · rw [hely] at hs hxm
          simp only [List.map_cons, List.sorted_cons] at hs
          rcases List.mem_cons.1 hxm with rfl | hxm
          · exact le_rfl
          · exact hs.1 _ (List.mem_map_of_mem Prod.snd hxm)
        · rw [helz] at hs hxm
          rw [List.map_append, List.Sorted, List.pairwise_append] at hs
          rcases List.mem_append.1 hxm with hxm | hxm
          · exact hs.2.2 _ (List.mem_map_of_mem Prod.snd hxm) _ (by simp)
          · simp at hxm; rw [hxm]

/-- Witness for C6: minimum and maximum after inserting 1, 2, 3. -/
theorem C6_min_max_witness :
    ∃ rmin rmax,
      (∀ fuel, 3 ≤ fuel →
        rbtree_min fuel example123 = some rmin ∧ rbtree_max fuel example123 = some rmax) ∧
      (([(4, 3), (3, 2), (2, 1)] : List (Nat × Int)) = [] → rmin = none ∧ rmax = none) ∧
      (([(4, 3), (3, 2), (2, 1)] : List (Nat × Int)) ≠ [] → ∃ a b, rmin = some a ∧
        rmax = some b ∧
        (a, example123.key a) ∈ ([(4, 3), (3, 2), (2, 1)] : List (Nat × Int)) ∧
        (b, example123.key b) ∈ ([(4, 3), (3, 2), (2, 1)] : List (Nat × Int)) ∧
        ∀ x ∈ ([(4, 3), (3, 2), (2, 1)] : List (Nat × Int)),
          example123.key a ≤ x.2 ∧ x.2 ≤ example123.key b) :=
  C6_min_max example123_reach

theorem example555_represents : Represents example555 tree555 := by
  refine ⟨by decide, ?_, by decide, by decide, by decide, by decide, by decide, by decide⟩
  simp only [tree555, Rep, ptr_nil, ptr_node]
  decide

theorem example555_reach : Reach example555 [(4, 5), (3, 5), (2, 5)] := by
  have h1 : Reach _ _ := @Reach.insert _ _ 4 5 _ Reach.new (some_getD _ (new_rbtree, 0)
    (by decide))
  have h2 : Reach _ _ := @Reach.insert _ _ 4 5 _ h1 (some_getD _ (new_rbtree, 0)
    (by decide))
  have h3 : Reach _ _ := @Reach.insert _ _ 4 5 _ h2 (some_getD _ (new_rbtree, 0)
    (by decide))
  exact h3

theorem exampleErased_reach : Reach exampleErased [(2, 1)] := by
  have h1 : Reach _ _ := @Reach.insert _ _ 3 1 _ Reach.new (some_getD _ (new_rbtree, 0)
    (by decide))
  have h2 : Reach _ _ := @Reach.insert _ _ 3 2 _ h1 (some_getD _ (new_rbtree, 0)
    (by decide))
  have h3 : Reach _ _ := @Reach.erase _ _ 3 3 2 _ h2 (by decide) (some_getD _ (new_rbtree, 0)
    (by decide))
  exact h3

/-- C7, counterexample: inserting 5, 5, 5 in order returns the state `example555`, which lays
out the tree `tree555`, and in it the left child of the root has the key of the root: the
ordering with a strict left side does not hold. -/
theorem C7_strict_ordering_counterexample :
    insert_all 4 [5, 5, 5] new_rbtree = some example555 ∧
      Reach example555 [(4, 5), (3, 5), (2, 5)] ∧
      Represents example555 tree555 ∧ ¬ tree555.StrictLeftOrdered :=
  ⟨some_getD _ _ (by decide), example555_reach, example555_represents,
    by simp [tree555, StrictLeftOrdered, keys]⟩

/-- C7, amended: in every state reached from `new_rbtree` by completed inserts and erases,
duplicates included, every node satisfies the ordering with ties allowed on both sides: all
keys in its left subtree are at most its key, all keys in its right subtree at least its key. -/
theorem C7_ordering {t : rbtree} {ref : List (Nat × Int)} (h : Reach t ref) :
    ∃ T, Represents t T ∧ T.elems.Perm ref ∧ T.Ordered := by
  obtain ⟨T, hinv, hperm⟩ := reach_inv h
  exact ⟨T, hinv.rep, hperm, (Ordered_iff_sorted T).2 hinv.sorted⟩

/-- Witness for C7: the state after inserting 5, 5, 5. -/
theorem C7_ordering_witness :
    ∃ T, Represents example555 T ∧ T.elems.Perm [(4, 5), (3, 5), (2, 5)] ∧ T.Ordered :=
  C7_ordering example555_reach

/-- C8, counterexample: after inserting 1, 2 and erasing the node of key 2 (a completed
`rbtree_erase` on a valid tree) the sentinel is at address 1 and its parent link points to the
node at address 2. -/
theorem C8_sentinel_parent_counterexample :
    Reach exampleErased [(2, 1)] ∧ exampleErased.nil = 1 ∧
      exampleErased.parent exampleErased.nil = 2 ∧
      exampleErased.parent exampleErased.nil ≠ exampleErased.nil :=
  ⟨exampleErased_reach, by decide, by decide, by decide⟩

/-- C8, amended: after `new_rbtree` and after every completed `rbtree_insert` and
`rbtree_erase` on a tree so reached, the sentinel is BLACK and its own left and right links
still point to the sentinel itself. -/
theorem C8_sentinel_black_self_linked {t : rbtree} {ref : List (Nat × Int)}
    (h : Reach t ref) :
    t.color t.nil = RBTREE_BLACK ∧ t.left t.nil = t.nil ∧ t.right t.nil = t.nil := by
  obtain ⟨T, hinv, -⟩ := reach_inv h
  exact ⟨hinv.rep.nil_color, hinv.rep.nil_left, hinv.rep.nil_right⟩

/-- Witness for C8: the state after inserting 1, 2 and erasing the node of key 2. -/
theorem C8_sentinel_black_self_linked_witness :
    exampleErased.color exampleErased.nil = RBTREE_BLACK ∧
      exampleErased.left exampleErased.nil = exampleErased.nil ∧
      exampleErased.right exampleErased.nil = exampleErased.nil :=
  C8_sentinel_black_self_linked exampleErased_reach

/-- C9: for every sequence of `n` insertions into a new tree, the insertions return and the
height `h` of the resulting tree (the number of real nodes on the longest path from the root to
the sentinel) satisfies `2 ^ h ≤ (n + 1) ^ 2`. -/
theorem C9_height_bound (keys : List Int) :
    ∃ t T, (∀ fuel, keys.length < fuel → insert_all fuel keys new_rbtree = some t) ∧
      Represents t T ∧ T.size = keys.length ∧ 2 ^ T.height ≤ (keys.length + 1) ^ 2 := by
  obtain ⟨t, T, hins, hinv, hsize, -⟩ := insert_all_spec keys new_rbtree nil new_rbtree_inv
  have hsz : T.size = keys.length := by simpa [size] using hsize
  refine ⟨t, T, ?_, hinv.rep, hsz, ?_⟩
  · intro fuel hf
    exact hins fuel (by simpa [size] using hf)
  · rw [← hsz]
    exact pow_height_le hinv.root_black hinv.norr hinv.bal

/-- C10, counterexample: on the tree built by inserting 1, 2, 3 (three nodes) and capacity 2,
`rbtree_to_array` returns 0, which is not `min(2, 3)`. -/
theorem C10_return_value_counterexample :
    RBInv example123 tree123 ∧ tree123.size = 3 ∧
      (rbtree_to_array 4 example123 (fun _ => 0) 2).map Prod.snd = some 0 ∧
      (0 : Int) ≠ ((min 2 tree123.size : Nat) : Int) :=
  ⟨example123_inv, by decide, by decide, by decide⟩

/-- C10, amended: for every valid tree with `s` nodes and every capacity `n`,
`rbtree_to_array(t, arr, n)` returns the status 0; the count of keys written into the buffer is
`min(n, s)`, which is the final value of the index of `inorder_fill`: the slots below it hold
the first keys in order and all others are unchanged. -/
theorem C10_to_array_status_and_count {t : rbtree} {T : Tree} (h : RBInv t T)
    (arr : Nat → Int) (n : Nat) :
    ∃ arr2, (∀ fuel, T.height < fuel →
        rbtree_to_array fuel t arr n = some (arr2, 0) ∧
        inorder_fill t n fuel t.root (arr, 0) = some (arr2, min n T.size)) ∧
      (∀ i, i < min n T.size → arr2 i = T.keys.getD i 0) ∧
      (∀ i, min n T.size ≤ i → arr2 i = arr i) := by
  have hfs := fill_spec n T.keys (arr, 0) (Nat.zero_le n)
  have hlen : T.keys.length = T.size := by
    rw [keys_eq_map_elems, size_eq_length_elems, List.length_map]
  simp only [Nat.zero_add, Nat.zero_le, true_and, Nat.sub_zero, hlen] at hfs
  refine ⟨(fill n T.keys (arr, 0)).1, ?_, ?_, ?_⟩
  · intro fuel hf
    obtain ⟨h1, h2⟩ := to_array_spec h.rep arr n fuel hf
    refine ⟨h2, ?_⟩
    rw [h1, Nat.min_comm, ← hfs.1]
  · intro i hi
    rw [hfs.2 i, if_pos ⟨lt_of_lt_of_le hi (Nat.min_le_right _ _),
      lt_of_lt_of_le hi (Nat.min_le_left _ _)⟩]
  · intro i hi
    rw [hfs.2 i, if_neg]
    intro hc
    exact absurd (lt_min hc.2 hc.1) (not_lt.2 hi)

/-- Witness for C10: the tree built by inserting 1, 2, 3 exported with capacity 2. -/
theorem C10_to_array_status_and_count_witness :
    ∃ arr2, (∀ fuel, tree123.height < fuel →
        rbtree_to_array fuel example123 (fun _ => 0) 2 = some (arr2, 0) ∧
        inorder_fill example123 2 fuel example123.root ((fun _ => 0), 0) =
          some (arr2, min 2 tree123.size)) ∧
      (∀ i, i < min 2 tree123.size → arr2 i = tree123.keys.getD i 0) ∧
      (∀ i, min 2 tree123.size ≤ i → arr2 i = (fun _ => (0 : Int)) i) :=
  C10_to_array_status_and_count example123_inv (fun _ => 0) 2

theorem insert_all_snoc (fuel : Nat) (k : Int) : ∀ (ks : List Int) (t : rbtree),
    insert_all fuel (ks ++ [k]) t =
      (insert_all fuel ks t).bind (fun t2 => (rbtree_insert fuel t2 k).map Prod.fst) := by
  intro ks
  induction ks with
  | nil =>
    intro t
    simp only [List.nil_append, insert_all, Option.some_bind]
    cases rbtree_insert fuel t k with
    | none => rfl
    | some r => rfl
  | cons a ks ih =>
    intro t
    simp only [List.cons_append, insert_all]
    cases rbtree_insert fuel t a with
    | none => rfl
    | some r => exact ih r.1

theorem insert_last_eq {fuel : Nat} {ks : List Int} {k : Int} {t1 t2 : rbtree} {z : Nat}
    {o : Option rbtree}
    (h1 : insert_all fuel ks new_rbtree = some t1)
    (h2 : insert_all fuel (ks ++ [k]) new_rbtree = some t2)
    (h3 : rbtree_insert fuel t1 k = o.map (fun t => (t, z))) :
    o = some t2 ∧ rbtree_insert fuel t1 k = some (t2, z) := by
  rw [insert_all_snoc, h1, Option.some_bind, h3] at h2
  cases o with
  | none => simp at h2
  | some t =>
    simp only [Option.map_some', Option.some.injEq] at h2
    subst h2
    exact ⟨rfl, h3⟩

theorem example102030_represents : Represents example102030 tree102030 := by
  refine ⟨by decide, ?_, by decide, by decide, by decide, by decide, by decide, by decide⟩
  simp only [tree102030, Rep, ptr_nil, ptr_node]
  decide

theorem example302010_represents : Represents example302010 tree302010 := by
  refine ⟨by decide, ?_, by decide, by decide, by decide, by decide, by decide, by decide⟩
  simp only [tree302010, Rep, ptr_nil, ptr_node]
  decide

/-- C12, counterexample: inserting 10, 20, 30 in that order into a new tree returns the state
`example102030`, in which the two children of the root are RED, not BLACK. -/
theorem C12_children_black_counterexample :
    insert_all 4 [10, 20, 30] new_rbtree = some example102030 ∧
      example102030.color (example102030.left example102030.root) = RBTREE_RED ∧
      example102030.color (example102030.right example102030.root) = RBTREE_RED ∧
      example102030.color (example102030.left example102030.root) ≠ RBTREE_BLACK :=
  ⟨some_getD _ _ (by decide), by decide, by decide, by decide⟩

/-- C12, amended: inserting 10, 20, 30 in that order into a new tree triggers a left rotation at
10 and ends with root 20 (BLACK) whose left child is 10 and right child is 30, both children
RED.  The insert of 30 into the tree holding 10, 20 runs the fixup on the linked state; the loop
is entered, its one pass recolours and calls `left_rotate` on the node at address 2, which holds
the key 10, and the result is the final state. -/
theorem C12_insert_10_20_30 :
    insert_all 4 [10, 20] new_rbtree = some example1020 ∧
      rbtree_insert 4 example1020 30 =
        (rbtree_insert_fixup 4 example1020linked 4).map (fun t => (t, 4)) ∧
      example1020linked.color (example1020linked.parent 4) = RBTREE_RED ∧
      example1020linked.key 2 = 10 ∧
      rbtree_insert_fixup_body example1020linked 4 =
        (left_rotate ((example1020linked.setColor 3 RBTREE_BLACK).setColor 2 RBTREE_RED) 2, 4) ∧
      rbtree_insert 4 example1020 30 = some (example102030, 4) ∧
      insert_all 4 [10, 20, 30] new_rbtree = some example102030 ∧
      Represents example102030 tree102030 ∧
      example102030.key example102030.root = 20 ∧
      example102030.color example102030.root = RBTREE_BLACK ∧
      example102030.key (example102030.left example102030.root) = 10 ∧
      example102030.key (example102030.right example102030.root) = 30 ∧
      example102030.color (example102030.left example102030.root) = RBTREE_RED ∧
      example102030.color (example102030.right example102030.root) = RBTREE_RED := by
  have h1 : insert_all 4 [10, 20] new_rbtree = some example1020 := some_getD _ _ (by decide)
  have h2 : insert_all 4 ([10, 20] ++ [30]) new_rbtree = some example102030 :=
    some_getD _ _ (by decide)
  have h3 : rbtree_insert 4 example1020 30 =
      (rbtree_insert_fixup 4 example1020linked 4).map (fun t => (t, 4)) := rfl
  exact ⟨h1, h3, by decide, by decide, rfl, (insert_last_eq h1 h2 h3).2, h2,
    example102030_represents, by decide, by decide, by decide, by decide, by decide, by decide⟩

/-- C13: inserting 30, 20, 10 in that order into a new tree triggers a right rotation at 30 and
ends with root 20, whose left child is 10 and right child is 30.  The insert of 10 into the tree
holding 30, 20 runs the fixup on the linked state; the loop is entered, its one pass recolours
and calls `right_rotate` on the node at address 2, which holds the key 30, and the result is the
final state. -/
theorem C13_insert_30_20_10 :
    insert_all 4 [30, 20] new_rbtree = some example3020 ∧
      rbtree_insert 4 example3020 10 =
        (rbtree_insert_fixup 4 example3020linked 4).map (fun t => (t, 4)) ∧
      example3020linked.color (example3020linked.parent 4) = RBTREE_RED ∧
      example3020linked.key 2 = 30 ∧
      rbtree_insert_fixup_body example3020linked 4 =
        (right_rotate ((example3020linked.setColor 3 RBTREE_BLACK).setColor 2 RBTREE_RED) 2, 4) ∧
      rbtree_insert 4 example3020 10 = some (example302010, 4) ∧
      insert_all 4 [30, 20, 10] new_rbtree = some example302010 ∧
      Represents example302010 tree302010 ∧
      example302010.key example302010.root = 20 ∧
      example302010.key (example302010.left example302010.root) = 10 ∧
      example302010.key (example302010.right example302010.root) = 30 := by
  have h1 : insert_all 4 [30, 20] new_rbtree = some example3020 := some_getD _ _ (by decide)
  have h2 : insert_all 4 ([30, 20] ++ [10]) new_rbtree = some example302010 :=
    some_getD _ _ (by decide)
  have h3 : rbtree_insert 4 example3020 10 =
      (rbtree_insert_fixup 4 example3020linked 4).map (fun t => (t, 4)) := rfl
  exact ⟨h1, h3, by decide, by decide, rfl, (insert_last_eq h1 h2 h3).2, h2,
    example302010_represents, by decide, by decide, by decide⟩

theorem checkRep_sound {m : Nat → node_t} {nl : Nat} : ∀ (T : Tree) (par : Nat),
    checkRep m nl T par = true → Rep m nl T par := by
  intro T
  induction T with
  | nil => intro _ _; trivial
  | node c l a k r ihl ihr =>
    intro par h
    simp only [checkRep, Bool.and_eq_true, decide_eq_true_eq] at h
    obtain ⟨⟨⟨⟨⟨⟨⟨h1, h2⟩, h3⟩, h4⟩, h5⟩, h6⟩, h7⟩, h8⟩ := h
    refine ⟨h1, ?_, ihl a h7, ihr a h8⟩
    cases hm : m a
    simp only [hm] at h2 h3 h4 h5 h6
    simp [h2, h3, h4, h5, h6]

theorem some_getD_fst {α β : Type} (o : Option (α × β)) (d : α) (b : β)
    (h : o.map Prod.snd = some b) : o = some ((o.map Prod.fst).getD d, b) := by
  cases o with
  | none => simp at h
  | some r =>
    obtain ⟨x, y⟩ := r
    simp only [Option.map_some', Option.some.injEq] at h
    simp [h]

theorem example1to7_represents : Represents example1to7 tree1to7 := by
  exact ⟨by decide, checkRep_sound _ _ (by decide), by decide, by decide, by decide, by decide,
    by decide, by decide⟩

theorem example1to7erased_represents : Represents example1to7erased tree1to7erased := by
  exact ⟨by decide, checkRep_sound _ _ (by decide), by decide, by decide, by decide, by decide,
    by decide, by decide⟩

/-- C14: in the tree built by inserting 1, 2, ..., 7 in ascending order the node of key 4
(address 5) has two children; `rbtree_erase` on it returns, and afterwards its in-order
successor, the node of key 5 (address 6), stands where the node of key 4 stood: it has the
parent, the left child and the right child that node had, these three nodes link back to it, and
it carries the colour that node had; `rbtree_to_array` with capacity 6 then yields
`[1, 2, 3, 5, 6, 7]`. -/
theorem C14_erase_two_children_scenario :
    insert_all 8 [1, 2, 3, 4, 5, 6, 7] new_rbtree = some example1to7 ∧
      Represents example1to7 tree1to7 ∧
      example1to7.key 5 = 4 ∧
      example1to7.left 5 ≠ example1to7.nil ∧ example1to7.right 5 ≠ example1to7.nil ∧
      min_node example1to7 8 (example1to7.right 5) = some 6 ∧ example1to7.key 6 = 5 ∧
      rbtree_erase 8 example1to7 5 = some (example1to7erased, 0) ∧
      Represents example1to7erased tree1to7erased ∧
      example1to7erased.key 6 = 5 ∧
      example1to7erased.parent 6 = example1to7.parent 5 ∧
      example1to7erased.right (example1to7.parent 5) = 6 ∧
      example1to7.right (example1to7.parent 5) = 5 ∧
      example1to7erased.left 6 = example1to7.left 5 ∧
      example1to7erased.right 6 = example1to7.right 5 ∧
      example1to7erased.parent (example1to7.left 5) = 6 ∧
      example1to7erased.parent (example1to7.right 5) = 6 ∧
      example1to7erased.color 6 = example1to7.color 5 ∧
      (rbtree_to_array 8 example1to7erased (fun _ => 0) 6).map
        (fun r => ((List.range 6).map r.1, r.2)) = some ([1, 2, 3, 5, 6, 7], 0) :=
  ⟨some_getD _ _ (by decide), example1to7_represents, by decide, by decide, by decide,
    by decide, by decide, some_getD_fst _ _ _ (by decide), example1to7erased_represents,
    by decide, by decide, by decide, by decide, by decide, by decide, by decide, by decide,
    by decide, by decide⟩

/-- C11: for every valid tree with `s` nodes and every capacity `n` (also `n = 0` and `n < s`),
`rbtree_to_array` returns and the buffer after it holds, in the slots `0 .. min(n, s) - 1`,
the prefix of length `min(n, s)` of the in-order key sequence; that sequence is ascending, so
the prefix holds the `min(n, s)` smallest keys (each is at most every key left out); every slot
at an index `≥ min(n, s)` is unchanged.  The tree record is read only: the function has no
store into the tree or a node, so the same record (and the tree it represents) is there after
the call. -/
theorem C11_to_array_prefix {t : rbtree} {T : Tree} (h : RBInv t T) (arr : Nat → Int)
    (n : Nat) :
    ∃ arr2, (∀ fuel, T.height < fuel → rbtree_to_array fuel t arr n = some (arr2, 0)) ∧
      (List.range (min n T.size)).map arr2 = T.keys.take (min n T.size) ∧
      (T.keys.take (min n T.size)).Sorted (· ≤ ·) ∧
      (∀ x ∈ T.keys.take (min n T.size), ∀ y ∈ T.keys.drop (min n T.size), x ≤ y) ∧
      (∀ i, min n T.size ≤ i → arr2 i = arr i) ∧
      Represents t T := by
  have hfs := fill_spec n T.keys (arr, 0) (Nat.zero_le n)
  have hlen : T.keys.length = T.size := by
    rw [keys_eq_map_elems, size_eq_length_elems, List.length_map]
  simp only [Nat.zero_add, Nat.zero_le, true_and, Nat.sub_zero, hlen] at hfs
  have hs := h.sorted
  refine ⟨(fill n T.keys (arr, 0)).1, ?_, ?_, ?_, ?_, ?_, h.rep⟩
  · intro fuel hf
    exact (to_array_spec h.rep arr n fuel hf).2
  · apply List.ext_getElem
    · simp [hlen]
    · intro i h1 h2
      simp only [List.length_map, List.length_range, lt_min_iff] at h1
      simp only [List.getElem_map, List.getElem_range, List.getElem_take]
      rw [hfs.2 i, if_pos ⟨h1.2, h1.1⟩, List.getD_eq_getElem _ _ (by rw [hlen]; exact h1.2)]
  · exact hs.sublist (List.take_sublist _ _)
  · intro x hx y hy
    have := hs
    rw [← List.take_append_drop (min n T.size) T.keys, List.Sorted, List.pairwise_append] at this
    exact this.2.2 x hx y hy
  · intro i hi
    rw [hfs.2 i, if_neg]
    intro hc
    exact absurd (lt_min hc.2 hc.1) (not_lt.2 hi)

/-- Witness for C11: the tree built by inserting 1, 2, 3 exported with capacity 2. -/
theorem C11_to_array_prefix_witness :
    ∃ arr2, (∀ fuel, tree123.height < fuel →
        rbtree_to_array fuel example123 (fun _ => 7) 2 = some (arr2, 0)) ∧
      (List.range (min 2 tree123.size)).map arr2 = tree123.keys.take (min 2 tree123.size) ∧
      (tree123.keys.take (min 2 tree123.size)).Sorted (· ≤ ·) ∧
      (∀ x ∈ tree123.keys.take (min 2 tree123.size),
        ∀ y ∈ tree123.keys.drop (min 2 tree123.size), x ≤ y) ∧
      (∀ i, min 2 tree123.size ≤ i → arr2 i = (fun _ => (7 : Int)) i) ∧
      Represents example123 tree123 :=
  C11_to_array_prefix example123_inv (fun _ => 7) 2

theorem eq_nil_of_elems {T : Tree} (h : T.elems = []) : T = nil := by
  cases T with
  | nil => rfl
  | node c l a k r => simp [elems] at h

/-- C15: for every key `k`, `rbtree_insert(t, k)` on a new tree returns a node `z`, and
`rbtree_erase` on `z` returns and leaves the empty tree: the root is the sentinel, and
`rbtree_min`, `rbtree_max` and `rbtree_find` for every key return `NULL`. -/
theorem C15_erase_sole_node (k : Int) :
    ∃ t1 z t2, (∀ fuel, 0 < fuel → rbtree_insert fuel new_rbtree k = some (t1, z)) ∧
      (∀ fuel, 0 < fuel → rbtree_erase fuel t1 z = some (t2, 0)) ∧
      Represents t2 nil ∧ t2.root = t2.nil ∧
      (∀ fuel, rbtree_min fuel t2 = some none ∧ rbtree_max fuel t2 = some none) ∧
      (∀ key fuel, 0 < fuel → rbtree_find fuel t2 key = some none) := by
  obtain ⟨t1, T1, pre, post, hi, hinv1, hel, hel1, -, -, -⟩ :=
    rbtree_insert_spec new_rbtree_inv k 1 (by simp [height])
  have hpp : pre = [] ∧ post = [] := by
    simpa [elems, eq_comm] using hel
  rw [hpp.1, hpp.2, List.nil_append] at hel1
  have hz : new_rbtree.brk ∈ T1.addrs := by
    rw [addrs_eq_map_elems, hel1]; simp
  have hh : T1.height ≤ 1 := by
    have := height_le_size T1
    rw [size_eq_length_elems, hel1] at this
    simpa using this
  obtain ⟨t2, T2, pre2, post2, k2, he, hinv2, hel2, hel3, -, -⟩ :=
    rbtree_erase_spec hinv1 hz 1 hh
  have hT2 : T2 = nil := by
    apply eq_nil_of_elems
    rw [hel1] at hel2
    have hlen := congrArg List.length hel2
    simp only [List.length_cons, List.length_nil, List.length_append] at hlen
    have h1 : pre2 = [] := List.eq_nil_of_length_eq_zero (by omega)
    have h2 : post2 = [] := List.eq_nil_of_length_eq_zero (by omega)
    rw [hel3, h1, h2]; rfl
  subst hT2
  have hroot : t2.root = t2.nil := by simpa using hinv2.rep.root
  refine ⟨t1, new_rbtree.brk, t2, fun fuel hf => rbtree_insert_mono hi hf,
    fun fuel hf => rbtree_erase_mono he hf, hinv2.rep, hroot, ?_, ?_⟩
  · intro fuel
    simp [rbtree_min, rbtree_max, hroot]
  · intro key fuel hf
    obtain ⟨f, rfl⟩ : ∃ f, fuel = f + 1 := ⟨fuel - 1, by omega⟩
    simp [rbtree_find, rbtree_find_loop, hroot]

theorem set_links_key_color (t : rbtree) (a p b : Nat) :
    ((t.setParent a p).key b = t.key b ∧ (t.setParent a p).color b = t.color b) ∧
    ((t.setLeft a p).key b = t.key b ∧ (t.setLeft a p).color b = t.color b) ∧
    ((t.setRight a p).key b = t.key b ∧ (t.setRight a p).color b = t.color b) ∧
    ((t.setRoot p).key b = t.key b ∧ (t.setRoot p).color b = t.color b) := by
  simp only [rbtree.key, rbtree.color, rbtree.setParent, rbtree.setLeft, rbtree.setRight,
    rbtree.setRoot, set_mem]
  by_cases h : b = a
  · simp [h]
  · simp [h]

theorem setParent_key (t : rbtree) (a p b : Nat) : (t.setParent a p).key b = t.key b :=
  (set_links_key_color t a p b).1.1
theorem setParent_color (t : rbtree) (a p b : Nat) : (t.setParent a p).color b = t.color b :=
  (set_links_key_color t a p b).1.2
theorem setLeft_key (t : rbtree) (a p b : Nat) : (t.setLeft a p).key b = t.key b :=
  (set_links_key_color t a p b).2.1.1
theorem setLeft_color (t : rbtree) (a p b : Nat) : (t.setLeft a p).color b = t.color b :=
  (set_links_key_color t a p b).2.1.2
theorem setRight_key (t : rbtree) (a p b : Nat) : (t.setRight a p).key b = t.key b :=
  (set_links_key_color t a p b).2.2.1.1
theorem setRight_color (t : rbtree) (a p b : Nat) : (t.setRight a p).color b = t.color b :=
  (set_links_key_color t a p b).2.2.1.2
theorem setRoot_key (t : rbtree) (p b : Nat) : (t.setRoot p).key b = t.key b := rfl
theorem setRoot_color (t : rbtree) (p b : Nat) : (t.setRoot p).color b = t.color b := rfl

theorem left_rotate_key_color (t : rbtree) (x a : Nat) :
    (left_rotate t x).key a = t.key a ∧ (left_rotate t x).color a = t.color a := by
  unfold left_rotate
  simp only []
  split_ifs <;>
    simp only [setParent_key, setParent_color, setLeft_key, setLeft_color, setRight_key,
      setRight_color, setRoot_key, setRoot_color, and_self]

theorem right_rotate_key_color (t : rbtree) (x a : Nat) :
    (right_rotate t x).key a = t.key a ∧ (right_rotate t x).color a = t.color a := by
  unfold right_rotate
  simp only []
  split_ifs <;>
    simp only [setParent_key, setParent_color, setLeft_key, setLeft_color, setRight_key,
      setRight_color, setRoot_key, setRoot_color, and_self]

theorem root_focus_nil {t : rbtree} {C : Ctx} {c : color_t} {l : Tree} {a : Nat} {k : Int}
    {r : Tree} (h : Represents t (plug C (node c l a k r))) (hx : t.root = a) : C = [] := by
  cases C with
  | nil => rfl
  | cons f up =>
    exfalso
    have hroot := h.root
    have hnd := nodup_at (C := f :: up) h
    rw [ptr_plug, hx] at hroot
    have hm := croot_mem up f.addr
    simp only [croot] at hroot
    rw [← hroot] at hm
    have hfa : f.addr ∈ caddrs (f :: up) := by
      cases f <;> simp [caddrs, Frame.addrs]
    have hca : ∀ b ∈ caddrs up, b ∈ caddrs (f :: up) := by
      intro b hb; simp [caddrs, hb]
    have hxin : a ∈ caddrs (f :: up) := by
      rcases hm with hm | hm
      · rw [hm]; exact hfa
      · exact hca _ hm
    rw [List.nodup_append] at hnd
    exact hnd.2.2 (by simp [addrs]) hxin

/-- C16: for every well-linked tree (the record represents a tree) and every pivot `x` whose
right child `y` is a real node, `left_rotate(t, x)` leaves the key and the colour of every node
unchanged and leaves the in-order sequence of nodes and keys of the whole tree unchanged, while
`y` becomes the root of the subtree in the former place of `x` (same context `C`, the parent of
`y` is the former parent of `x`, and `y` is the tree root if `x` was), with `x` as its left
child; the mirror statement holds for `right_rotate` with a pivot whose left child is real. -/
theorem C16_rotation_structural :
    (∀ (t : rbtree) (C : Ctx) (cx cy : color_t) (A B D : Tree) (x y : Nat) (kx ky : Int),
      Represents t (plug C (node cx A x kx (node cy B y ky D))) →
        Represents (left_rotate t x) (plug C (node cy (node cx A x kx B) y ky D)) ∧
        (∀ a, (left_rotate t x).key a = t.key a ∧ (left_rotate t x).color a = t.color a) ∧
        (plug C (node cy (node cx A x kx B) y ky D)).elems =
          (plug C (node cx A x kx (node cy B y ky D))).elems ∧
        (plug C (node cy (node cx A x kx B) y ky D)).keys =
          (plug C (node cx A x kx (node cy B y ky D))).keys ∧
        (left_rotate t x).parent y = t.parent x ∧ (left_rotate t x).left y = x ∧
        (t.root = x → (left_rotate t x).root = y)) ∧
    (∀ (t : rbtree) (C : Ctx) (cx cy : color_t) (A B D : Tree) (x y : Nat) (kx ky : Int),
      Represents t (plug C (node cx (node cy A y ky B) x kx D)) →
        Represents (right_rotate t x) (plug C (node cy A y ky (node cx B x kx D))) ∧
        (∀ a, (right_rotate t x).key a = t.key a ∧ (right_rotate t x).color a = t.color a) ∧
        (plug C (node cy A y ky (node cx B x kx D))).elems =
          (plug C (node cx (node cy A y ky B) x kx D)).elems ∧
        (plug C (node cy A y ky (node cx B x kx D))).keys =
          (plug C (node cx (node cy A y ky B) x kx D)).keys ∧
        (right_rotate t x).parent y = t.parent x ∧ (right_rotate t x).right y = x ∧
        (t.root = x → (right_rotate t x).root = y)) := by
  constructor
  · intro t C cx cy A B D x y kx ky h
    obtain ⟨hr, -⟩ := left_rotate_at h
    have hnil := left_rotate_nil t x
    have he : (plug C (node cy (node cx A x kx B) y ky D)).elems =
        (plug C (node cx A x kx (node cy B y ky D))).elems := by
      simp [elems_plug, elems]
    have r1 := read_at hr
    have r0 := read_at h
    rw [hnil] at r1
    refine ⟨hr, left_rotate_key_color t x, he, ?_, ?_, ?_, ?_⟩
    · rw [keys_eq_map_elems, keys_eq_map_elems, he]
    · rw [r1.2.2.1, r0.2.2.1]
    · simpa using r1.2.2.2.1
    · intro hx
      have hC := root_focus_nil h hx
      subst hC
      simpa using hr.root
  · intro t C cx cy A B D x y kx ky h
    obtain ⟨hr, -⟩ := right_rotate_at h
    have hnil := right_rotate_nil t x
    have he : (plug C (node cy A y ky (node cx B x kx D))).elems =
        (plug C (node cx (node cy A y ky B) x kx D)).elems := by
      simp [elems_plug, elems]
    have r1 := read_at hr
    have r0 := read_at h
    rw [hnil] at r1
    refine ⟨hr, right_rotate_key_color t x, he, ?_, ?_, ?_, ?_⟩
    · rw [keys_eq_map_elems, keys_eq_map_elems, he]
    · rw [r1.2.2.1, r0.2.2.1]
    · simpa using r1.2.2.2.2.1
    · intro hx
      have hC := root_focus_nil h hx
      subst hC
      simpa using hr.root

/-- Witness for C16: the left rotation at the root of the tree built from 1, 2, 3 (pivot at
address 3, its right child at address 4), and the right rotation at the same root (its left
child at address 2). -/
theorem C16_rotation_structural_witness :
    (Represents (left_rotate example123 3)
        (plug [] (node RBTREE_RED (node RBTREE_BLACK (node RBTREE_RED nil 2 1 nil) 3 2 nil) 4 3
          nil)) ∧
      (∀ a, (left_rotate example123 3).key a = example123.key a ∧
        (left_rotate example123 3).color a = example123.color a) ∧
      (left_rotate example123 3).parent 4 = example123.parent 3 ∧
      (left_rotate example123 3).left 4 = 3 ∧
      (example123.root = 3 → (left_rotate example123 3).root = 4)) ∧
    (Represents (right_rotate example123 3)
        (plug [] (node RBTREE_RED nil 2 1 (node RBTREE_BLACK nil 3 2 (node RBTREE_RED nil 4 3
          nil)))) ∧
      (∀ a, (right_rotate example123 3).key a = example123.key a ∧
        (right_rotate example123 3).color a = example123.color a) ∧
      (right_rotate example123 3).parent 2 = example123.parent 3 ∧
      (right_rotate example123 3).right 2 = 3 ∧
      (example123.root = 3 → (right_rotate example123 3).root = 2)) :=
  have hl := C16_rotation_structural.1 example123 [] RBTREE_BLACK RBTREE_RED
    (node RBTREE_RED nil 2 1 nil) nil nil 3 4 2 3 example123_represents
  have hr := C16_rotation_structural.2 example123 [] RBTREE_BLACK RBTREE_RED
    nil nil (node RBTREE_RED nil 4 3 nil) 3 2 2 1 example123_represents
  ⟨⟨hl.1, hl.2.1, hl.2.2.2.2.1, hl.2.2.2.2.2.1, hl.2.2.2.2.2.2⟩,
    ⟨hr.1, hr.2.1, hr.2.2.2.2.1, hr.2.2.2.2.2.1, hr.2.2.2.2.2.2⟩⟩

theorem findPath_append {key : Int} {C D : Ctx} (hC : findPath key C) (hD : findPath key D) :
    findPath key (C ++ D) := by
  induction C with
  | nil => exact hD
  | cons f up ih =>
    cases f with
    | L c a k r => exact ⟨hC.1, hC.2.1, ih hC.2.2⟩
    | R c l a k => exact ⟨hC.1, hC.2.1, ih hC.2.2⟩

theorem find_path {key : Int} : ∀ (T : Tree), T.Ordered → key ∈ T.keys →
    ∃ C c l a r, T = plug C (node c l a key r) ∧ findPath key C ∧ T.find key = some a ∧
      ∀ z, (z, key) ∈ T.elems → z = a ∨ z ∈ l.addrs ∨ z ∈ r.addrs := by
  intro T
  induction T with
  | nil => intro _ h; simp [keys] at h
  | node c l b k r ihl ihr =>
    intro ho hk
    obtain ⟨hl, hr, hol, hor⟩ := ho
    by_cases hkey : key = k
    · subst hkey
      refine ⟨[], c, l, b, r, rfl, trivial, by simp [Tree.find], ?_⟩
      intro z hz
      simp only [elems, List.mem_append, List.mem_cons, Prod.mk.injEq] at hz
      rcases hz with hz | hz | hz
      · right; left
        rw [addrs_eq_map_elems]; exact List.mem_map_of_mem Prod.fst hz
      · left; exact hz.1
      · right; right
        rw [addrs_eq_map_elems]; exact List.mem_map_of_mem Prod.fst hz
    · by_cases hlt : key < k
      · have hnr : key ∉ r.keys := fun hm => absurd (hr key hm) (not_le.2 hlt)
        have hkl : key ∈ l.keys := by
          simp only [keys, List.mem_append, List.mem_cons] at hk
          tauto
        obtain ⟨C, c2, l2, a, r2, e, hp, hf, hall⟩ := ihl hol hkl
        refine ⟨C ++ [Frame.L c b k r], c2, l2, a, r2, ?_, ?_, ?_, ?_⟩
        · rw [plug_append, ← e]; rfl
        · exact findPath_append hp ⟨hkey, hlt, trivial⟩
        · simp [Tree.find, hkey, hlt, hf]
        · intro z hz
          simp only [elems, List.mem_append, List.mem_cons, Prod.mk.injEq] at hz
          rcases hz with hz | hz | hz
          · exact hall z hz
          · exact absurd hz.2 hkey
          · exact absurd (mem_keys_of_mem_elems hz) hnr
      · have hnl : key ∉ l.keys := fun hm => by
          have := hl key hm
          omega
        have hkr : key ∈ r.keys := by
          simp only [keys, List.mem_append, List.mem_cons] at hk
          tauto
        obtain ⟨C, c2, l2, a, r2, e, hp, hf, hall⟩ := ihr hor hkr
        refine ⟨C ++ [Frame.R c l b k], c2, l2, a, r2, ?_, ?_, ?_, ?_⟩
        · rw [plug_append, ← e]; rfl
        · exact findPath_append hp ⟨hkey, hlt, trivial⟩
        · simp [Tree.find, hkey, hlt, hf]
        · intro z hz
          simp only [elems, List.mem_append, List.mem_cons, Prod.mk.injEq] at hz
          rcases hz with hz | hz | hz
          · exact absurd (mem_keys_of_mem_elems hz) hnl
          · exact absurd hz.2 hkey
          · exact hall z hz

/-- C17: in every state reached from `new_rbtree` by inserts and erases that holds a node with
key `k` (one or several; `ref` lists the nodes present with their keys), `rbtree_find(t, k)`
returns the first node with key `k` met on the binary-search descent from the root: the path `C`
from the root to the returned node `a` is the path of the search loop and holds no node with key
`k`; and `a` is an ancestor of every other node with key `k`: each of them lies in the left or
the right subtree of `a`. -/
theorem C17_find_nearest_duplicate {t : rbtree} {ref : List (Nat × Int)} (h : Reach t ref)
    (k : Int) (z0 : Nat) (hz0 : (z0, k) ∈ ref) :
    ∃ T C c l a r, Represents t T ∧ T.elems.Perm ref ∧ T = plug C (node c l a k r) ∧
      findPath k C ∧
      (∀ fuel, ref.length < fuel → rbtree_find fuel t k = some (some a)) ∧
      ∀ z, (z, k) ∈ ref → z ≠ a → z ∈ l.addrs ∨ z ∈ r.addrs := by
  obtain ⟨T, hinv, hperm⟩ := reach_inv h
  have hk : k ∈ T.keys := mem_keys_of_mem_elems (hperm.mem_iff.2 hz0)
  obtain ⟨C, c, l, a, r, e, hp, hf, hall⟩ :=
    find_path T ((Ordered_iff_sorted T).2 hinv.sorted) hk
  refine ⟨T, C, c, l, a, r, hinv.rep, hperm, e, hp, ?_, ?_⟩
  · intro fuel hfu
    have := find_loop_spec (t := t) k T [] fuel hinv.rep
      (lt_of_le_of_lt (reach_length hperm) hfu)
    rw [rbtree_find, hinv.rep.root, this, hf]
  · intro z hz hne
    rcases hall z (hperm.mem_iff.2 hz) with h1 | h1
    · exact absurd h1 hne
    · exact h1

/-- Witness for C17: the key 5 in the state after inserting 5, 5, 5. -/
theorem C17_find_nearest_duplicate_witness :
    ∃ T C c l a r, Represents example555 T ∧ T.elems.Perm [(4, 5), (3, 5), (2, 5)] ∧
      T = plug C (node c l a 5 r) ∧ findPath 5 C ∧
      (∀ fuel, [(4, (5 : Int)), (3, 5), (2, 5)].length < fuel →
        rbtree_find fuel example555 5 = some (some a)) ∧
      ∀ z, (z, (5 : Int)) ∈ [(4, (5 : Int)), (3, 5), (2, 5)] → z ≠ a →
        z ∈ l.addrs ∨ z ∈ r.addrs :=
  C17_find_nearest_duplicate example555_reach 5 2 (by decide)

theorem ordered_at {T : Tree} (hs : T.keys.Sorted (· ≤ ·)) {C : Ctx} {s : Tree}
    (e : T = plug C s) : s.Ordered := by
  rw [Ordered_iff_sorted, keys_eq_map_elems]
  rw [e, keys_eq_map_elems, elems_plug, List.map_append, List.map_append] at hs
  have h1 : (List.map Prod.snd s.elems).Sublist
      (List.map Prod.snd (cpre C) ++ List.map Prod.snd s.elems ++ List.map Prod.snd (cpost C)) :=
    (List.sublist_append_right _ _).trans (List.sublist_append_left _ _)
  exact hs.sublist h1

/-- C18: in every state reached from `new_rbtree` by `rbtree_insert` and `rbtree_erase` calls,
duplicates included, every node satisfies the non-strict search-tree ordering: for every node
`a` of the tree, with key `k`, left subtree `l` and right subtree `r`, every key of `l` is at
most `k` and every key of `r` is at least `k`. -/
theorem C18_nonstrict_ordering_every_node {t : rbtree} {ref : List (Nat × Int)}
    (h : Reach t ref) :
    ∃ T, Represents t T ∧ T.elems.Perm ref ∧
      ∀ (C : Ctx) (c : color_t) (l : Tree) (a : Nat) (k : Int) (r : Tree),
        T = plug C (node c l a k r) → (∀ x ∈ l.keys, x ≤ k) ∧ (∀ x ∈ r.keys, k ≤ x) := by
  obtain ⟨T, hinv, hperm⟩ := reach_inv h
  refine ⟨T, hinv.rep, hperm, ?_⟩
  intro C c l a k r e
  have ho := ordered_at hinv.sorted e
  exact ⟨ho.1, ho.2.1⟩

/-- Witness for C18: the state after inserting 5, 5, 5. -/
theorem C18_nonstrict_ordering_every_node_witness :
    ∃ T, Represents example555 T ∧ T.elems.Perm [(4, 5), (3, 5), (2, 5)] ∧
      ∀ (C : Ctx) (c : color_t) (l : Tree) (a : Nat) (k : Int) (r : Tree),
        T = plug C (node c l a k r) → (∀ x ∈ l.keys, x ≤ k) ∧ (∀ x ∈ r.keys, k ≤ x) :=
  C18_nonstrict_ordering_every_node example555_reach

/-- C19: for every valid tree and every node `z` in it, `rbtree_erase(t, z)` returns and removes
the node `z` itself and no other: the nodes of the tree afterwards are the old nodes without `z`,
in the same in-order sequence, and every remaining node keeps the key it had before. -/
theorem C19_erase_removes_only_z {t : rbtree} {T : Tree} (h : RBInv t T) {z : Nat}
    (hz : z ∈ T.addrs) :
    ∃ t2 T2, (∀ fuel, T.height ≤ fuel → rbtree_erase fuel t z = some (t2, 0)) ∧
      RBInv t2 T2 ∧
      T2.elems = T.elems.filter (fun p => p.1 ≠ z) ∧
      (∀ a, a ∈ T2.addrs ↔ a ∈ T.addrs ∧ a ≠ z) ∧
      (∀ a ∈ T2.addrs, t2.key a = t.key a) := by
  obtain ⟨t2, T2, pre, post, k2, e1, e2, e3, e4, -, -⟩ := rbtree_erase_spec h hz T.height le_rfl
  have hnd := h.rep.nodup
  rw [addrs_eq_map_elems, e3] at hnd
  simp only [List.map_append, List.map_cons, List.nodup_append, List.nodup_cons, List.mem_map,
    List.disjoint_cons_right, not_exists, not_and] at hnd
  have hf1 : pre.filter (fun p => p.1 ≠ z) = pre := by
    rw [List.filter_eq_self]
    intro p hp2
    simpa using fun e => hnd.2.2.1 p hp2 e
  have hf2 : post.filter (fun p => p.1 ≠ z) = post := by
    rw [List.filter_eq_self]
    intro p hp2
    simpa using fun e => hnd.2.1.1 p hp2 e
  have he : T2.elems = T.elems.filter (fun p => p.1 ≠ z) := by
    rw [e3, e4, List.filter_append, List.filter_cons, hf1, hf2]; simp
  have hsub : ∀ p ∈ T2.elems, p ∈ T.elems := by
    intro p hp
    rw [he] at hp
    exact (List.mem_filter.1 hp).1
  refine ⟨t2, T2, fun fuel hf => rbtree_erase_mono e1 hf, e2, he, ?_, ?_⟩
  · intro a
    rw [addrs_eq_map_elems, addrs_eq_map_elems, he]
    simp only [List.mem_map, List.mem_filter, decide_eq_true_eq]
    constructor
    · rintro ⟨p, ⟨hp, hne⟩, rfl⟩
      exact ⟨⟨p, hp, rfl⟩, hne⟩
    · rintro ⟨⟨p, hp, rfl⟩, hne⟩
      exact ⟨p, ⟨hp, hne⟩, rfl⟩
  · intro a ha
    rw [addrs_eq_map_elems] at ha
    obtain ⟨p, hp, rfl⟩ := List.mem_map.1 ha
    rw [key_of_mem e2.rep (z := p.1) (k := p.2) hp,
      key_of_mem h.rep (z := p.1) (k := p.2) (hsub p hp)]

/-- Witness for C19: erasing the root (address 3, key 2, two children) of the tree built by
inserting 1, 2, 3; its successor (address 4, key 3) is relinked into its place. -/
theorem C19_erase_removes_only_z_witness :
    ∃ t2 T2, (∀ fuel, tree123.height ≤ fuel → rbtree_erase fuel example123 3 = some (t2, 0)) ∧
      RBInv t2 T2 ∧
      T2.elems = tree123.elems.filter (fun p => p.1 ≠ 3) ∧
      (∀ a, a ∈ T2.addrs ↔ a ∈ tree123.addrs ∧ a ≠ 3) ∧
      (∀ a ∈ T2.addrs, t2.key a = example123.key a) :=
  C19_erase_removes_only_z example123_inv (by simp [tree123, addrs])

theorem links_of_rep {t : rbtree} {T : Tree} (h : Represents t T) : ∀ n ∈ T.addrs,
    (t.left n ≠ t.nil → t.parent (t.left n) = n) ∧
    (t.right n ≠ t.nil → t.parent (t.right n) = n) ∧
    (t.parent n ≠ t.nil → t.left (t.parent n) = n ∨ t.right (t.parent n) = n) := by
  intro n hn
  obtain ⟨C, c, l, k, r, rfl⟩ := exists_plug_of_mem hn
  have r0 := read_at h
  refine ⟨?_, ?_, ?_⟩
  · intro hl
    cases l with
    | nil => exact absurd r0.2.2.2.1 hl
    | node c2 l2 a2 k2 r2 =>
      have r1 := read_at (C := Frame.L c n k r :: C) h
      rw [r0.2.2.2.1, ptr_node, r1.2.2.1]
      rfl
  · intro hr
    cases r with
    | nil => exact absurd r0.2.2.2.2.1 hr
    | node c2 l2 a2 k2 r2 =>
      have r1 := read_at (C := Frame.R c l n k :: C) h
      rw [r0.2.2.2.2.1, ptr_node, r1.2.2.1]
      rfl
  · intro hp
    cases C with
    | nil => exact absurd r0.2.2.1 hp
    | cons f up =>
      cases f with
      | L c2 p k2 r2 =>
        have r1 := read_at (C := up) h
        left
        rw [r0.2.2.1]
        simpa using r1.2.2.2.1
      | R c2 l2 p k2 =>
        have r1 := read_at (C := up) h
        right
        rw [r0.2.2.1]
        simpa using r1.2.2.2.2.1

theorem root_parent_of_rep {t : rbtree} {T : Tree} (h : Represents t T) (hne : T ≠ nil) :
    t.parent t.root = t.nil := by
  cases T with
  | nil => exact absurd rfl hne
  | node c l a k r =>
    have r0 := read_at (C := []) h
    rw [h.root, ptr_node, r0.2.2.1]
    rfl

theorem erase_single {t : rbtree} {c : color_t} {z : Nat} {k : Int} {fuel : Nat}
    {r : rbtree × Int} (h : Represents t (node c nil z k nil))
    (he : rbtree_erase fuel t z = some r) : r.1.parent r.1.root = r.1.nil := by
  have r0 := read_at (C := []) h
  have hroot : t.root = z := by simpa using h.root
  simp only [ptr_nil, cpar_nil] at r0
  obtain ⟨hc, -, hp, hl, hr, hz⟩ := r0
  rw [rbtree_erase_left_nil hl, hr] at he
  have hp2 : (t.mem z).parent = t.nil := hp
  have ht : (rbtree_transplant t z t.nil).root = t.nil ∧
      (rbtree_transplant t z t.nil).nil = t.nil ∧
      (rbtree_transplant t z t.nil).parent t.nil = t.nil := by
    simp [rbtree_transplant, hp2, rbtree.setRoot, rbtree.setParent, rbtree.parent, rbtree.set]
  obtain ⟨h1, h2, h3⟩ := ht
  simp only [erase_finish] at he
  split_ifs at he with hcol
  · cases fuel with
    | zero => simp [rbtree_erase_fixup] at he
    | succ f =>
      simp only [rbtree_erase_fixup, h1, ne_eq, not_true_eq_false, false_and,
        if_false, Option.some.injEq] at he
      subst he
      simp only [setColor_parent, setColor_root, setColor_nil, h1, h2, h3]
  · simp only [Option.some.injEq] at he
    subst he
    simp only [h1, h2, h3]

theorem single_of_all_eq {T : Tree} {z : Nat} (hnd : T.addrs.Nodup) (hne : T ≠ nil)
    (hall : ∀ b ∈ T.addrs, b = z) : ∃ c k, T = node c nil z k nil := by
  cases T with
  | nil => exact absurd rfl hne
  | node c l a k r =>
    have ha : a = z := hall a (by simp [addrs])
    simp only [addrs, List.nodup_append, List.nodup_cons, List.disjoint_cons_right] at hnd
    have hl : l = nil := by
      cases l with
      | nil => rfl
      | node c2 l2 a2 k2 r2 =>
        exfalso
        have h2 : a2 = z := hall a2 (by simp [addrs])
        exact hnd.2.2.1 (by rw [ha, ← h2]; simp [addrs])
    have hr : r = nil := by
      cases r with
      | nil => rfl
      | node c2 l2 a2 k2 r2 =>
        exfalso
        have h2 : a2 = z := hall a2 (by simp [addrs])
        exact hnd.2.1.1 (by rw [ha, ← h2]; simp [addrs])
    exact ⟨c, k, by rw [hl, hr, ha]⟩

theorem reach_root_parent {t : rbtree} {ref : List (Nat × Int)} (h : Reach t ref) :
    t.parent t.root = t.nil := by
  obtain ⟨T2, hinv2, hperm2⟩ := reach_inv h
  by_cases hT2 : T2 = nil
  · subst hT2
    cases h with
    | new => decide
    | @insert t0 ref0 fuel k r h0 hins =>
      have := hperm2.length_eq
      simp [elems] at this
    | @erase t0 ref0 fuel z k r h0 hmem her =>
      obtain ⟨T, hinv, hperm⟩ := reach_inv h0
      have hfil : ref0.filter (fun p => p.1 ≠ z) = [] := by
        simpa [elems] using hperm2
      have hall : ∀ b ∈ T.addrs, b = z := by
        intro b hb
        rw [addrs_eq_map_elems] at hb
        obtain ⟨p, hp, rfl⟩ := List.mem_map.1 hb
        have hp2 := hperm.mem_iff.1 hp
        rw [List.filter_eq_nil_iff] at hfil
        simpa using hfil p hp2
      have hne : T ≠ nil := by
        intro e
        subst e
        have := hperm.mem_iff.2 hmem
        simp [elems] at this
      obtain ⟨c, k2, rfl⟩ := single_of_all_eq hinv.rep.nodup hne hall
      exact erase_single hinv.rep her
  · exact root_parent_of_rep hinv2.rep hT2

/-- C20: after `new_rbtree` and after every completed `rbtree_insert` and `rbtree_erase` (`ref`
lists the nodes present with their keys) the parent links agree with the child links: the parent
of the root is the sentinel, and for every real node `n`, each child of `n` that is a real node
has `n` as its parent, and `n` is the left or the right child of its parent when that parent is
a real node. -/
theorem C20_parent_links_agree {t : rbtree} {ref : List (Nat × Int)} (h : Reach t ref) :
    ParentLinksAgree t (ref.map Prod.fst) := by
  obtain ⟨T, hinv, hperm⟩ := reach_inv h
  refine ⟨reach_root_parent h, ?_⟩
  intro n hn
  apply links_of_rep hinv.rep
  rw [addrs_eq_map_elems]
  exact (hperm.map Prod.fst).mem_iff.2 hn

/-- Witness for C20: the state after inserting 1, 2 and erasing the node of key 2. -/
theorem C20_parent_links_agree_witness :
    ParentLinksAgree exampleErased ([(2, (1 : Int))].map Prod.fst) :=
  C20_parent_links_agree exampleErased_reach

end Rbtree
